import Mathlib

/-! Address / line index of the disassembly view.

Shallow embedding of the navigation code of `src/widgets/QDisassemblyView.cpp`:
`updateDisassembly`, `following_instruction(s)`, `previous_instruction(s)`,
`get_instruction_size` (both overloads), `get_line_of_address`, `addressShown`,
`setRegion` / `clear`, `address_from_coord` and `saveState` / `restoreState`; and of
the chunk walk `collectBlocks` of `plugins/HeapAnalyzer/DialogHeap.cpp`.

Conventions.

* `edb::address_t` is an unsigned 64-bit value: addresses are natural numbers and
  every `+` / `-` on them is reduced modulo `2^64` (`addr_add`, `addr_sub`).
* `int` values (region-relative offsets, line counters) are integers; a conversion
  of an address difference to `int` goes through `to_int` (reduction to the signed
  32-bit range).  Additions of a small amount (one, or an instruction size) to an
  `int` offset are taken in `ℤ`: offsets are assumed to stay in the `int` range,
  outside of which the source has no defined meaning.
* The process memory reader `edb::v1::get_instruction_bytes`, the instruction
  decoder `edb::Instruction` and the constant `edb::Instruction::MAX_SIZE` are
  declared outside the two source files; they are the fields of `Env`.
* the function analyzer (`IAnalyzer::find_containing_function`) is an optional
  function from addresses to optional entry addresses.
* `IProcess::read_bytes` on a chunk header is a function from the address and the
  old content of the buffer to its new content; the heap walk is taken at the
  64-bit instance of the template.
-/

namespace Edb

/-! ## Machine arithmetic -/

/-- The sum `a + d` in `edb::address_t` arithmetic (`d` is a sign-extended `int`
or a `size_t`). -/
def addr_add (a : Nat) (d : Int) : Nat :=
  (((a : Int) + d) % 18446744073709551616).toNat

/-- The difference `a - d` in `edb::address_t` arithmetic. -/
def addr_sub (a : Nat) (d : Int) : Nat :=
  (((a : Int) - d) % 18446744073709551616).toNat

/-- Conversion of an integral value to `int` (two's complement, 32 bits). -/
def to_int (x : Int) : Int :=
  (x + 2147483648) % 4294967296 - 2147483648

/-! ## External collaborators -/

/-- What the view uses of a decoded `edb::Instruction`: `valid()` (also
`operator bool`) and `byte_size()`. -/
structure Instruction where
  valid : Bool
  byte_size : Nat
deriving DecidableEq, Repr

/-- The collaborators of the view.

* `MAX_SIZE` is `edb::Instruction::MAX_SIZE`;
* `get_instruction_bytes address size` is `edb::v1::get_instruction_bytes(address,
  buf, &size)`: `none` when it returns `false`, otherwise the bytes stored in `buf`
  (their number is the value left in `size`);
* `decode bytes rva` is the constructor `edb::Instruction(buf, buf + size, rva)`. -/
structure Env where
  MAX_SIZE : Nat
  get_instruction_bytes : Nat → Nat → Option (List Nat)
  decode : List Nat → Nat → Instruction

/-- An `IRegion`: the accessors `start()`, `end()` and `base()`. -/
structure Region where
  start : Nat
  end_ : Nat
  base : Nat
deriving DecidableEq, Repr

/-- The fields of `QDisassemblyView` read by the navigation code:
`address_offset_`, `region_` (may be null), the value of the vertical scroll bar
and the size of `instruction_buffer_`; then the fields that `setRegion` and
`setSelectedAddress` are concerned with: the selected instruction, the maximum of
the vertical scroll bar and the column position `line2_`. -/
structure QDisassemblyView where
  address_offset_ : Nat
  region_ : Option Region
  scroll_value : Int
  instruction_buffer_size : Nat
  selected_instruction_address_ : Nat := 0
  selected_instruction_size_ : Int := 0
  scroll_maximum : Int := 0
  line2_ : Int := 0
  line1_ : Int := 0
  line3_ : Int := 0
  line4_ : Int := 0

/-! ## updateDisassembly -/

/-- The `while (line < lines_to_render && offset < max_offset)` loop of
`updateDisassembly`.  The first numeric argument is `lines_to_render - line`, the
second is `offset`.  Returns the pairs pushed to `show_addresses_` and
`instructions_`, and the value of `offset` when the loop is left. -/
def disassemble_lines (env : Env) (inst_buf : List Nat) (start_address : Nat)
    (max_offset : Int) : Nat → Nat → List (Nat × Instruction) × Nat
  | 0, offset => ([], offset)
  | n + 1, offset =>
    if (offset : Int) < max_offset then
      let address := addr_add start_address offset
      let inst := env.decode (inst_buf.drop offset) address
      let r := disassemble_lines env inst_buf start_address max_offset n
        (if inst.valid then offset + inst.byte_size else offset + 1)
      ((address, inst) :: r.1, r.2)
    else ([], offset)

/-- What `updateDisassembly` leaves behind: `instructions_`, `show_addresses_`,
the returned line count, the value of `lines_to_render` that the `Q_ASSERT`
compares with, and the final `offset`. -/
structure Disassembly where
  instructions_ : List Instruction
  show_addresses_ : List Nat
  line : Int
  lines_to_render : Int
  offset : Nat
deriving DecidableEq, Repr

/-- `QDisassemblyView::updateDisassembly(lines_to_render)`; `region` is the
object behind `region_`, which the function dereferences unconditionally. -/
def updateDisassembly (env : Env) (v : QDisassemblyView) (region : Region)
    (lines_to_render : Int) : Disassembly :=
  let start_address := addr_add v.address_offset_ v.scroll_value
  match env.get_instruction_bytes start_address v.instruction_buffer_size with
  | none =>
    -- lines_to_render = 0: the loop body is never entered
    { instructions_ := [], show_addresses_ := [], line := 0, lines_to_render := 0,
      offset := 0 }
  | some inst_buf =>
    let max_offset : Int := min (to_int (addr_sub region.end_ start_address)) inst_buf.length
    let r := disassemble_lines env inst_buf start_address max_offset lines_to_render.toNat 0
    { instructions_ := r.1.map Prod.snd, show_addresses_ := r.1.map Prod.fst,
      line := r.1.length, lines_to_render := lines_to_render, offset := r.2 }

/-! ## Forward navigation -/

/-- The length `buf_size` that `following_instruction` passes to the memory reader:
`sizeof(buf)` is `MAX_SIZE + 1`, and with a region it is
`std::min<size_t>(region_->end() - current_address, sizeof(buf))`. -/
def following_instruction_buf_size (env : Env) (v : QDisassemblyView)
    (current_address : Int) : Nat :=
  match v.region_ with
  | some r => min (addr_sub r.end_ current_address) (env.MAX_SIZE + 1)
  | none => env.MAX_SIZE + 1

/-- `QDisassemblyView::following_instruction(current_address)`.  The decoder is
given the region-relative `current_address` as rva, and its `byte_size()` is added
whether or not the instruction is valid. -/
def following_instruction (env : Env) (v : QDisassemblyView) (current_address : Int) : Int :=
  match env.get_instruction_bytes (addr_add v.address_offset_ current_address)
      (following_instruction_buf_size env v current_address) with
  | none => current_address + 1
  | some buf => current_address + (env.decode buf (addr_add 0 current_address)).byte_size

/-- The `for` loop of `following_instructions`, by the number of iterations left. -/
def following_instructions_loop (env : Env) (v : QDisassemblyView) : Nat → Int → Int
  | 0, current_address => current_address
  | n + 1, current_address =>
    following_instructions_loop env v n (following_instruction env v current_address)

/-- `QDisassemblyView::following_instructions(current_address, count)`. -/
def following_instructions (env : Env) (v : QDisassemblyView) (current_address count : Int) :
    Int :=
  following_instructions_loop env v count.toNat current_address

/-! ## Instruction size at an address -/

/-- The helper `instruction_size(buffer, size)`: decodes at rva `0` and returns
`byte_size()` (an instruction size, far below the `int` range). -/
def instruction_size (env : Env) (buffer : List Nat) : Int :=
  (env.decode buffer 0).byte_size

/-- `QDisassemblyView::get_instruction_size(address, buf, size)`: `none` is the
`make_unexpected` result. -/
def get_instruction_size (env : Env) (address : Nat) (size : Int) : Option Int :=
  if 0 ≤ size then
    match env.get_instruction_bytes address size.toNat with
    | some buf => some (instruction_size env buf)
    | none => none
  else none

/-! ## Backward navigation -/

/-- The length `buf_size` that the function-aware loop of `previous_instruction`
passes to the memory reader: `sizeof(buf)` is `MAX_SIZE`, and with a region it is
`std::min<size_t>(function_start - region_->base(), sizeof(buf))`. -/
def function_walk_buf_size (env : Env) (region_ : Option Region) (function_start : Nat) :
    Nat :=
  match region_ with
  | some r => min (addr_sub function_start r.base) env.MAX_SIZE
  | none => env.MAX_SIZE

/-- The `while(true)` loop of the function-aware branch of `previous_instruction`.
`target` is `current_address + address_offset_`; the first numeric argument
bounds the number of iterations (`none`: the loop is still running when the bound
is used up), the second is `function_start`.  The result is the value of
`function_start` at the `break`. -/
def function_walk (env : Env) (region_ : Option Region) (target : Nat) : Nat → Nat → Option Nat
  | 0, _ => none
  | fuel + 1, function_start =>
    match env.get_instruction_bytes function_start
        (function_walk_buf_size env region_ function_start) with
    | some buf =>
      let inst := env.decode buf function_start
      if inst.valid = false then some function_start
      else if target ≤ addr_add function_start inst.byte_size then some function_start
      else function_walk env region_ target fuel (addr_add function_start inst.byte_size)
    | none => some function_start

/-- The heuristic `for(int i = MAX_SIZE; i > 0; --i)` loop of `previous_instruction`
together with the final `return current_address - 1`; the numeric argument is `i`. -/
def previous_instruction_scan (env : Env) (v : QDisassemblyView) (address : Nat)
    (current_address : Int) : Nat → Int
  | 0 => current_address - 1
  | i + 1 =>
    let prev_address := addr_sub address ((i + 1 : Nat) : Int)
    if v.address_offset_ ≤ address then
      match get_instruction_size env prev_address env.MAX_SIZE with
      | some n =>
        if n = ((i + 1 : Nat) : Int) then current_address - ((i + 1 : Nat) : Int)
        else previous_instruction_scan env v address current_address i
      | none => previous_instruction_scan env v address current_address i
    else previous_instruction_scan env v address current_address i

/-- `QDisassemblyView::previous_instruction(analyzer, current_address)`.
`analyzer` is `none` for a null pointer, otherwise its `find_containing_function`.
`fuel` bounds the iterations of the function-aware loop. -/
def previous_instruction (env : Env) (v : QDisassemblyView)
    (analyzer : Option (Nat → Option Nat)) (fuel : Nat) (current_address : Int) : Option Int :=
  let address := addr_add v.address_offset_ current_address
  let heuristic := some (previous_instruction_scan env v address current_address env.MAX_SIZE)
  match analyzer with
  | some find_containing_function =>
    match find_containing_function address with
    | some function_address =>
      if address ≠ function_address then
        (function_walk env v.region_ address fuel function_address).map
          (fun function_start => to_int (addr_sub function_start v.address_offset_))
      else heuristic
    | none => heuristic
  | none => heuristic

/-- The `for` loop of `previous_instructions`, by the number of iterations left. -/
def previous_instructions_loop (env : Env) (v : QDisassemblyView)
    (analyzer : Option (Nat → Option Nat)) (fuel : Nat) : Nat → Int → Option Int
  | 0, current_address => some current_address
  | n + 1, current_address =>
    match previous_instruction env v analyzer fuel current_address with
    | some a => previous_instructions_loop env v analyzer fuel n a
    | none => none

/-- `QDisassemblyView::previous_instructions(current_address, count)`; `analyzer`
is the value of `edb::v1::analyzer()`. -/
def previous_instructions (env : Env) (v : QDisassemblyView)
    (analyzer : Option (Nat → Option Nat)) (fuel : Nat) (current_address count : Int) :
    Option Int :=
  previous_instructions_loop env v analyzer fuel count.toNat current_address

/-! ## Line lookup -/

/-- The position `std::find(begin, end, addr) - begin`: the index of the first
element equal to `addr`, the length when there is none. -/
def find_position (addr : Nat) : List Nat → Nat
  | [] => 0
  | x :: xs => if x = addr then 0 else find_position addr xs + 1

/-- `QVector::indexOf`: the index of the first occurrence, `-1` when there is
none. -/
def indexOf (show_addresses_ : List Nat) (address : Nat) : Int :=
  if find_position address show_addresses_ < show_addresses_.length then
    (find_position address show_addresses_ : Int)
  else -1

/-- `QDisassemblyView::get_line_of_address(addr)`; `none` is `boost::none`. -/
def get_line_of_address (show_addresses_ : List Nat) (addr : Nat) : Option Nat :=
  if !show_addresses_.isEmpty then
    if show_addresses_.headD 0 ≤ addr ∧ addr ≤ show_addresses_.getLastD 0 then
      let pos := find_position addr show_addresses_
      if pos < show_addresses_.length then some pos else none
    else none
  else none

/-- `QDisassemblyView::addressShown(address)`; the second argument is
`partial_last_line_`. -/
def addressShown (show_addresses_ : List Nat) (partial_last_line_ : Bool) (address : Nat) :
    Bool :=
  let idx := indexOf show_addresses_ address
  decide (idx > 0 ∧
    idx < (show_addresses_.length : Int) - 1 - (if partial_last_line_ then 1 else 0))

/-! ## Instruction size inside the region -/

/-- The length `buf_size` that `get_instruction_size(address)` passes on:
`sizeof(buf)` is `MAX_SIZE`, reduced to `region_->end() - address` (or to `0` above
the region end) when `region_->end() != 0` and `address + buf_size` exceeds it. -/
def get_instruction_size_buf_size (env : Env) (region : Region) (address : Nat) : Int :=
  if region.end_ ≠ 0 ∧ region.end_ < addr_add address env.MAX_SIZE then
    if address ≤ region.end_ then to_int (addr_sub region.end_ address) else 0
  else env.MAX_SIZE

/-- `QDisassemblyView::get_instruction_size(address)`, the overload that clamps the
read to the region (`region` is the object behind `region_`, asserted non-null). -/
def get_instruction_size_in_region (env : Env) (region : Region) (address : Nat) :
    Option Int :=
  get_instruction_size env address (get_instruction_size_buf_size env region address)

/-! ## From a click to an address -/

/-- The `for(int i = 0; i < line; ++i)` loop of `address_from_coord`, by the number
of iterations left; the second argument is `address`. -/
def address_from_coord_loop (env : Env) (v : QDisassemblyView) (region : Region) :
    Nat → Nat → Nat
  | 0, address => address
  | n + 1, address =>
    match get_instruction_size_in_region env region (addr_add v.address_offset_ address) with
    | some size =>
      address_from_coord_loop env v region n (addr_add address (if size ≠ 0 then size else 1))
    | none => address_from_coord_loop env v region n (addr_add address 1)

/-- `QDisassemblyView::address_from_coord(x, y)`; `line_height` is the value of
`line_height()`, and `/` on `int` truncates. -/
def address_from_coord (env : Env) (v : QDisassemblyView) (region : Region)
    (line_height : Int) (_x y : Int) : Nat :=
  let line := Int.tdiv y line_height
  address_from_coord_loop env v region line.toNat (addr_add 0 v.scroll_value)

/-! ## Saving and restoring the column positions -/

/-- The record `WidgetState1` of five `int`s. -/
structure WidgetState1 where
  version : Int
  line1 : Int
  line2 : Int
  line3 : Int
  line4 : Int
deriving DecidableEq, Repr

/-- The value of `sizeof(WidgetState1)`: five `int`s of four bytes. -/
def sizeof_WidgetState1 : Nat := 20

/-- The four bytes of an `int` in memory (two's complement, least significant byte
first). -/
def int_bytes (x : Int) : List Nat :=
  let u := (x % 4294967296).toNat
  [u % 256, u / 256 % 256, u / 65536 % 256, u / 16777216 % 256]

/-- The `int` stored in the first four bytes of `bytes`. -/
def int_of_bytes (bytes : List Nat) : Int :=
  to_int ((bytes.getD 0 0 + 256 * bytes.getD 1 0 + 65536 * bytes.getD 2 0
    + 16777216 * bytes.getD 3 0 : Nat) : Int)

/-- The bytes copied by `memcpy(buf, &state, sizeof(buf))`. -/
def WidgetState1.to_bytes (state : WidgetState1) : List Nat :=
  int_bytes state.version ++ int_bytes state.line1 ++ int_bytes state.line2
    ++ int_bytes state.line3 ++ int_bytes state.line4

/-- The record filled by `memcpy(&state, data, sizeof(WidgetState1))`. -/
def WidgetState1.of_bytes (data : List Nat) : WidgetState1 :=
  { version := int_of_bytes data, line1 := int_of_bytes (data.drop 4),
    line2 := int_of_bytes (data.drop 8), line3 := int_of_bytes (data.drop 12),
    line4 := int_of_bytes (data.drop 16) }

/-- `QDisassemblyView::saveState()`; the `QByteArray` is the list of its bytes. -/
def saveState (v : QDisassemblyView) : List Nat :=
  let state : WidgetState1 :=
    { version := sizeof_WidgetState1, line1 := v.line1_, line2 := v.line2_,
      line3 := v.line3_, line4 := v.line4_ }
  state.to_bytes

/-- `QDisassemblyView::restoreState(stateBuffer)`. -/
def restoreState (v : QDisassemblyView) (stateBuffer : List Nat) : QDisassemblyView :=
  if (sizeof_WidgetState1 : Int) ≤ (stateBuffer.length : Int) then
    let state := WidgetState1.of_bytes stateBuffer
    if (sizeof_WidgetState1 : Int) ≤ state.version then
      { v with line1_ := state.line1, line2_ := state.line2, line3_ := state.line3,
               line4_ := state.line4 }
    else v
  else v

/-! ## Changing the region -/

/-- `QDisassemblyView::setAddressOffset(address)`. -/
def setAddressOffset (v : QDisassemblyView) (address : Nat) : QDisassemblyView :=
  { v with address_offset_ := address }

/-- `QDisassemblyView::updateScrollbars()`: `setMaximum` on the vertical scroll bar,
which (as a `QAbstractSlider`, minimum `0`) also brings its value into the new
range.  `viewable_lines` is `viewport()->height() / line_height()`, and
`region_->size()` is `end() - start()`. -/
def updateScrollbars (v : QDisassemblyView) (viewable_lines : Int) : QDisassemblyView :=
  let scroll_max : Int :=
    match v.region_ with
    | some r =>
      let total_lines := to_int (addr_sub r.end_ r.start)
      if total_lines > viewable_lines then total_lines - 1 else 0
    | none => 0
  { v with scroll_maximum := scroll_max,
           scroll_value := max (min 0 scroll_max) (min v.scroll_value scroll_max) }

/-- `QDisassemblyView::setRegion(r)`.  `equals` is `IRegion::equals` (called on `r`
with the current `region_`), `viewable_lines` and `auto_line2` are the values of
`viewport()->height() / line_height()` and `auto_line2()`.  The signal
`regionChanged` and the repaint have no effect on the fields. -/
def setRegion (equals : Region → Option Region → Bool) (viewable_lines auto_line2 : Int)
    (v : QDisassemblyView) (r : Option Region) : QDisassemblyView :=
  let changed : Bool :=
    match r with
    | some x => !equals x v.region_
    | none => true
  if changed then
    let v1 := { v with region_ := r }
    let v2 := setAddressOffset v1 (match v1.region_ with
      | some x => x.start
      | none => 0)
    let v3 := updateScrollbars v2 viewable_lines
    if v3.line2_ ≠ 0 ∧ v3.line2_ < auto_line2 then { v3 with line2_ := 0 } else v3
  else v

/-- `QDisassemblyView::clear()`. -/
def clear (equals : Region → Option Region → Bool) (viewable_lines auto_line2 : Int)
    (v : QDisassemblyView) : QDisassemblyView :=
  setRegion equals viewable_lines auto_line2 v none

/-! ## The heap walk of `DialogHeap::collectBlocks` -/

/-- The header `malloc_chunk<Addr>` of a heap chunk; the fields are values of the
debuggee's pointer width. -/
structure malloc_chunk where
  prev_size : Nat
  size : Nat
  fd : Nat
  bk : Nat
deriving DecidableEq, Repr

/-- `malloc_chunk::chunk_size()`: `size & ~SIZE_BITS`, the size without its three
flag bits. -/
def malloc_chunk.chunk_size (c : malloc_chunk) : Nat :=
  c.size - c.size % 8

/-- `malloc_chunk::prev_inuse()`: `size & PREV_INUSE`, bit 0 of `size`. -/
def malloc_chunk.prev_inuse (c : malloc_chunk) : Bool :=
  decide (c.size % 2 = 1)

/-- `Result::NodeType`. -/
inductive NodeType where
  | Top
  | Free
  | Busy
deriving DecidableEq, Repr

/-- What `collectBlocks` puts into a `Result`: address, size and node type (the
data type and the string found in the block do not act on the walk and are left
out). -/
structure Result where
  address : Nat
  size : Nat
  node_type : NodeType
deriving DecidableEq, Repr

/-- One iteration of the `while` loop of `collectBlocks`: the chunk address it read
at, the chunk header in `currentChunk` after the read, the computed
`nextChunkAddress`, the header in `nextChunk` when the iteration read it, and the
result it added to the model, if any. -/
structure WalkStep where
  currentChunkAddress : Nat
  currentChunk : malloc_chunk
  nextChunkAddress : Nat
  nextChunk : Option malloc_chunk
  result : Option Result
deriving DecidableEq, Repr

/-- The outcome of the walk: its iterations in order, the two counters, and whether
the loop was left. -/
structure HeapWalk where
  steps : List WalkStep
  freeBlocks : Nat
  busyBlocks : Nat
  finished : Bool
deriving DecidableEq, Repr

/-- The `while(currentChunkAddress != end_address)` loop of `collectBlocks`.
`read_bytes address buffer` is the content of a chunk buffer after
`process->read_bytes(address, &buffer, sizeof(buffer))`, whose return value the code
does not look at (a failed read leaves the buffer as it was).  The first numeric
argument bounds the number of iterations; `finished` is false when the bound is used
up with the loop still running. -/
def collect_loop (read_bytes : Nat → malloc_chunk → malloc_chunk)
    (start_address end_address : Nat) :
    Nat → Nat → malloc_chunk → malloc_chunk → HeapWalk
  | 0, currentChunkAddress, _, _ =>
    { steps := [], freeBlocks := 0, busyBlocks := 0,
      finished := decide (currentChunkAddress = end_address) }
  | fuel + 1, currentChunkAddress, currentChunk, nextChunk =>
    if currentChunkAddress = end_address then
      { steps := [], freeBlocks := 0, busyBlocks := 0, finished := true }
    else
      let currentChunk := read_bytes currentChunkAddress currentChunk
      let nextChunkAddress := addr_add currentChunkAddress currentChunk.chunk_size
      if nextChunkAddress = end_address then
        let step : WalkStep :=
          { currentChunkAddress := currentChunkAddress, currentChunk := currentChunk,
            nextChunkAddress := nextChunkAddress, nextChunk := none,
            result := some { address := currentChunkAddress,
                             size := currentChunk.chunk_size, node_type := NodeType.Top } }
        if currentChunkAddress = nextChunkAddress then
          { steps := [step], freeBlocks := 0, busyBlocks := 0, finished := true }
        else
          let rest := collect_loop read_bytes start_address end_address fuel
            nextChunkAddress currentChunk nextChunk
          { steps := step :: rest.steps, freeBlocks := rest.freeBlocks,
            busyBlocks := rest.busyBlocks, finished := rest.finished }
      else if end_address < nextChunkAddress ∨ nextChunkAddress < start_address then
        { steps := [{ currentChunkAddress := currentChunkAddress,
                      currentChunk := currentChunk,
                      nextChunkAddress := nextChunkAddress, nextChunk := none,
                      result := none }],
          freeBlocks := 0, busyBlocks := 0, finished := true }
      else
        let nextChunk := read_bytes nextChunkAddress nextChunk
        let step : WalkStep :=
          { currentChunkAddress := currentChunkAddress, currentChunk := currentChunk,
            nextChunkAddress := nextChunkAddress, nextChunk := some nextChunk,
            result := some { address := currentChunkAddress,
                             size := addr_add currentChunk.chunk_size 4,
                             node_type := if nextChunk.prev_inuse then NodeType.Busy
                                          else NodeType.Free } }
        let busy : Nat := if nextChunk.prev_inuse then 1 else 0
        let free : Nat := if nextChunk.prev_inuse then 0 else 1
        if currentChunkAddress = nextChunkAddress then
          { steps := [step], freeBlocks := free, busyBlocks := busy, finished := true }
        else
          let rest := collect_loop read_bytes start_address end_address fuel
            nextChunkAddress currentChunk nextChunk
          { steps := step :: rest.steps, freeBlocks := free + rest.freeBlocks,
            busyBlocks := busy + rest.busyBlocks, finished := rest.finished }

/-- `DialogHeap::collectBlocks(start_address, end_address)`.  `process` is `none`
when `debugger_core->process()` is null, otherwise its `read_bytes`;
`currentChunk` and `nextChunk` are the initial contents of the two local buffers. -/
def collectBlocks (process : Option (Nat → malloc_chunk → malloc_chunk))
    (start_address end_address : Nat) (fuel : Nat) (currentChunk nextChunk : malloc_chunk) :
    HeapWalk :=
  match process with
  | some read_bytes =>
    if start_address ≠ 0 ∧ end_address ≠ 0 then
      collect_loop read_bytes start_address end_address fuel start_address currentChunk
        nextChunk
    else { steps := [], freeBlocks := 0, busyBlocks := 0, finished := true }
  | none => { steps := [], freeBlocks := 0, busyBlocks := 0, finished := true }

/-- The results added to the model, in order. -/
def HeapWalk.results (w : HeapWalk) : List Result :=
  w.steps.filterMap (fun s => s.result)

/-! ## Reference notions used to state the claims -/

/-- The instruction that the function-aware loop reads and decodes at
`function_start`: its byte size when the read succeeds and the instruction is
valid. -/
def function_walk_decode (env : Env) (region_ : Option Region) (function_start : Nat) :
    Option Nat :=
  match env.get_instruction_bytes function_start
      (function_walk_buf_size env region_ function_start) with
  | some buf =>
    if (env.decode buf function_start).valid then some (env.decode buf function_start).byte_size
    else none
  | none => none

/-- Linear decoding: the address reached from `function_start` after `k` successive
valid, non-empty instructions (each read and decoded as the function-aware loop
does); `none` when one of them cannot be read or decoded. -/
def linear_decode (env : Env) (region_ : Option Region) : Nat → Nat → Option Nat
  | 0, function_start => some function_start
  | k + 1, function_start =>
    match function_walk_decode env region_ function_start with
    | some size => if size = 0 then none else linear_decode env region_ k (function_start + size)
    | none => none

/-- The candidates of the heuristic scan in the order they are tried:
`i, i - 1, ..., 1`. -/
def candidates_down : Nat → List Nat
  | 0 => []
  | i + 1 => (i + 1) :: candidates_down i

/-- Candidate `i` reconciles at `address`: `get_instruction_size` at `address - i`
returns the size `i`. -/
def reconciles (env : Env) (address : Nat) (i : Nat) : Bool :=
  decide (get_instruction_size env (addr_sub address (i : Int)) env.MAX_SIZE = some (i : Int))

/-- Candidate `i` reconciles at `address` with a valid instruction: the read of
`MAX_SIZE` bytes at `address - i` succeeds and the bytes decode to a valid
instruction of exactly `i` bytes. -/
def reconciles_valid (env : Env) (address : Nat) (i : Nat) : Bool :=
  match env.get_instruction_bytes (addr_sub address (i : Int)) env.MAX_SIZE with
  | some buf => (env.decode buf 0).valid && decide ((env.decode buf 0).byte_size = i)
  | none => false

/-- The heuristic step as the specification words it: the first candidate, going
from `MAX_SIZE` down to `1`, that passes `accept` gives `current_address - i`;
without one the result is `current_address - 1`. -/
def first_fit (MAX_SIZE : Nat) (accept : Nat → Bool) (current_address : Int) : Int :=
  match (candidates_down MAX_SIZE).find? accept with
  | some i => current_address - (i : Int)
  | none => current_address - 1

/-- The `n` bytes that a memory `mem` holds from `address` on. -/
def bytes_at (mem : Nat → Nat) (address n : Nat) : List Nat :=
  (List.range n).map (fun i => mem (address + i))

/-! ## A small test bench

A debuggee whose readable memory is one block of bytes, and a decoder for a toy
instruction set in which the first byte of an instruction is its length. -/

/-- A reader over one readable block `bytes` placed at `block` (everything else is
unreadable): it returns the bytes available at `address`, at most `size` of them,
and fails when there is none. -/
def block_reader (block : Nat) (bytes : List Nat) (address size : Nat) : Option (List Nat) :=
  if block ≤ address then
    match ((bytes.drop (address - block)).take size) with
    | [] => none
    | b :: bs => some (b :: bs)
  else none

/-- Toy decoder: a first byte `n` with `1 ≤ n ≤ 15` announces an instruction of `n`
bytes, valid when all `n` bytes are present; anything else is an invalid
instruction reported with one byte. -/
def toy_decode (bytes : List Nat) (_rva : Nat) : Instruction :=
  match bytes with
  | [] => { valid := false, byte_size := 1 }
  | n :: _ =>
    if 1 ≤ n ∧ n ≤ 15 ∧ n ≤ bytes.length then { valid := true, byte_size := n }
    else { valid := false, byte_size := 1 }

/-- The test bench over a block of bytes. -/
def toy_env (block : Nat) (bytes : List Nat) : Env :=
  { MAX_SIZE := 15, get_instruction_bytes := block_reader block bytes, decode := toy_decode }

/-- Sixteen bytes at `0x1000`: instructions of 2, 3, 5 and 6 bytes at `0x1000`,
`0x1002`, `0x1005` and `0x100A`. -/
def sample_code : List Nat := [2, 0, 3, 0, 0, 5, 0, 0, 0, 0, 6, 0, 0, 0, 0, 0]

/-- A region `[0x1000, 0x1010)` whose `base()` is its start. -/
def sample_region : Region := { start := 0x1000, end_ := 0x1010, base := 0x1000 }

/-- A view on `sample_region` scrolled to its top, with a buffer for two lines. -/
def sample_view : QDisassemblyView :=
  { address_offset_ := 0x1000, region_ := some sample_region, scroll_value := 0,
    instruction_buffer_size := 30 }

/-- A region `[0x1000, 0x1100)`, larger than the sample code. -/
def wide_region : Region := { start := 0x1000, end_ := 0x1100, base := 0x1000 }

/-- The sample region again, with a `base()` far below its start. -/
def low_base_region : Region := { start := 0x1000, end_ := 0x1010, base := 0 }

/-- A view on `low_base_region`. -/
def low_base_view : QDisassemblyView :=
  { address_offset_ := 0x1000, region_ := some low_base_region, scroll_value := 0,
    instruction_buffer_size := 30 }

/-- An analyzer that knows one function, spanning `[0x1000, 0x1010)`. -/
def sample_analyzer (address : Nat) : Option Nat :=
  if 0x1000 ≤ address ∧ address < 0x1010 then some 0x1000 else none

/-- A decoder that knows two one-byte instructions, `0x90` (nop) and `0xC3` (ret);
any other first byte is an invalid instruction reported with one byte. -/
def nop_ret_decode (bytes : List Nat) (_rva : Nat) : Instruction :=
  match bytes with
  | [] => { valid := false, byte_size := 1 }
  | b :: _ =>
    if b = 0x90 ∨ b = 0xC3 then { valid := true, byte_size := 1 }
    else { valid := false, byte_size := 1 }

/-- The byte stream `[0x1000] = 0x90, [0x1001] = 0xC3` as the only readable memory,
with the nop/ret decoder. -/
def nop_ret_env : Env :=
  { MAX_SIZE := 15, get_instruction_bytes := block_reader 0x1000 [0x90, 0xC3],
    decode := nop_ret_decode }

/-- A view on a region that starts at `0x1000` and holds the two bytes. -/
def nop_ret_view : QDisassemblyView :=
  { address_offset_ := 0x1000,
    region_ := some { start := 0x1000, end_ := 0x1002, base := 0x1000 },
    scroll_value := 0, instruction_buffer_size := 30 }

/-- Structural comparison of regions, standing for `IRegion::equals`. -/
def region_equals (r : Region) (other : Option Region) : Bool :=
  decide (other = some r)

/-- A second region, `[0x2000, 0x2010)`. -/
def other_region : Region := { start := 0x2000, end_ := 0x2010, base := 0x2000 }

/-- The sample view with the instruction at `0x1005` (five bytes) selected. -/
def selected_view : QDisassemblyView :=
  { sample_view with selected_instruction_address_ := 0x1005,
                     selected_instruction_size_ := 5 }

/-- A region whose `end()` is `0`: it reaches the top of the address space. -/
def top_region : Region :=
  { start := 0xFFFFFFFFFFFFF000, end_ := 0, base := 0xFFFFFFFFFFFFF000 }

/-- A chunk header with the given `size` field. -/
def chunk_of_size (size : Nat) : malloc_chunk :=
  { prev_size := 0, size := size, fd := 0, bk := 0 }

/-- A heap `[0x1000, 0x1060)` of three chunks: `0x20` bytes at `0x1000` (in use),
`0x30` bytes at `0x1020` (free, as the next header says) and the top chunk of `0x10`
bytes at `0x1050`. -/
def sample_heap (address : Nat) (_buffer : malloc_chunk) : malloc_chunk :=
  if address = 0x1000 then chunk_of_size 0x21
  else if address = 0x1020 then chunk_of_size 0x31
  else if address = 0x1050 then chunk_of_size 0x10
  else chunk_of_size 0

/-- A corrupt 64-bit heap: the chunk at `0x1000` has size `0x20`, and the chunk at
`0x1020` has size `0xFFFFFFFFFFFFFFE0`, which added to `0x1020` wraps around to
`0x1000`. -/
def cyclic_heap (address : Nat) (_buffer : malloc_chunk) : malloc_chunk :=
  if address = 0x1000 then chunk_of_size 0x21
  else if address = 0x1020 then chunk_of_size 0xFFFFFFFFFFFFFFE1
  else chunk_of_size 0

/-- A region `[0x1001, 0x1010)` that starts one byte into the readable block of the
test bench. -/
def offset_region : Region := { start := 0x1001, end_ := 0x1010, base := 0x1001 }

/-- A view on `offset_region`. -/
def offset_view : QDisassemblyView :=
  { address_offset_ := 0x1001, region_ := some offset_region, scroll_value := 0,
    instruction_buffer_size := 30 }

/-- A reader over a memory that is readable everywhere. -/
def memory_reader (mem : Nat → Nat) (address size : Nat) : Option (List Nat) :=
  some (bytes_at mem address size)

/-- The memory that holds `sample_code` at `0x1000` and zeroes elsewhere. -/
def sample_memory (address : Nat) : Nat :=
  if 0x1000 ≤ address then sample_code.getD (address - 0x1000) 0 else 0

/-- The test bench over `sample_memory`. -/
def flat_env : Env :=
  { MAX_SIZE := 15, get_instruction_bytes := memory_reader sample_memory,
    decode := toy_decode }

/-- A view with column positions set. -/
def column_view : QDisassemblyView :=
  { address_offset_ := 0x1000, region_ := some sample_region, scroll_value := 0,
    instruction_buffer_size := 30, line1_ := 120, line2_ := 300, line3_ := -1,
    line4_ := 2147483647 }

/-! ## Lemmas on the machine arithmetic -/

theorem addr_add_lt (a : Nat) (d : Int) : addr_add a d < 18446744073709551616 := by
  unfold addr_add; omega

theorem addr_add_assoc (a : Nat) (x y : Int) :
    addr_add (addr_add a x) y = addr_add a (x + y) := by
  unfold addr_add; omega

theorem addr_add_exact (a n : Nat) (h : a + n < 18446744073709551616) :
    addr_add a (n : Int) = a + n := by
  unfold addr_add; omega

theorem to_int_le (x : Int) (h : 0 ≤ x) : to_int x ≤ x := by
  unfold to_int; omega

theorem toy_decode_valid_pos (bytes : List Nat) (rva : Nat)
    (h : (toy_decode bytes rva).valid = true) : 1 ≤ (toy_decode bytes rva).byte_size := by
  unfold toy_decode at h ⊢
  cases bytes with
  | nil => simp at h
  | cons n t =>
    simp only at h ⊢
    split
    · rename_i hc; exact hc.1
    · exact Nat.le_refl 1

/-! ## The rendering loop -/

theorem disassemble_lines_length_le (env : Env) (inst_buf : List Nat) (start : Nat)
    (mo : Int) : ∀ n offset,
    (disassemble_lines env inst_buf start mo n offset).1.length ≤ n := by
  intro n
  induction n with
  | zero => intro offset; simp [disassemble_lines]
  | succ n ih =>
    intro offset
    unfold disassemble_lines
    split
    · simpa using ih _
    · simp

theorem disassemble_lines_entries (env : Env) (inst_buf : List Nat) (start : Nat)
    (mo : Int) : ∀ n offset p, p ∈ (disassemble_lines env inst_buf start mo n offset).1 →
    ∃ o : Nat, offset ≤ o ∧ (o : Int) < mo ∧ p.1 = addr_add start o ∧
      p.2 = env.decode (inst_buf.drop o) p.1 := by
  intro n
  induction n with
  | zero => intro offset p hp; simp [disassemble_lines] at hp
  | succ n ih =>
    intro offset p hp
    unfold disassemble_lines at hp
    split at hp
    · rename_i hlt
      simp only [List.mem_cons] at hp
      rcases hp with hp | hp
      · subst hp
        exact ⟨offset, Nat.le_refl _, hlt, rfl, rfl⟩
      · obtain ⟨o, ho, hlo, h1, h2⟩ := ih _ p hp
        refine ⟨o, ?_, hlo, h1, h2⟩
        split at ho <;> omega
    · simp at hp

theorem disassemble_lines_sorted (env : Env) (inst_buf : List Nat) (start : Nat) (mo : Int)
    (hdec : ∀ bytes rva, (env.decode bytes rva).valid = true →
      1 ≤ (env.decode bytes rva).byte_size)
    (hwrap : ∀ o : Nat, (o : Int) < mo → start + o < 18446744073709551616) :
    ∀ n offset,
      ((disassemble_lines env inst_buf start mo n offset).1.map Prod.fst).Pairwise (· < ·) ∧
      ∀ a ∈ (disassemble_lines env inst_buf start mo n offset).1.map Prod.fst,
        start + offset ≤ a := by
  intro n
  induction n with
  | zero => intro offset; simp [disassemble_lines]
  | succ n ih =>
    intro offset
    unfold disassemble_lines
    split
    · rename_i hlt
      have hadd : addr_add start (offset : Int) = start + offset :=
        addr_add_exact _ _ (hwrap _ hlt)
      simp only [List.map_cons, List.pairwise_cons, List.mem_cons, forall_eq_or_imp, hadd]
      have hnext : offset + 1 ≤
          (if (env.decode (List.drop offset inst_buf) (start + offset)).valid = true then
            offset + (env.decode (List.drop offset inst_buf) (start + offset)).byte_size
          else offset + 1) := by
        split
        · rename_i hv
          have := hdec _ _ hv
          omega
        · exact Nat.le_refl _
      obtain ⟨hp, hlow⟩ := ih (if (env.decode (List.drop offset inst_buf)
        (start + offset)).valid = true then
          offset + (env.decode (List.drop offset inst_buf) (start + offset)).byte_size
        else offset + 1)
      refine ⟨⟨?_, hp⟩, Nat.le_refl _, ?_⟩
      · intro a ha
        have := hlow a ha
        omega
      · intro a ha
        have := hlow a ha
        omega
    · simp

theorem disassemble_lines_exit (env : Env) (inst_buf : List Nat) (start : Nat) (mo : Int) :
    ∀ n offset, (disassemble_lines env inst_buf start mo n offset).1.length < n →
      mo ≤ ((disassemble_lines env inst_buf start mo n offset).2 : Int) := by
  intro n
  induction n with
  | zero => intro offset h; simp at h
  | succ n ih =>
    intro offset h
    unfold disassemble_lines at h ⊢
    split
    · rename_i hlt
      simp only [hlt, if_true, List.length_cons] at h
      exact ih _ (by omega)
    · rename_i hge
      simpa using hge

theorem disassemble_lines_chain (env : Env) (inst_buf : List Nat) (start : Nat) (mo : Int) :
    ∀ n offset,
      List.Chain' (fun p q : Nat × Instruction =>
          q.1 = addr_add p.1 (if p.2.valid then (p.2.byte_size : Int) else 1))
        (disassemble_lines env inst_buf start mo n offset).1 ∧
      ∀ p, (disassemble_lines env inst_buf start mo n offset).1.head? = some p →
        p.1 = addr_add start offset := by
  intro n
  induction n with
  | zero => intro offset; simp [disassemble_lines]
  | succ n ih =>
    intro offset
    unfold disassemble_lines
    split
    · obtain ⟨hc, hh⟩ := ih (if (env.decode (List.drop offset inst_buf)
        (addr_add start offset)).valid = true then
          offset + (env.decode (List.drop offset inst_buf) (addr_add start offset)).byte_size
        else offset + 1)
      refine ⟨?_, ?_⟩
      · rw [List.chain'_cons']
        refine ⟨?_, hc⟩
        intro q hq
        have := hh q hq
        rw [this]
        simp only
        split
        · rw [addr_add_assoc]; push_cast; rfl
        · rw [addr_add_assoc]; push_cast; rfl
      · intro p hp
        simp only [List.head?_cons, Option.some.injEq] at hp
        subst hp; rfl
    · simp

theorem max_offset_no_wrap (start end_ : Nat) (len : Nat)
    (hend : end_ < 18446744073709551616) (hstart : start ≤ end_) (o : Nat)
    (ho : (o : Int) < min (to_int (addr_sub end_ start)) (len : Int)) :
    start + o < end_ := by
  have h1 : (o : Int) < to_int (addr_sub end_ start) := lt_of_lt_of_le ho (min_le_left _ _)
  have h2 := to_int_le (addr_sub end_ start) (Int.ofNat_nonneg _)
  have h3 : addr_sub end_ (start : Int) = end_ - start := by
    unfold addr_sub; omega
  omega

theorem disassemble_lines_chain_exact (env : Env) (inst_buf : List Nat) (start : Nat)
    (mo : Int) (hwrap : ∀ o : Nat, (o : Int) < mo → start + o < 18446744073709551616) :
    ∀ n offset,
      List.Chain' (fun p q : Nat × Instruction =>
          q.1 = p.1 + (if p.2.valid then p.2.byte_size else 1))
        (disassemble_lines env inst_buf start mo n offset).1 ∧
      ∀ p, (disassemble_lines env inst_buf start mo n offset).1.head? = some p →
        p.1 = start + offset := by
  intro n
  induction n with
  | zero => intro offset; simp [disassemble_lines]
  | succ n ih =>
    intro offset
    unfold disassemble_lines
    split
    · rename_i hlt
      have hadd : addr_add start (offset : Int) = start + offset :=
        addr_add_exact _ _ (hwrap _ hlt)
      obtain ⟨hc, hh⟩ := ih (if (env.decode (List.drop offset inst_buf)
        (addr_add start offset)).valid = true then
          offset + (env.decode (List.drop offset inst_buf) (addr_add start offset)).byte_size
        else offset + 1)
      refine ⟨?_, ?_⟩
      · rw [List.chain'_cons']
        refine ⟨?_, hc⟩
        intro q hq
        have := hh q hq
        rw [this]
        simp only [hadd]
        split <;> omega
      · intro p hp
        simp only [List.head?_cons, Option.some.injEq] at hp
        subst hp; exact hadd
    · simp

theorem chain_getElem? {α : Type} {R : α → α → Prop} :
    ∀ (l : List α), l.Chain' R → ∀ k x y, l[k]? = some x → l[k + 1]? = some y → R x y := by
  intro l
  induction l with
  | nil => intro _ k x y hx; simp at hx
  | cons c t ih =>
    intro hc k x y hx hy
    rw [List.chain'_cons'] at hc
    cases k with
    | zero =>
      simp only [List.getElem?_cons_zero, Option.some.injEq] at hx
      simp only [List.getElem?_cons_succ] at hy
      subst hx
      apply hc.1
      rw [List.head?_eq_getElem?]
      exact hy
    | succ k =>
      simp only [List.getElem?_cons_succ] at hx hy
      exact ih hc.2 k x y hx hy

theorem entry_of_columns {l : List (Nat × Instruction)} {k : Nat} {a : Nat} {i : Instruction}
    (ha : (l.map Prod.fst)[k]? = some a) (hi : (l.map Prod.snd)[k]? = some i) :
    l[k]? = some (a, i) := by
  rw [List.getElem?_map] at ha hi
  cases h : l[k]? with
  | none => rw [h] at ha; simp at ha
  | some p =>
    rw [h] at ha hi
    simp only [Option.map_some', Option.some.injEq] at ha hi
    rw [← ha, ← hi]

theorem updateDisassembly_read_failed (env : Env) (v : QDisassemblyView) (region : Region)
    (lines_to_render : Int)
    (h : env.get_instruction_bytes (addr_add v.address_offset_ v.scroll_value)
      v.instruction_buffer_size = none) :
    updateDisassembly env v region lines_to_render =
      { instructions_ := [], show_addresses_ := [], line := 0, lines_to_render := 0,
        offset := 0 } := by
  simp only [updateDisassembly, h]

theorem updateDisassembly_read_ok (env : Env) (v : QDisassemblyView) (region : Region)
    (lines_to_render : Int) (inst_buf : List Nat)
    (h : env.get_instruction_bytes (addr_add v.address_offset_ v.scroll_value)
      v.instruction_buffer_size = some inst_buf) :
    updateDisassembly env v region lines_to_render =
      { instructions_ := (disassemble_lines env inst_buf
          (addr_add v.address_offset_ v.scroll_value)
          (min (to_int (addr_sub region.end_ (addr_add v.address_offset_ v.scroll_value)))
            inst_buf.length) lines_to_render.toNat 0).1.map Prod.snd,
        show_addresses_ := (disassemble_lines env inst_buf
          (addr_add v.address_offset_ v.scroll_value)
          (min (to_int (addr_sub region.end_ (addr_add v.address_offset_ v.scroll_value)))
            inst_buf.length) lines_to_render.toNat 0).1.map Prod.fst,
        line := (disassemble_lines env inst_buf
          (addr_add v.address_offset_ v.scroll_value)
          (min (to_int (addr_sub region.end_ (addr_add v.address_offset_ v.scroll_value)))
            inst_buf.length) lines_to_render.toNat 0).1.length,
        lines_to_render := lines_to_render,
        offset := (disassemble_lines env inst_buf
          (addr_add v.address_offset_ v.scroll_value)
          (min (to_int (addr_sub region.end_ (addr_add v.address_offset_ v.scroll_value)))
            inst_buf.length) lines_to_render.toNat 0).2 } := by
  simp only [updateDisassembly, h]

/-! ## Claims about `updateDisassembly` -/

/-- C1: for every `lines_to_render ≥ 0`, `updateDisassembly` produces at most
`lines_to_render` entries and its line counter satisfies the `Q_ASSERT`
(`line <= lines_to_render`); and `show_addresses_` is strictly increasing when a
valid instruction has at least one byte and the view is positioned at a 64-bit start
address that does not lie beyond the region end. -/
theorem updateDisassembly_at_most_lines_strictly_increasing
    (env : Env) (v : QDisassemblyView) (region : Region) (lines_to_render : Int)
    (hlines : 0 ≤ lines_to_render) :
    ((updateDisassembly env v region lines_to_render).show_addresses_.length : Int)
        ≤ lines_to_render ∧
      (updateDisassembly env v region lines_to_render).line
        ≤ (updateDisassembly env v region lines_to_render).lines_to_render ∧
      ((∀ bytes rva, (env.decode bytes rva).valid = true →
          1 ≤ (env.decode bytes rva).byte_size) →
        region.end_ < 18446744073709551616 →
        addr_add v.address_offset_ v.scroll_value ≤ region.end_ →
        (updateDisassembly env v region lines_to_render).show_addresses_.Pairwise
          (· < ·)) := by
  cases hrd : env.get_instruction_bytes (addr_add v.address_offset_ v.scroll_value)
      v.instruction_buffer_size with
  | none =>
    rw [updateDisassembly_read_failed env v region lines_to_render hrd]
    simp [hlines]
  | some inst_buf =>
    rw [updateDisassembly_read_ok env v region lines_to_render inst_buf hrd]
    simp only [List.length_map]
    have hlen := disassemble_lines_length_le env inst_buf
      (addr_add v.address_offset_ v.scroll_value)
      (min (to_int (addr_sub region.end_ (addr_add v.address_offset_ v.scroll_value)))
        inst_buf.length) lines_to_render.toNat 0
    refine ⟨by omega, by omega, ?_⟩
    intro hdec hend hstart
    exact (disassemble_lines_sorted env inst_buf
      (addr_add v.address_offset_ v.scroll_value)
      (min (to_int (addr_sub region.end_ (addr_add v.address_offset_ v.scroll_value)))
        inst_buf.length) hdec
      (fun o ho => lt_trans (max_offset_no_wrap _ _ _ hend hstart o ho) hend)
      lines_to_render.toNat 0).1

/-- Witness of C1 on the test bench: two lines requested at the top of the sample
region come out in increasing order. -/
theorem updateDisassembly_at_most_lines_strictly_increasing_witness :
    (updateDisassembly (toy_env 0x1000 sample_code) sample_view sample_region
      2).show_addresses_.Pairwise (· < ·) :=
  (updateDisassembly_at_most_lines_strictly_increasing (toy_env 0x1000 sample_code)
    sample_view sample_region 2 (by decide)).2.2 toy_decode_valid_pos (by decide) (by decide)

/-- C2: in the lines produced by `updateDisassembly`, the first address (if any) is
`address_offset_ + scroll value`; line `k` holds the instruction decoded at
`show_addresses_[k]` from the bytes read; and for consecutive lines `k`, `k + 1` the
address of line `k + 1` is the address of line `k` plus the byte size of that
instruction when it is valid and plus one otherwise, in `address_t` arithmetic, and
as plain numbers when the start address does not lie beyond the region end. -/
theorem updateDisassembly_consecutive_addresses
    (env : Env) (v : QDisassemblyView) (region : Region) (lines_to_render : Int) :
    (∀ a, (updateDisassembly env v region lines_to_render).show_addresses_.head? = some a →
        a = addr_add v.address_offset_ v.scroll_value) ∧
      (updateDisassembly env v region lines_to_render).instructions_.length =
        (updateDisassembly env v region lines_to_render).show_addresses_.length ∧
      (∀ (k : Nat) a i,
        (updateDisassembly env v region lines_to_render).show_addresses_[k]? = some a →
        (updateDisassembly env v region lines_to_render).instructions_[k]? = some i →
        ∃ inst_buf offset,
          env.get_instruction_bytes (addr_add v.address_offset_ v.scroll_value)
            v.instruction_buffer_size = some inst_buf ∧
          a = addr_add (addr_add v.address_offset_ v.scroll_value) (offset : Nat) ∧
          i = env.decode (inst_buf.drop offset) a) ∧
      (∀ (k : Nat) a b i,
        (updateDisassembly env v region lines_to_render).show_addresses_[k]? = some a →
        (updateDisassembly env v region lines_to_render).show_addresses_[k + 1]? = some b →
        (updateDisassembly env v region lines_to_render).instructions_[k]? = some i →
        b = addr_add a (if i.valid then (i.byte_size : Int) else 1)) ∧
      (region.end_ < 18446744073709551616 →
        addr_add v.address_offset_ v.scroll_value ≤ region.end_ →
        ∀ (k : Nat) a b i,
        (updateDisassembly env v region lines_to_render).show_addresses_[k]? = some a →
        (updateDisassembly env v region lines_to_render).show_addresses_[k + 1]? = some b →
        (updateDisassembly env v region lines_to_render).instructions_[k]? = some i →
        b = a + (if i.valid then i.byte_size else 1)) := by
  cases hrd : env.get_instruction_bytes (addr_add v.address_offset_ v.scroll_value)
      v.instruction_buffer_size with
  | none =>
    rw [updateDisassembly_read_failed env v region lines_to_render hrd]
    simp
  | some inst_buf =>
    rw [updateDisassembly_read_ok env v region lines_to_render inst_buf hrd]
    simp only [List.length_map]
    refine ⟨?_, trivial, ?_, ?_, ?_⟩
    · intro a ha
      rw [List.head?_map] at ha
      cases hh : (disassemble_lines env inst_buf (addr_add v.address_offset_ v.scroll_value)
        (min (to_int (addr_sub region.end_ (addr_add v.address_offset_ v.scroll_value)))
          inst_buf.length) lines_to_render.toNat 0).1.head? with
      | none => rw [hh] at ha; simp at ha
      | some p =>
        rw [hh] at ha
        simp only [Option.map_some', Option.some.injEq] at ha
        have := (disassemble_lines_chain env inst_buf _ _ lines_to_render.toNat 0).2 p hh
        rw [← ha, this]
        unfold addr_add; omega
    · intro k a i ha hi
      have hp := entry_of_columns ha hi
      obtain ⟨o, _, _, h1, h2⟩ := disassemble_lines_entries env inst_buf _ _ _ _ (a, i)
        (List.getElem?_mem hp)
      exact ⟨inst_buf, o, rfl, h1, h2⟩
    · intro k a b i ha hb hi
      have hp := entry_of_columns ha hi
      rw [List.getElem?_map] at hb
      cases hq : (disassemble_lines env inst_buf (addr_add v.address_offset_ v.scroll_value)
        (min (to_int (addr_sub region.end_ (addr_add v.address_offset_ v.scroll_value)))
          inst_buf.length) lines_to_render.toNat 0).1[k + 1]? with
      | none => rw [hq] at hb; simp at hb
      | some q =>
        rw [hq] at hb
        simp only [Option.map_some', Option.some.injEq] at hb
        have := chain_getElem? _
          (disassemble_lines_chain env inst_buf _ _ lines_to_render.toNat 0).1 k _ _ hp hq
        rw [← hb]; exact this
    · intro hend hstart k a b i ha hb hi
      have hp := entry_of_columns ha hi
      rw [List.getElem?_map] at hb
      cases hq : (disassemble_lines env inst_buf (addr_add v.address_offset_ v.scroll_value)
        (min (to_int (addr_sub region.end_ (addr_add v.address_offset_ v.scroll_value)))
          inst_buf.length) lines_to_render.toNat 0).1[k + 1]? with
      | none => rw [hq] at hb; simp at hb
      | some q =>
        rw [hq] at hb
        simp only [Option.map_some', Option.some.injEq] at hb
        have := chain_getElem? _
          (disassemble_lines_chain_exact env inst_buf _ _
            (fun o ho => lt_trans (max_offset_no_wrap _ _ _ hend hstart o ho) hend)
            lines_to_render.toNat 0).1 k _ _ hp hq
        rw [← hb]; exact this

/-- Witness of C2 on the test bench: the first two lines of the sample code are at
`0x1000` and `0x1002`, the first instruction being two bytes long. -/
theorem updateDisassembly_consecutive_addresses_witness :
    (0x1002 : Nat) = addr_add 0x1000
      (if (Instruction.mk true 2).valid then ((Instruction.mk true 2).byte_size : Int) else 1) :=
  (updateDisassembly_consecutive_addresses (toy_env 0x1000 sample_code) sample_view
    sample_region 2).2.2.2.1 0 0x1000 0x1002 (Instruction.mk true 2)
    (by decide) (by decide) (by decide)

/-- C3, as stated, fails: with two lines requested at the top of the region
`[0x1000, 0x1100)`, a read that returns a single byte gives one line at `0x1000` (a
one-byte instruction), so the next line would start at `0x1001`, below the region
end; and a failed read gives no line at all, although the start address is inside
the region. -/
theorem updateDisassembly_stops_before_region_end :
    ((updateDisassembly (toy_env 0x1000 [1]) sample_view wide_region 2).show_addresses_
        = [0x1000] ∧
      (updateDisassembly (toy_env 0x1000 [1]) sample_view wide_region 2).instructions_
        = [Instruction.mk true 1] ∧
      (updateDisassembly (toy_env 0x1000 [1]) sample_view wide_region 2).line < 2 ∧
      ¬ (wide_region.end_ ≤ 0x1000 + 1)) ∧
    ((updateDisassembly (toy_env 0x1000 []) sample_view wide_region 2).show_addresses_ = [] ∧
      (updateDisassembly (toy_env 0x1000 []) sample_view wide_region 2).line < 2 ∧
      ¬ (wide_region.end_ ≤ addr_add sample_view.address_offset_ sample_view.scroll_value)) := by
  decide

/-- C3, amended: every address emitted by `updateDisassembly` is below
`region.end()`; a failed read emits nothing; and when the read succeeded and fewer
than `lines_to_render` lines came out, the loop stopped because `offset` reached
`max_offset`: the offset after the last line is at or beyond the region end, or at or
beyond the number of bytes read. -/
theorem updateDisassembly_stops_at_region_end_or_buffer_end
    (env : Env) (v : QDisassemblyView) (region : Region) (lines_to_render : Int)
    (hend : region.end_ < 18446744073709551616)
    (hstart : addr_add v.address_offset_ v.scroll_value ≤ region.end_) :
    (∀ a ∈ (updateDisassembly env v region lines_to_render).show_addresses_,
        a < region.end_) ∧
      (env.get_instruction_bytes (addr_add v.address_offset_ v.scroll_value)
          v.instruction_buffer_size = none →
        (updateDisassembly env v region lines_to_render).show_addresses_ = []) ∧
      (∀ inst_buf,
        env.get_instruction_bytes (addr_add v.address_offset_ v.scroll_value)
          v.instruction_buffer_size = some inst_buf →
        ((updateDisassembly env v region lines_to_render).show_addresses_.length : Int)
          < lines_to_render →
        region.end_ < addr_add v.address_offset_ v.scroll_value + 2147483648 →
        region.end_ ≤ addr_add v.address_offset_ v.scroll_value
            + (updateDisassembly env v region lines_to_render).offset ∨
          inst_buf.length ≤ (updateDisassembly env v region lines_to_render).offset) := by
  refine ⟨?_, ?_, ?_⟩
  · cases hrd : env.get_instruction_bytes (addr_add v.address_offset_ v.scroll_value)
        v.instruction_buffer_size with
    | none =>
      rw [updateDisassembly_read_failed env v region lines_to_render hrd]
      simp
    | some inst_buf =>
      rw [updateDisassembly_read_ok env v region lines_to_render inst_buf hrd]
      intro a ha
      simp only [List.mem_map] at ha
      obtain ⟨p, hp, rfl⟩ := ha
      obtain ⟨o, _, ho, h1, _⟩ := disassemble_lines_entries env inst_buf _ _ _ _ p hp
      have hlt := max_offset_no_wrap _ _ _ hend hstart o ho
      rw [h1, addr_add_exact _ _ (lt_trans hlt hend)]
      exact hlt
  · intro hrd
    rw [updateDisassembly_read_failed env v region lines_to_render hrd]
  · intro inst_buf hrd
    rw [updateDisassembly_read_ok env v region lines_to_render inst_buf hrd]
    simp only [List.length_map]
    intro hfew hsize
    have hexit := disassemble_lines_exit env inst_buf
      (addr_add v.address_offset_ v.scroll_value)
      (min (to_int (addr_sub region.end_ (addr_add v.address_offset_ v.scroll_value)))
        inst_buf.length) lines_to_render.toNat 0 (by omega)
    have h3 : to_int (addr_sub region.end_ (addr_add v.address_offset_ v.scroll_value)) =
        (region.end_ : Int) - (addr_add v.address_offset_ v.scroll_value : Nat) := by
      unfold to_int addr_sub; omega
    rcases min_le_iff.mp hexit with h | h
    · left; omega
    · right; omega

/-- Witness of the amended C3 on the test bench: after a one-byte read in the wide
region the final offset `1` has reached the end of the bytes read. -/
theorem updateDisassembly_stops_at_region_end_or_buffer_end_witness :
    wide_region.end_ ≤ addr_add sample_view.address_offset_ sample_view.scroll_value
        + (updateDisassembly (toy_env 0x1000 [1]) sample_view wide_region 2).offset ∨
      [1].length ≤ (updateDisassembly (toy_env 0x1000 [1]) sample_view wide_region 2).offset :=
  (updateDisassembly_stops_at_region_end_or_buffer_end (toy_env 0x1000 [1]) sample_view
    wide_region 2 (by decide) (by decide)).2.2 [1] (by decide) (by decide) (by decide)

/-! ## Forward navigation -/

theorem toy_decode_size_pos (bytes : List Nat) (rva : Nat) :
    1 ≤ (toy_decode bytes rva).byte_size := by
  unfold toy_decode
  cases bytes with
  | nil => exact Nat.le_refl 1
  | cons n t =>
    simp only
    split
    · rename_i hc; exact hc.1
    · exact Nat.le_refl 1

theorem following_instruction_read_failed (env : Env) (v : QDisassemblyView) (a : Int)
    (h : env.get_instruction_bytes (addr_add v.address_offset_ a)
      (following_instruction_buf_size env v a) = none) :
    following_instruction env v a = a + 1 := by
  simp only [following_instruction, h]

theorem following_instruction_read_ok (env : Env) (v : QDisassemblyView) (a : Int)
    (buf : List Nat)
    (h : env.get_instruction_bytes (addr_add v.address_offset_ a)
      (following_instruction_buf_size env v a) = some buf) :
    following_instruction env v a = a + (env.decode buf (addr_add 0 a)).byte_size := by
  simp only [following_instruction, h]

theorem following_instruction_advances (env : Env) (v : QDisassemblyView)
    (hdec : ∀ bytes rva, 1 ≤ (env.decode bytes rva).byte_size) (a : Int) :
    a + 1 ≤ following_instruction env v a := by
  cases h : env.get_instruction_bytes (addr_add v.address_offset_ a)
      (following_instruction_buf_size env v a) with
  | none => rw [following_instruction_read_failed env v a h]
  | some buf =>
    rw [following_instruction_read_ok env v a buf h]
    have := hdec buf (addr_add 0 a)
    omega

theorem following_instructions_loop_advances (env : Env) (v : QDisassemblyView)
    (hdec : ∀ bytes rva, 1 ≤ (env.decode bytes rva).byte_size) :
    ∀ (n : Nat) (a : Int), a + n ≤ following_instructions_loop env v n a := by
  intro n
  induction n with
  | zero => intro a; simp [following_instructions_loop]
  | succ n ih =>
    intro a
    unfold following_instructions_loop
    have h1 := following_instruction_advances env v hdec a
    have h2 := ih (following_instruction env v a)
    push_cast
    omega

/-- C4: when every decoded instruction, valid or not, reports at least one byte, a
forward step advances by at least one byte whether the read fails or not, and for
every offset `a` and every `count ≥ 1` the result of `following_instructions` is at
least `a + count`, hence strictly greater than `a`. -/
theorem following_instructions_forward_progress (env : Env) (v : QDisassemblyView)
    (a count : Int) (hcount : 1 ≤ count)
    (hdec : ∀ bytes rva, 1 ≤ (env.decode bytes rva).byte_size) :
    a < following_instruction env v a ∧
      a + count ≤ following_instructions env v a count ∧
      a < following_instructions env v a count := by
  have h1 := following_instruction_advances env v hdec a
  have h2 := following_instructions_loop_advances env v hdec count.toNat a
  have h3 : ((count.toNat : Nat) : Int) = count := Int.toNat_of_nonneg (by omega)
  unfold following_instructions
  refine ⟨?_, ?_, ?_⟩ <;> omega

/-- Witness of C4 on the test bench: three forward steps from offset `0`. -/
theorem following_instructions_forward_progress_witness :
    (0 : Int) < following_instruction (toy_env 0x1000 sample_code) sample_view 0 ∧
      (0 : Int) + 3 ≤ following_instructions (toy_env 0x1000 sample_code) sample_view 0 3 ∧
      (0 : Int) < following_instructions (toy_env 0x1000 sample_code) sample_view 0 3 :=
  following_instructions_forward_progress (toy_env 0x1000 sample_code) sample_view 0 3
    (by decide) toy_decode_size_pos

theorem toy_decode_size_le (bytes : List Nat) (rva : Nat) :
    (toy_decode bytes rva).byte_size ≤ 15 := by
  unfold toy_decode
  cases bytes with
  | nil => decide
  | cons n t =>
    simp only
    split
    · rename_i hc; exact hc.2.1
    · decide

theorem following_instruction_le (env : Env) (v : QDisassemblyView)
    (hmax : 1 ≤ env.MAX_SIZE)
    (hdec : ∀ bytes rva, (env.decode bytes rva).byte_size ≤ env.MAX_SIZE) (a : Int) :
    following_instruction env v a ≤ a + env.MAX_SIZE := by
  cases h : env.get_instruction_bytes (addr_add v.address_offset_ a)
      (following_instruction_buf_size env v a) with
  | none =>
    rw [following_instruction_read_failed env v a h]
    omega
  | some buf =>
    rw [following_instruction_read_ok env v a buf h]
    have := hdec buf (addr_add 0 a)
    omega

theorem following_instructions_loop_le (env : Env) (v : QDisassemblyView)
    (hmax : 1 ≤ env.MAX_SIZE)
    (hdec : ∀ bytes rva, (env.decode bytes rva).byte_size ≤ env.MAX_SIZE) :
    ∀ (n : Nat) (a : Int),
      following_instructions_loop env v n a ≤ a + (n : Int) * (env.MAX_SIZE : Int) := by
  intro n
  induction n with
  | zero => intro a; simp [following_instructions_loop]
  | succ n ih =>
    intro a
    unfold following_instructions_loop
    have h1 := following_instruction_le env v hmax hdec a
    have h2 := ih (following_instruction env v a)
    push_cast
    rw [add_mul]
    omega

/-- C5, as stated, fails: offset `0xA` lies inside the sample region (absolute
`0x100A`, a six-byte instruction), and one forward step returns offset `0x10`, whose
absolute address `0x1010` is the region end itself. -/
theorem following_instructions_reaches_region_end :
    sample_region.start ≤ addr_add sample_view.address_offset_ 0xA ∧
      addr_add sample_view.address_offset_ 0xA < sample_region.end_ ∧
      following_instructions (toy_env 0x1000 sample_code) sample_view 0xA 1 = 0x10 ∧
      ¬ (addr_add sample_view.address_offset_
          (following_instructions (toy_env 0x1000 sample_code) sample_view 0xA 1)
        < sample_region.end_) := by
  decide

/-- C5, amended: `following_instructions` does not clamp at the region end.  With
`count = 0` it returns its argument; each step adds at most `MAX_SIZE` (for a decoder
that never reports more than `MAX_SIZE ≥ 1` bytes), so from an offset whose absolute
address is below `region.end()` the absolute result after `count ≥ 0` steps is below
`region.end() + count * MAX_SIZE`. -/
theorem following_instructions_overshoot_bounded (env : Env) (v : QDisassemblyView)
    (region : Region) (a count : Int) (hcount : 0 ≤ count)
    (hmax : 1 ≤ env.MAX_SIZE)
    (hdec : ∀ bytes rva, (env.decode bytes rva).byte_size ≤ env.MAX_SIZE)
    (ha : (v.address_offset_ : Int) + a < region.end_) :
    following_instructions env v a 0 = a ∧
      following_instructions env v a count ≤ a + count * env.MAX_SIZE ∧
      (v.address_offset_ : Int) + following_instructions env v a count
        < region.end_ + count * env.MAX_SIZE := by
  have h2 := following_instructions_loop_le env v hmax hdec count.toNat a
  have h3 : ((count.toNat : Nat) : Int) = count := Int.toNat_of_nonneg hcount
  rw [h3] at h2
  refine ⟨rfl, h2, ?_⟩
  unfold following_instructions
  omega

/-- Witness of the amended C5 on the test bench: one step from offset `0xA`. -/
theorem following_instructions_overshoot_bounded_witness :
    following_instructions (toy_env 0x1000 sample_code) sample_view 0xA 0 = 0xA ∧
      following_instructions (toy_env 0x1000 sample_code) sample_view 0xA 1
        ≤ 0xA + 1 * ((toy_env 0x1000 sample_code).MAX_SIZE : Int) ∧
      (sample_view.address_offset_ : Int)
          + following_instructions (toy_env 0x1000 sample_code) sample_view 0xA 1
        < sample_region.end_ + 1 * ((toy_env 0x1000 sample_code).MAX_SIZE : Int) :=
  following_instructions_overshoot_bounded (toy_env 0x1000 sample_code) sample_view
    sample_region 0xA 1 (by decide) (by decide) toy_decode_size_le (by decide)

/-- C6 fails on the code: at offset `0xF` of the sample view (absolute `0x100F`, the
last byte of the region `[0x1000, 0x1010)`) `following_instruction` asks the reader
for `min(0x1010 - 0xF, 16) = 16` bytes, although a single byte remains before the
region end: the subtraction uses the region-relative offset, not the address. -/
theorem following_instruction_requests_past_region_end :
    sample_region.start ≤ addr_add sample_view.address_offset_ 0xF ∧
      addr_add sample_view.address_offset_ 0xF < sample_region.end_ ∧
      following_instruction_buf_size (toy_env 0x1000 sample_code) sample_view 0xF = 16 ∧
      sample_region.end_ - addr_add sample_view.address_offset_ 0xF = 1 := by
  decide

/-! ## Backward navigation: the function-aware path -/

theorem function_walk_decode_some (env : Env) (region_ : Option Region) (fs L : Nat)
    (h : function_walk_decode env region_ fs = some L) :
    ∃ buf, env.get_instruction_bytes fs (function_walk_buf_size env region_ fs) = some buf ∧
      (env.decode buf fs).valid = true ∧ (env.decode buf fs).byte_size = L := by
  unfold function_walk_decode at h
  cases hr : env.get_instruction_bytes fs (function_walk_buf_size env region_ fs) with
  | none => rw [hr] at h; simp at h
  | some buf =>
    rw [hr] at h
    simp only at h
    split at h
    · rename_i hv
      exact ⟨buf, rfl, hv, Option.some.inj h⟩
    · simp at h

theorem linear_decode_le (env : Env) (region_ : Option Region) :
    ∀ k fs A, linear_decode env region_ k fs = some A → fs ≤ A ∧ (0 < k → fs < A) := by
  intro k
  induction k with
  | zero =>
    intro fs A h
    simp only [linear_decode, Option.some.injEq] at h
    omega
  | succ k ih =>
    intro fs A h
    unfold linear_decode at h
    cases hd : function_walk_decode env region_ fs with
    | none => rw [hd] at h; simp at h
    | some L =>
      rw [hd] at h
      simp only at h
      split at h
      · simp at h
      · have := (ih _ _ h).1
        omega

theorem function_walk_linear (env : Env) (region_ : Option Region) (A : Nat)
    (hA : A < 18446744073709551616) :
    ∀ k fs fuel, linear_decode env region_ (k + 1) fs = some A → k < fuel →
      ∃ p L, function_walk env region_ A fuel fs = some p ∧
        function_walk_decode env region_ p = some L ∧ p + L = A ∧ fs ≤ p ∧ 0 < L := by
  intro k
  induction k with
  | zero =>
    intro fs fuel h hfuel
    cases fuel with
    | zero => omega
    | succ fuel =>
      unfold linear_decode at h
      cases hd : function_walk_decode env region_ fs with
      | none => rw [hd] at h; simp at h
      | some L =>
        rw [hd] at h
        simp only at h
        split at h
        · simp at h
        · rename_i hL
          simp only [linear_decode, Option.some.injEq] at h
          obtain ⟨buf, hr, hv, hs⟩ := function_walk_decode_some env region_ fs L hd
          refine ⟨fs, L, ?_, hd, h, Nat.le_refl _, by omega⟩
          have hadd : addr_add fs (L : Int) = fs + L := addr_add_exact _ _ (by omega)
          unfold function_walk
          simp only [hr, hv, hs, hadd]
          simp [h]
  | succ k ih =>
    intro fs fuel h hfuel
    cases fuel with
    | zero => omega
    | succ fuel =>
      unfold linear_decode at h
      cases hd : function_walk_decode env region_ fs with
      | none => rw [hd] at h; simp at h
      | some L =>
        rw [hd] at h
        simp only at h
        split at h
        · simp at h
        · rename_i hL
          obtain ⟨buf, hr, hv, hs⟩ := function_walk_decode_some env region_ fs L hd
          have hlt := (linear_decode_le env region_ _ _ _ h).2 (Nat.succ_pos k)
          obtain ⟨p, L', h1, h2, h3, h4, h5⟩ := ih (fs + L) fuel h (by omega)
          refine ⟨p, L', ?_, h2, h3, by omega, h5⟩
          have hadd : addr_add fs (L : Int) = fs + L := addr_add_exact _ _ (by omega)
          unfold function_walk
          simp only [hr, hv, hs, hadd]
          have hn : ¬ (A ≤ fs + L) := by omega
          simp [hn, h1]

theorem toy_env_decode_stable (block : Nat) (bytes : List Nat) (addr n m : Nat)
    (buf : List Nat) (rva rva' : Nat) (hnm : n ≤ m)
    (hr : (toy_env block bytes).get_instruction_bytes addr n = some buf)
    (hv : ((toy_env block bytes).decode buf rva).valid = true) :
    ∃ buf', (toy_env block bytes).get_instruction_bytes addr m = some buf' ∧
      (toy_env block bytes).decode buf' rva' = (toy_env block bytes).decode buf rva := by
  simp only [toy_env, block_reader] at hr hv ⊢
  split at hr
  · rename_i hb
    simp only [hb, if_true]
    cases hl : List.drop (addr - block) bytes with
    | nil => rw [hl] at hr; simp at hr
    | cons b l =>
      rw [hl] at hr
      cases n with
      | zero => simp at hr
      | succ n =>
        cases m with
        | zero => omega
        | succ m =>
          simp only [List.take_succ_cons, Option.some.injEq] at hr
          simp only [List.take_succ_cons]
          refine ⟨_, rfl, ?_⟩
          subst hr
          simp only [toy_decode, List.length_cons, List.length_take] at hv ⊢
          split at hv
          · rename_i hc
            have hc' : 1 ≤ b ∧ b ≤ 15 ∧ b ≤ min m l.length + 1 := by
              refine ⟨hc.1, hc.2.1, ?_⟩
              have := hc.2.2
              omega
            simp [hc, hc']
          · simp at hv
  · simp at hr

/-- C7, as stated, fails: offset `1` of the view (absolute `0x1001`) lies inside the
two-byte instruction at the function entry `0x1000`, so the function-aware path is
taken; one step back returns offset `0`, and one step forward from there returns
offset `2`, not `1`. -/
theorem previous_then_following_misses_mid_instruction :
    sample_analyzer (addr_add low_base_view.address_offset_ 1) = some 0x1000 ∧
      addr_add low_base_view.address_offset_ 1 ≠ 0x1000 ∧
      previous_instructions (toy_env 0x1000 sample_code) low_base_view
        (some sample_analyzer) 16 1 1 = some 0 ∧
      following_instructions (toy_env 0x1000 sample_code) low_base_view 0 1 = 2 := by
  decide

/-- C7, amended: let the analyzer report the function entry `e` (not below
`address_offset_`) for the address of offset `c`, and let that address be an
instruction boundary of the linear decoding from `e`: `k + 1` successive valid
instructions, read and decoded as the function-aware loop does, lead from `e`
exactly to it.  If the forward step reads at least as many bytes as the backward
loop at the offsets below `c`, and a valid decode does not change when more bytes
are read at the same address or another rva is passed, then one step back followed
by one step forward returns to `c`. -/
theorem previous_then_following_at_boundary (env : Env) (v : QDisassemblyView)
    (find : Nat → Option Nat) (e k fuel c : Nat)
    (hc : c < 2147483648)
    (hwrap : v.address_offset_ + c < 18446744073709551616)
    (hfind : find (v.address_offset_ + c) = some e)
    (hoff : v.address_offset_ ≤ e)
    (hk : linear_decode env v.region_ (k + 1) e = some (v.address_offset_ + c))
    (hfuel : k < fuel)
    (hbuf : ∀ x : Nat, x < c →
      function_walk_buf_size env v.region_ (v.address_offset_ + x)
        ≤ following_instruction_buf_size env v (x : Int))
    (hstable : ∀ (addr n m : Nat) (buf : List Nat) (rva rva' : Nat), n ≤ m →
      env.get_instruction_bytes addr n = some buf → (env.decode buf rva).valid = true →
      ∃ buf', env.get_instruction_bytes addr m = some buf' ∧
        env.decode buf' rva' = env.decode buf rva) :
    ∃ r : Int, previous_instructions env v (some find) fuel (c : Int) 1 = some r ∧
      r < (c : Int) ∧ following_instructions env v r 1 = (c : Int) := by
  obtain ⟨p, L, hw, hd, hpl, hep, hL⟩ :=
    function_walk_linear env v.region_ (v.address_offset_ + c) hwrap k e fuel hk hfuel
  have hlt := (linear_decode_le env v.region_ _ _ _ hk).2 (Nat.succ_pos k)
  have haddr : addr_add v.address_offset_ (c : Int) = v.address_offset_ + c :=
    addr_add_exact _ _ hwrap
  have hne : v.address_offset_ + c ≠ e := by omega
  have hr : to_int (addr_sub p (v.address_offset_ : Int)) = ((p - v.address_offset_ : Nat) : Int) := by
    unfold to_int addr_sub; omega
  have hprev : previous_instruction env v (some find) fuel (c : Int)
      = some (((p - v.address_offset_ : Nat) : Int)) := by
    simp only [previous_instruction, haddr, hfind, hne, hw, ne_eq, not_false_eq_true,
      if_true, Option.map_some', hr]
  refine ⟨((p - v.address_offset_ : Nat) : Int), ?_, by omega, ?_⟩
  · show previous_instructions_loop env v (some find) fuel 1 (c : Int) = _
    simp only [previous_instructions_loop, hprev]
  · show following_instruction env v ((p - v.address_offset_ : Nat) : Int) = _
    obtain ⟨buf, hrd, hv, hs⟩ := function_walk_decode_some env v.region_ p L hd
    have hpa : addr_add v.address_offset_ ((p - v.address_offset_ : Nat) : Int) = p := by
      unfold addr_add; omega
    have hb := hbuf (p - v.address_offset_) (by omega)
    have hpp : v.address_offset_ + (p - v.address_offset_) = p := by omega
    rw [hpp] at hb
    obtain ⟨buf', hrd', hdec'⟩ := hstable p _ _ buf p
      (addr_add 0 ((p - v.address_offset_ : Nat) : Int)) hb hrd hv
    rw [← hpa] at hrd'
    rw [following_instruction_read_ok env v _ buf' (by rw [hpa] at hrd' ⊢; exact hrd'), hdec', hs]
    omega

/-- Witness of the amended C7 on the test bench: offset `0xA` of the view whose
region base lies far below, three instructions after the entry `0x1000`. -/
theorem previous_then_following_at_boundary_witness :
    ∃ r : Int, previous_instructions (toy_env 0x1000 sample_code) low_base_view
        (some sample_analyzer) 16 ((10 : Nat) : Int) 1 = some r ∧
      r < ((10 : Nat) : Int) ∧
      following_instructions (toy_env 0x1000 sample_code) low_base_view r 1
        = ((10 : Nat) : Int) :=
  previous_then_following_at_boundary (toy_env 0x1000 sample_code) low_base_view
    sample_analyzer 0x1000 2 16 10 (by decide) (by decide) (by decide) (by decide)
    (by decide) (by decide)
    (by
      intro x hx
      simp only [function_walk_buf_size, following_instruction_buf_size, low_base_view,
        low_base_region, toy_env, addr_sub]
      omega)
    (toy_env_decode_stable 0x1000 sample_code)

/-- C8 fails on the code: in the sample view the function entry `0x1000` is the
region's `base()`, so the function-aware loop asks the reader for
`min(0x1000 - 0x1000, 15) = 0` bytes at the entry, the read fails and the loop breaks
at once: from offset `0xA` the result is offset `0` (the entry), although the
instructions at offsets `0`, `2` and `5` all read and decode (`0 → 2 → 5 → 0xA`) and
the instruction at the entry ends at offset `2 < 0xA`. -/
theorem previous_instruction_function_at_region_base :
    sample_analyzer (addr_add sample_view.address_offset_ 0xA) = some 0x1000 ∧
      function_walk_buf_size (toy_env 0x1000 sample_code) sample_view.region_ 0x1000 = 0 ∧
      previous_instruction (toy_env 0x1000 sample_code) sample_view (some sample_analyzer)
        16 0xA = some 0 ∧
      following_instructions (toy_env 0x1000 sample_code) sample_view 0 1 = 2 ∧
      following_instructions (toy_env 0x1000 sample_code) sample_view 0 2 = 5 ∧
      following_instructions (toy_env 0x1000 sample_code) sample_view 0 3 = 0xA := by
  decide

/-- C9 fails on the code when the region's `base()` is the function entry `0x1000`:
with instruction lengths 2, 3, 5, 6 at `0x1000`, `0x1002`, `0x1005`, `0x100A`, one
step back from `0x100A` (offset `0xA`) and from `0x1005` (offset `5`) both return the
entry `0x1000` (offset `0`) instead of `0x1005` and `0x1002`. -/
theorem previous_instructions_sample_function_at_region_base :
    sample_region.base = 0x1000 ∧
      previous_instructions (toy_env 0x1000 sample_code) sample_view (some sample_analyzer)
        16 0xA 1 = some 0 ∧
      previous_instructions (toy_env 0x1000 sample_code) sample_view (some sample_analyzer)
        16 5 1 = some 0 := by
  decide

/-- The scenario of C9 with the region's `base()` far below the function: the
function-aware path returns `0x1005` (offset `5`) and `0x1002` (offset `2`). -/
theorem previous_instructions_sample_function_low_base :
    previous_instructions (toy_env 0x1000 sample_code) low_base_view (some sample_analyzer)
        16 0xA 1 = some 5 ∧
      previous_instructions (toy_env 0x1000 sample_code) low_base_view (some sample_analyzer)
        16 5 1 = some 2 := by
  decide

/-! ## Backward navigation: the heuristic path -/

theorem find?_candidates_down (accept : Nat → Bool) :
    ∀ n, (∀ i, (candidates_down n).find? accept = some i →
        accept i = true ∧ 1 ≤ i ∧ i ≤ n ∧ ∀ j, i < j → j ≤ n → accept j = false) ∧
      ((candidates_down n).find? accept = none → ∀ j, 1 ≤ j → j ≤ n → accept j = false) := by
  intro n
  induction n with
  | zero =>
    refine ⟨?_, ?_⟩
    · intro i h; simp [candidates_down] at h
    · intro _ j h1 h2; omega
  | succ n ih =>
    cases ha : accept (n + 1) with
    | true =>
      refine ⟨?_, ?_⟩
      · intro i h
        simp only [candidates_down, List.find?_cons, ha, Option.some.injEq] at h
        subst h
        exact ⟨ha, by omega, Nat.le_refl _, fun j h1 h2 => by omega⟩
      · intro h
        simp [candidates_down, List.find?_cons, ha] at h
    | false =>
      refine ⟨?_, ?_⟩
      · intro i h
        simp only [candidates_down, List.find?_cons, ha] at h
        obtain ⟨h1, h2, h3, h4⟩ := ih.1 i h
        refine ⟨h1, h2, by omega, ?_⟩
        intro j hj1 hj2
        by_cases hj : j = n + 1
        · rw [hj]; exact ha
        · exact h4 j hj1 (by omega)
      · intro h j hj1 hj2
        simp only [candidates_down, List.find?_cons, ha] at h
        by_cases hj : j = n + 1
        · rw [hj]; exact ha
        · exact ih.2 h j hj1 (by omega)

theorem previous_instruction_scan_first_fit (env : Env) (v : QDisassemblyView)
    (address : Nat) (c : Int) (hguard : v.address_offset_ ≤ address) :
    ∀ i, previous_instruction_scan env v address c i
      = first_fit i (reconciles env address) c := by
  intro i
  induction i with
  | zero => simp [previous_instruction_scan, first_fit, candidates_down]
  | succ i ih =>
    unfold previous_instruction_scan
    simp only [hguard, if_true]
    cases hg : get_instruction_size env (addr_sub address ((i + 1 : Nat) : Int)) env.MAX_SIZE with
    | none =>
      have hrec : reconciles env address (i + 1) = false := by
        unfold reconciles; rw [hg]
        exact decide_eq_false (fun h => Option.noConfusion h)
      rw [ih]
      simp only [first_fit, candidates_down, List.find?_cons, hrec]
    | some n =>
      by_cases hn : n = ((i + 1 : Nat) : Int)
      · have hrec : reconciles env address (i + 1) = true := by
          unfold reconciles; rw [hg, hn]
          exact decide_eq_true rfl
        simp only [hn, if_true, first_fit, candidates_down, List.find?_cons, hrec]
      · have hrec : reconciles env address (i + 1) = false := by
          unfold reconciles; rw [hg]
          exact decide_eq_false (fun h => hn (Option.some.inj h))
        simp only [hn, if_false]
        rw [ih]
        simp only [first_fit, candidates_down, List.find?_cons, hrec]

theorem reconciles_iff (env : Env) (address j : Nat) :
    reconciles env address j = true ↔
      ∃ buf, env.get_instruction_bytes (addr_sub address (j : Int)) env.MAX_SIZE = some buf ∧
        (env.decode buf 0).byte_size = j := by
  unfold reconciles get_instruction_size instruction_size
  simp only [Int.ofNat_nonneg, if_true, Int.toNat_ofNat, decide_eq_true_eq]
  cases env.get_instruction_bytes (addr_sub address (j : Int)) env.MAX_SIZE with
  | none => simp
  | some buf =>
    simp only [Option.some.injEq, exists_eq_left']
    exact Int.ofNat_inj

theorem reconciles_valid_iff (env : Env) (address j : Nat) :
    reconciles_valid env address j = true ↔
      ∃ buf, env.get_instruction_bytes (addr_sub address (j : Int)) env.MAX_SIZE = some buf ∧
        (env.decode buf 0).valid = true ∧ (env.decode buf 0).byte_size = j := by
  unfold reconciles_valid
  cases env.get_instruction_bytes (addr_sub address (j : Int)) env.MAX_SIZE with
  | none => simp
  | some buf => simp

theorem first_fit_valid (env : Env) (address : Nat) (c : Int)
    (hinv : ∀ bytes rva, (env.decode bytes rva).valid = false →
      (env.decode bytes rva).byte_size ≤ 1) :
    ∀ i, first_fit i (reconciles env address) c
      = first_fit i (reconciles_valid env address) c := by
  intro i
  induction i with
  | zero => rfl
  | succ i ih =>
    cases hv : reconciles_valid env address (i + 1) with
    | true =>
      obtain ⟨buf, h1, _, h3⟩ := (reconciles_valid_iff env address (i + 1)).mp hv
      have hr : reconciles env address (i + 1) = true :=
        (reconciles_iff env address (i + 1)).mpr ⟨buf, h1, h3⟩
      simp only [first_fit, candidates_down, List.find?_cons, hv, hr]
    | false =>
      cases hr : reconciles env address (i + 1) with
      | true =>
        obtain ⟨buf, h1, h3⟩ := (reconciles_iff env address (i + 1)).mp hr
        have hnv : (env.decode buf 0).valid = false := by
          cases hval : (env.decode buf 0).valid with
          | false => rfl
          | true =>
            have := (reconciles_valid_iff env address (i + 1)).mpr ⟨buf, h1, hval, h3⟩
            rw [hv] at this
            exact absurd this (by simp)
        have hle := hinv buf 0 hnv
        have hi : i = 0 := by omega
        subst hi
        simp [first_fit, candidates_down, List.find?_cons, hv, hr]
      | false =>
        have := ih
        simp only [first_fit] at this
        simp only [first_fit, candidates_down, List.find?_cons, hv, hr]
        exact this

/-- C10: on the heuristic path (no analyzer, no containing function, or the address
is the function entry), for an offset `c ≥ 0` whose address does not wrap,
`previous_instruction` returns `c - i` for the first candidate `i`, going from
`MAX_SIZE` down to `1`, for which `get_instruction_size` at `address - i` returns
exactly `i`, and `c - 1` when there is none.  When an invalid instruction never
reports more than one byte, that is the first `i` for which the bytes at
`address - i` decode to a valid instruction of exactly `i` bytes. -/
theorem previous_instruction_heuristic_first_fit (env : Env) (v : QDisassemblyView)
    (analyzer : Option (Nat → Option Nat)) (fuel : Nat) (c : Int)
    (hc : 0 ≤ c)
    (hwrap : (v.address_offset_ : Int) + c < 18446744073709551616)
    (hpath : ∀ find, analyzer = some find →
      find (addr_add v.address_offset_ c) = none ∨
        find (addr_add v.address_offset_ c) = some (addr_add v.address_offset_ c)) :
    previous_instruction env v analyzer fuel c
        = some (first_fit env.MAX_SIZE (reconciles env (addr_add v.address_offset_ c)) c) ∧
      ((∀ bytes rva, (env.decode bytes rva).valid = false →
          (env.decode bytes rva).byte_size ≤ 1) →
        previous_instruction env v analyzer fuel c
          = some (first_fit env.MAX_SIZE
              (reconciles_valid env (addr_add v.address_offset_ c)) c)) := by
  have hguard : v.address_offset_ ≤ addr_add v.address_offset_ c := by
    unfold addr_add; omega
  have hscan := previous_instruction_scan_first_fit env v (addr_add v.address_offset_ c) c
    hguard env.MAX_SIZE
  have hmain : previous_instruction env v analyzer fuel c
      = some (first_fit env.MAX_SIZE (reconciles env (addr_add v.address_offset_ c)) c) := by
    unfold previous_instruction
    cases analyzer with
    | none => simp only [hscan]
    | some find =>
      rcases hpath find rfl with h | h
      · simp only [h, hscan]
      · simp only [h, hscan, ne_eq, not_true_eq_false, if_false]
  refine ⟨hmain, ?_⟩
  intro hinv
  rw [hmain, first_fit_valid env _ c hinv]

theorem toy_decode_invalid_size (bytes : List Nat) (rva : Nat)
    (h : (toy_decode bytes rva).valid = false) : (toy_decode bytes rva).byte_size ≤ 1 := by
  unfold toy_decode at h ⊢
  cases bytes with
  | nil => exact Nat.le_refl 1
  | cons n t =>
    simp only at h ⊢
    split
    · rename_i hc
      rw [if_pos hc] at h
      exact absurd h (by simp)
    · exact Nat.le_refl 1

/-- Witness of C10 on the test bench: without an analyzer, the step back from offset
`0xA` of the sample view is the first fit among the valid decodes. -/
theorem previous_instruction_heuristic_first_fit_witness :
    previous_instruction (toy_env 0x1000 sample_code) sample_view none 0 0xA
      = some (first_fit (toy_env 0x1000 sample_code).MAX_SIZE
          (reconciles_valid (toy_env 0x1000 sample_code)
            (addr_add sample_view.address_offset_ 0xA)) 0xA) :=
  (previous_instruction_heuristic_first_fit (toy_env 0x1000 sample_code) sample_view none 0
    0xA (by decide) (by decide) (fun _ h => Option.noConfusion h)).2 toy_decode_invalid_size

/-! ## Strategy selection and the two-byte stream -/

theorem previous_instruction_on_heuristic_path (env : Env) (v : QDisassemblyView)
    (analyzer : Option (Nat → Option Nat)) (fuel : Nat) (c : Int)
    (hpath : ∀ find, analyzer = some find →
      find (addr_add v.address_offset_ c) = none ∨
        find (addr_add v.address_offset_ c) = some (addr_add v.address_offset_ c)) :
    previous_instruction env v analyzer fuel c
      = some (previous_instruction_scan env v (addr_add v.address_offset_ c) c
          env.MAX_SIZE) := by
  unfold previous_instruction
  cases analyzer with
  | none => rfl
  | some find =>
    rcases hpath find rfl with h | h
    · simp only [h]
    · simp only [h, ne_eq, not_true_eq_false, if_false]

theorem block_reader_below (block : Nat) (bytes : List Nat) (a n : Nat) (h : a < block) :
    block_reader block bytes a n = none := by
  unfold block_reader
  rw [if_neg (by omega)]

/-- C11: without an analyzer, in a view whose region starts at `0x1000`
(`address_offset_ = 0x1000`) and with no readable memory below `0x1000`, the step
back from `0x1001` (offset `1`) returns offset `0`, the address `0x1000`, whatever
the bytes at `0x1000` decode to, in particular for the stream `0x90`, `0xC3` of two
one-byte instructions. -/
theorem previous_instruction_two_byte_stream (env : Env) (v : QDisassemblyView)
    (fuel : Nat)
    (hoff : v.address_offset_ = 0x1000)
    (hmax : env.MAX_SIZE ≤ 0x1001)
    (hunread : ∀ a n, a < 0x1000 → env.get_instruction_bytes a n = none) :
    previous_instruction env v none fuel 1 = some 0 := by
  have haddr : addr_add v.address_offset_ 1 = 0x1001 := by
    rw [hoff]; decide
  rw [previous_instruction_on_heuristic_path env v none fuel 1
    (fun _ h => Option.noConfusion h), haddr,
    previous_instruction_scan_first_fit env v 0x1001 1 (by rw [hoff]; decide)]
  unfold first_fit
  cases hf : (candidates_down env.MAX_SIZE).find? (reconciles env 0x1001) with
  | none => rfl
  | some i =>
    obtain ⟨hacc, h1, h2, _⟩ := (find?_candidates_down (reconciles env 0x1001)
      env.MAX_SIZE).1 i hf
    by_cases hi : i = 1
    · subst hi; rfl
    · exfalso
      obtain ⟨buf, hr, _⟩ := (reconciles_iff env 0x1001 i).mp hacc
      have hlt : addr_sub 0x1001 (i : Int) < 0x1000 := by
        unfold addr_sub; omega
      rw [hunread _ _ hlt] at hr
      exact Option.noConfusion hr

/-- Witness of C11 on the stream `[0x1000] = 0x90`, `[0x1001] = 0xC3` decoded by the
nop/ret decoder. -/
theorem previous_instruction_two_byte_stream_witness :
    previous_instruction nop_ret_env nop_ret_view none 0 1 = some 0 :=
  previous_instruction_two_byte_stream nop_ret_env nop_ret_view 0 rfl (by decide)
    (fun a n h => block_reader_below 0x1000 [0x90, 0xC3] a n h)

/-- C12: strategy selection in `previous_instruction`.  Without an analyzer, with an
analyzer that reports no containing function, and with one that reports the address
itself as the entry, the result is the same heuristic scan; the function-aware loop
runs exactly when a containing function with an entry other than the address is
reported, and then its result is the result. -/
theorem previous_instruction_strategy_selection (env : Env) (v : QDisassemblyView)
    (fuel : Nat) (c : Int) :
    previous_instruction env v none fuel c
        = some (previous_instruction_scan env v (addr_add v.address_offset_ c) c
            env.MAX_SIZE) ∧
      (∀ find : Nat → Option Nat, find (addr_add v.address_offset_ c) = none →
        previous_instruction env v (some find) fuel c
          = previous_instruction env v none fuel c) ∧
      (∀ find : Nat → Option Nat,
        find (addr_add v.address_offset_ c) = some (addr_add v.address_offset_ c) →
        previous_instruction env v (some find) fuel c
          = previous_instruction env v none fuel c) ∧
      (∀ (find : Nat → Option Nat) (e : Nat),
        find (addr_add v.address_offset_ c) = some e → e ≠ addr_add v.address_offset_ c →
        previous_instruction env v (some find) fuel c
          = (function_walk env v.region_ (addr_add v.address_offset_ c) fuel e).map
              (fun function_start => to_int (addr_sub function_start v.address_offset_))) := by
  have hnone := previous_instruction_on_heuristic_path env v none fuel c
    (fun _ h => Option.noConfusion h)
  refine ⟨hnone, ?_, ?_, ?_⟩
  · intro find h
    rw [hnone]
    exact previous_instruction_on_heuristic_path env v (some find) fuel c
      (fun f hf => by cases hf; exact Or.inl h)
  · intro find h
    rw [hnone]
    exact previous_instruction_on_heuristic_path env v (some find) fuel c
      (fun f hf => by cases hf; exact Or.inr h)
  · intro find e h hne
    unfold previous_instruction
    simp only [h, ne_eq, hne.symm, not_false_eq_true, if_true]

/-- Witness of C12 on the test bench: at the entry `0x1000` of the sample function
the analyzer's answer is the address itself and the heuristic result is returned;
at offset `0xA` the function-aware loop decides. -/
theorem previous_instruction_strategy_selection_witness :
    previous_instruction (toy_env 0x1000 sample_code) low_base_view (some sample_analyzer)
        16 0 = previous_instruction (toy_env 0x1000 sample_code) low_base_view none 16 0 ∧
      previous_instruction (toy_env 0x1000 sample_code) low_base_view (some sample_analyzer)
        16 0xA
        = (function_walk (toy_env 0x1000 sample_code) low_base_view.region_
            (addr_add low_base_view.address_offset_ 0xA) 16 0x1000).map
            (fun function_start =>
              to_int (addr_sub function_start low_base_view.address_offset_)) :=
  ⟨(previous_instruction_strategy_selection (toy_env 0x1000 sample_code) low_base_view
      16 0).2.2.1 sample_analyzer (by decide),
    (previous_instruction_strategy_selection (toy_env 0x1000 sample_code) low_base_view
      16 0xA).2.2.2 sample_analyzer 0x1000 (by decide) (by decide)⟩

/-! ## Line lookup -/

theorem find_position_lt_iff (addr : Nat) :
    ∀ l : List Nat, find_position addr l < l.length ↔ addr ∈ l := by
  intro l
  induction l with
  | nil => simp [find_position]
  | cons x xs ih =>
    unfold find_position
    by_cases hx : x = addr
    · simp [hx]
    · simp only [hx, if_false, List.length_cons, List.mem_cons]
      constructor
      · intro h; exact Or.inr (ih.mp (by omega))
      · intro h
        rcases h with h | h
        · exact absurd h.symm hx
        · have := ih.mpr h; omega

theorem find_position_getElem? (addr : Nat) :
    ∀ l : List Nat, addr ∈ l → l[find_position addr l]? = some addr := by
  intro l
  induction l with
  | nil => intro h; simp at h
  | cons x xs ih =>
    intro h
    unfold find_position
    by_cases hx : x = addr
    · simp [hx]
    · simp only [hx, if_false, List.getElem?_cons_succ]
      rcases List.mem_cons.mp h with h | h
      · exact absurd h.symm hx
      · exact ih h

theorem find_position_least (addr : Nat) :
    ∀ (l : List Nat) (q : Nat), q < find_position addr l → l[q]? ≠ some addr := by
  intro l
  induction l with
  | nil => intro q h; simp [find_position] at h
  | cons x xs ih =>
    intro q h
    unfold find_position at h
    by_cases hx : x = addr
    · simp [hx] at h
    · simp only [hx, if_false] at h
      cases q with
      | zero =>
        simp only [List.getElem?_cons_zero, ne_eq, Option.some.injEq]
        exact hx
      | succ q =>
        simp only [List.getElem?_cons_succ]
        exact ih q (by omega)

theorem sorted_between_ends :
    ∀ l : List Nat, l.Pairwise (· < ·) → ∀ x ∈ l, l.headD 0 ≤ x ∧ x ≤ l.getLastD 0 := by
  intro l
  induction l with
  | nil => intro _ x hx; simp at hx
  | cons a t ih =>
    intro hs x hx
    rw [List.pairwise_cons] at hs
    simp only [List.headD_cons]
    cases t with
    | nil =>
      simp only [List.mem_singleton] at hx
      subst hx
      simp
    | cons b t' =>
      have hlast : (a :: b :: t').getLastD 0 = (b :: t').getLastD 0 := by
        simp [List.getLastD]
      rw [hlast]
      rcases List.mem_cons.mp hx with hxa | hxt
      · subst hxa
        have h1 := (ih hs.2 b (List.mem_cons_self _ _)).2
        have h2 := hs.1 b (List.mem_cons_self _ _)
        constructor <;> omega
      · have h1 := ih hs.2 x hxt
        have h2 := hs.1 x hxt
        constructor
        · omega
        · exact h1.2

/-- C13: `get_line_of_address` is a total, exact-match lookup.  A returned line `p`
holds `addr` and is the least such index; for every `addr` that does not occur in
`show_addresses_` (below the first entry, above the last, between two entries, or in
an empty window) the result is `none`; and in a strictly increasing window, as
`updateDisassembly` produces, every `addr` that occurs is found. -/
theorem get_line_of_address_exact_lookup (show_addresses_ : List Nat) (addr : Nat) :
    (∀ p : Nat, get_line_of_address show_addresses_ addr = some p →
        show_addresses_[p]? = some addr ∧
          ∀ q : Nat, q < p → show_addresses_[q]? ≠ some addr) ∧
      (addr ∉ show_addresses_ → get_line_of_address show_addresses_ addr = none) ∧
      (show_addresses_.Pairwise (· < ·) → addr ∈ show_addresses_ →
        ∃ p : Nat, get_line_of_address show_addresses_ addr = some p ∧
          show_addresses_[p]? = some addr ∧
          ∀ q : Nat, q < p → show_addresses_[q]? ≠ some addr) := by
  refine ⟨?_, ?_, ?_⟩
  · intro p hp
    unfold get_line_of_address at hp
    split at hp
    · split at hp
      · simp only at hp
        split at hp
        · rename_i hlt
          have hp' := Option.some.inj hp
          subst hp'
          exact ⟨find_position_getElem? addr _ ((find_position_lt_iff addr _).mp hlt),
            find_position_least addr _⟩
        · exact Option.noConfusion hp
      · exact Option.noConfusion hp
    · exact Option.noConfusion hp
  · intro hn
    unfold get_line_of_address
    have : ¬ find_position addr show_addresses_ < show_addresses_.length :=
      fun h => hn ((find_position_lt_iff addr _).mp h)
    split
    · split
      · simp only [this, if_false]
      · rfl
    · rfl
  · intro hs hmem
    have hb := sorted_between_ends show_addresses_ hs addr hmem
    have hlt := (find_position_lt_iff addr show_addresses_).mpr hmem
    have hne : (!show_addresses_.isEmpty) = true := by
      cases show_addresses_ with
      | nil => simp at hmem
      | cons a t => rfl
    refine ⟨find_position addr show_addresses_, ?_, find_position_getElem? addr _ hmem,
      find_position_least addr _⟩
    unfold get_line_of_address
    simp only [hne, if_true, hb, and_self, hlt]

/-- Witness of C13 on the window produced for the sample code: `0x1002` is found on
line `1`. -/
theorem get_line_of_address_exact_lookup_witness :
    ∃ p : Nat, get_line_of_address
        (updateDisassembly (toy_env 0x1000 sample_code) sample_view sample_region
          2).show_addresses_ 0x1002 = some p ∧
      (updateDisassembly (toy_env 0x1000 sample_code) sample_view sample_region
          2).show_addresses_[p]? = some 0x1002 ∧
      ∀ q : Nat, q < p →
        (updateDisassembly (toy_env 0x1000 sample_code) sample_view sample_region
          2).show_addresses_[q]? ≠ some 0x1002 :=
  (get_line_of_address_exact_lookup
    (updateDisassembly (toy_env 0x1000 sample_code) sample_view sample_region
      2).show_addresses_ 0x1002).2.2 (by decide) (by decide)

/-! ## Backward progress -/

theorem previous_instruction_scan_bounds (env : Env) (v : QDisassemblyView) (address : Nat)
    (c : Int) : ∀ i : Nat,
      c - ((max i 1 : Nat) : Int) ≤ previous_instruction_scan env v address c i ∧
        previous_instruction_scan env v address c i ≤ c - 1 := by
  intro i
  induction i with
  | zero => simp [previous_instruction_scan]
  | succ i ih =>
    have hmax : ((max (i + 1) 1 : Nat) : Int) = (i : Int) + 1 := by
      have : max (i + 1) 1 = i + 1 := by omega
      rw [this]; push_cast; rfl
    have hmax' : ((max i 1 : Nat) : Int) ≤ (i : Int) + 1 := by
      have : max i 1 ≤ i + 1 := by omega
      exact_mod_cast this
    rw [hmax]
    unfold previous_instruction_scan
    simp only
    split
    · split
      · split
        · push_cast; omega
        · omega
      · omega
    · omega

theorem function_walk_below_target (env : Env) (region_ : Option Region) (target : Nat) :
    ∀ (fuel fs p : Nat), fs < target →
      function_walk env region_ target fuel fs = some p → p < target := by
  intro fuel
  induction fuel with
  | zero => intro fs p _ h; simp [function_walk] at h
  | succ fuel ih =>
    intro fs p hfs h
    unfold function_walk at h
    cases hr : env.get_instruction_bytes fs (function_walk_buf_size env region_ fs) with
    | none =>
      rw [hr] at h
      simp only [Option.some.injEq] at h
      omega
    | some buf =>
      rw [hr] at h
      simp only at h
      split at h
      · simp only [Option.some.injEq] at h; omega
      · split at h
        · simp only [Option.some.injEq] at h; omega
        · rename_i hlt
          exact ih _ p (by omega) h

theorem function_walk_terminates (env : Env) (region_ : Option Region) (target : Nat)
    (hpos : ∀ bytes rva, (env.decode bytes rva).valid = true →
      1 ≤ (env.decode bytes rva).byte_size)
    (hle : ∀ bytes rva, (env.decode bytes rva).byte_size ≤ env.MAX_SIZE)
    (htarget : target + env.MAX_SIZE ≤ 18446744073709551616) :
    ∀ (fuel fs : Nat), fs < target → target - fs ≤ fuel →
      ∃ p, function_walk env region_ target fuel fs = some p ∧ fs ≤ p ∧ p < target := by
  intro fuel
  induction fuel with
  | zero => intro fs h1 h2; omega
  | succ fuel ih =>
    intro fs hfs hfuel
    unfold function_walk
    cases hr : env.get_instruction_bytes fs (function_walk_buf_size env region_ fs) with
    | none => exact ⟨fs, rfl, Nat.le_refl _, hfs⟩
    | some buf =>
      simp only
      cases hv : (env.decode buf fs).valid with
      | false => exact ⟨fs, by simp, Nat.le_refl _, hfs⟩
      | true =>
        have h1 := hpos buf fs hv
        have h2 := hle buf fs
        have hadd : addr_add fs ((env.decode buf fs).byte_size : Int)
            = fs + (env.decode buf fs).byte_size := addr_add_exact _ _ (by omega)
        rw [hadd]
        by_cases hge : target ≤ fs + (env.decode buf fs).byte_size
        · exact ⟨fs, by simp [hge], Nat.le_refl _, hfs⟩
        · obtain ⟨p, hp1, hp2, hp3⟩ := ih (fs + (env.decode buf fs).byte_size)
            (by omega) (by omega)
          exact ⟨p, by simp [hge, hp1], by omega, hp3⟩

theorem previous_instruction_step (env : Env) (v : QDisassemblyView)
    (analyzer : Option (Nat → Option Nat)) (fuel : Nat) (c : Int)
    (hmax : 1 ≤ env.MAX_SIZE) (hmax' : env.MAX_SIZE < 2147483648)
    (hpos : ∀ bytes rva, (env.decode bytes rva).valid = true →
      1 ≤ (env.decode bytes rva).byte_size)
    (hle : ∀ bytes rva, (env.decode bytes rva).byte_size ≤ env.MAX_SIZE)
    (hoff : v.address_offset_ + 4294967296 ≤ 18446744073709551616)
    (hfind : ∀ find, analyzer = some find → ∀ addr e, find addr = some e →
      v.address_offset_ ≤ e ∧ e ≤ addr ∧ addr < v.address_offset_ + 2147483648)
    (hc1 : -9223372036854775808 < c) (hc2 : c < 9223372036854775808)
    (hfuel : c ≤ (fuel : Int)) :
    ∃ r, previous_instruction env v analyzer fuel c = some r ∧ r < c ∧
      (c - (env.MAX_SIZE : Int) ≤ r ∨ 0 ≤ r) := by
  have hscan := previous_instruction_scan_bounds env v (addr_add v.address_offset_ c) c
    env.MAX_SIZE
  have hm : ((max env.MAX_SIZE 1 : Nat) : Int) = (env.MAX_SIZE : Int) := by
    have : max env.MAX_SIZE 1 = env.MAX_SIZE := by omega
    rw [this]
  rw [hm] at hscan
  have hheur : ∀ (hp : ∀ find, analyzer = some find →
      find (addr_add v.address_offset_ c) = none ∨
        find (addr_add v.address_offset_ c) = some (addr_add v.address_offset_ c)),
      ∃ r, previous_instruction env v analyzer fuel c = some r ∧ r < c ∧
        (c - (env.MAX_SIZE : Int) ≤ r ∨ 0 ≤ r) := by
    intro hp
    refine ⟨_, previous_instruction_on_heuristic_path env v analyzer fuel c hp, ?_, ?_⟩
    · omega
    · exact Or.inl hscan.1
  cases analyzer with
  | none => exact hheur (fun _ h => Option.noConfusion h)
  | some find =>
    cases hf : find (addr_add v.address_offset_ c) with
    | none => exact hheur (fun f h => by cases h; exact Or.inl hf)
    | some e =>
      by_cases he : e = addr_add v.address_offset_ c
      · exact hheur (fun f h => by cases h; rw [hf, he]; exact Or.inr rfl)
      · obtain ⟨h1, h2, h3⟩ := hfind find rfl _ e hf
        have hlt : e < addr_add v.address_offset_ c := by omega
        have hcA : c = (addr_add v.address_offset_ c : Int) - (v.address_offset_ : Int) := by
          have := addr_add_lt v.address_offset_ c
          revert h2 h3 this
          unfold addr_add
          intro h2 h3 this
          omega
        obtain ⟨p, hp, hp1, hp2⟩ := function_walk_terminates env v.region_
          (addr_add v.address_offset_ c) hpos hle (by omega) fuel e hlt (by omega)
        have hr : to_int (addr_sub p (v.address_offset_ : Int))
            = (p : Int) - (v.address_offset_ : Int) := by
          unfold to_int addr_sub; omega
        refine ⟨(p : Int) - (v.address_offset_ : Int), ?_, by omega, Or.inr (by omega)⟩
        have hne : ¬ addr_add v.address_offset_ c = e := fun h => he h.symm
        unfold previous_instruction
        simp only [hf, ne_eq, hp, Option.map_some', hr]
        rw [if_pos hne]

theorem previous_instructions_loop_progress (env : Env) (v : QDisassemblyView)
    (analyzer : Option (Nat → Option Nat)) (fuel : Nat)
    (hmax : 1 ≤ env.MAX_SIZE) (hmax' : env.MAX_SIZE < 2147483648)
    (hpos : ∀ bytes rva, (env.decode bytes rva).valid = true →
      1 ≤ (env.decode bytes rva).byte_size)
    (hle : ∀ bytes rva, (env.decode bytes rva).byte_size ≤ env.MAX_SIZE)
    (hoff : v.address_offset_ + 4294967296 ≤ 18446744073709551616)
    (hfind : ∀ find, analyzer = some find → ∀ addr e, find addr = some e →
      v.address_offset_ ≤ e ∧ e ≤ addr ∧ addr < v.address_offset_ + 2147483648) :
    ∀ (n : Nat) (c : Int),
      -9223372036854775808 + (n : Int) * (env.MAX_SIZE : Int) < c →
      (n : Int) * (env.MAX_SIZE : Int) < 9223372036854775808 →
      c < 9223372036854775808 → c ≤ (fuel : Int) →
      ∃ r, previous_instructions_loop env v analyzer fuel n c = some r ∧ r + (n : Int) ≤ c := by
  intro n
  induction n with
  | zero =>
    intro c _ _ _ _
    exact ⟨c, rfl, by simp⟩
  | succ n ih =>
    intro c h1 h2 h3 h4
    have hmul : ((n + 1 : Nat) : Int) * (env.MAX_SIZE : Int)
        = (n : Int) * (env.MAX_SIZE : Int) + (env.MAX_SIZE : Int) := by
      push_cast; ring
    rw [hmul] at h1 h2
    have hnn : 0 ≤ (n : Int) * (env.MAX_SIZE : Int) :=
      mul_nonneg (Int.ofNat_nonneg _) (Int.ofNat_nonneg _)
    obtain ⟨r1, hr1, hlt, hlow⟩ := previous_instruction_step env v analyzer fuel c hmax
      hmax' hpos hle hoff hfind (by omega) h3 h4
    obtain ⟨r, hr, hrn⟩ := ih r1 (by rcases hlow with h | h <;> omega) (by omega)
      (by omega) (by omega)
    refine ⟨r, ?_, by push_cast; omega⟩
    unfold previous_instructions_loop
    simp only [hr1, hr]

/-- C14: `previous_instruction` makes backward progress.  On the heuristic path the
result `r` satisfies `c - MAX_SIZE ≤ r ≤ c - 1` (with `MAX_SIZE ≥ 1`); the
function-aware loop started at an entry below the target address stops at an
address below the target; and for an offset `0 ≤ a < 2^31`, a count
`1 ≤ count < 2^31`, a decoder whose valid instructions have at least one byte and
none more than `MAX_SIZE`, an analyzer that reports entries not below
`address_offset_` and not above the address (within `2^31` of `address_offset_`) and
enough iterations for the function-aware loop, `previous_instructions(a, count)`
returns a result that is at most `a - count`, hence below `a`. -/
theorem previous_instruction_backward_progress (env : Env) (v : QDisassemblyView)
    (hmax : 1 ≤ env.MAX_SIZE) :
    (∀ (analyzer : Option (Nat → Option Nat)) (fuel : Nat) (c : Int),
        (∀ find, analyzer = some find →
          find (addr_add v.address_offset_ c) = none ∨
            find (addr_add v.address_offset_ c) = some (addr_add v.address_offset_ c)) →
        ∃ r, previous_instruction env v analyzer fuel c = some r ∧
          c - (env.MAX_SIZE : Int) ≤ r ∧ r ≤ c - 1) ∧
      (∀ (target fuel e p : Nat), e < target →
        function_walk env v.region_ target fuel e = some p → p < target) ∧
      (∀ (analyzer : Option (Nat → Option Nat)) (fuel : Nat) (a count : Int),
        env.MAX_SIZE < 2147483648 →
        (∀ bytes rva, (env.decode bytes rva).valid = true →
          1 ≤ (env.decode bytes rva).byte_size) →
        (∀ bytes rva, (env.decode bytes rva).byte_size ≤ env.MAX_SIZE) →
        v.address_offset_ + 4294967296 ≤ 18446744073709551616 →
        (∀ find, analyzer = some find → ∀ addr e, find addr = some e →
          v.address_offset_ ≤ e ∧ e ≤ addr ∧ addr < v.address_offset_ + 2147483648) →
        0 ≤ a → a < 2147483648 → 1 ≤ count → count < 2147483648 → a ≤ (fuel : Int) →
        ∃ r, previous_instructions env v analyzer fuel a count = some r ∧
          r ≤ a - count ∧ r < a) := by
  refine ⟨?_, ?_, ?_⟩
  · intro analyzer fuel c hpath
    have hscan := previous_instruction_scan_bounds env v (addr_add v.address_offset_ c) c
      env.MAX_SIZE
    have hm : ((max env.MAX_SIZE 1 : Nat) : Int) = (env.MAX_SIZE : Int) := by
      have : max env.MAX_SIZE 1 = env.MAX_SIZE := by omega
      rw [this]
    rw [hm] at hscan
    exact ⟨_, previous_instruction_on_heuristic_path env v analyzer fuel c hpath, hscan⟩
  · intro target fuel e p he hp
    exact function_walk_below_target env v.region_ target fuel e p he hp
  · intro analyzer fuel a count hmax' hpos hle hoff hfind ha0 ha1 hc0 hc1 hfuel
    have hn : count.toNat < 2147483648 := by omega
    have hprod : count.toNat * env.MAX_SIZE < 2147483648 * 2147483648 :=
      Nat.mul_lt_mul'' hn hmax'
    have hprod' : ((count.toNat : Nat) : Int) * (env.MAX_SIZE : Int)
        < 4611686018427387904 := by
      have : ((count.toNat * env.MAX_SIZE : Nat) : Int) < 4611686018427387904 := by
        exact_mod_cast hprod
      push_cast at this
      exact this
    have hnn : 0 ≤ ((count.toNat : Nat) : Int) * (env.MAX_SIZE : Int) :=
      mul_nonneg (Int.ofNat_nonneg _) (Int.ofNat_nonneg _)
    obtain ⟨r, hr, hrn⟩ := previous_instructions_loop_progress env v analyzer fuel hmax
      hmax' hpos hle hoff hfind count.toNat a (by omega) (by omega) (by omega) hfuel
    have hcn : ((count.toNat : Nat) : Int) = count := Int.toNat_of_nonneg (by omega)
    exact ⟨r, hr, by omega, by omega⟩

theorem sample_analyzer_in_region (addr e : Nat) (h : sample_analyzer addr = some e) :
    0x1000 ≤ e ∧ e ≤ addr ∧ addr < 0x1000 + 2147483648 := by
  unfold sample_analyzer at h
  split at h
  · have := Option.some.inj h
    omega
  · exact Option.noConfusion h

/-- Witness of C14 on the test bench: two steps back from offset `0xA` with the
sample analyzer. -/
theorem previous_instruction_backward_progress_witness :
    ∃ r, previous_instructions (toy_env 0x1000 sample_code) low_base_view
        (some sample_analyzer) 16 0xA 2 = some r ∧ r ≤ 0xA - 2 ∧ r < 0xA :=
  (previous_instruction_backward_progress (toy_env 0x1000 sample_code) low_base_view
    (by decide)).2.2 (some sample_analyzer) 16 0xA 2 (by decide) toy_decode_valid_pos
    toy_decode_size_le (by decide)
    (fun find h addr e he => by cases h; exact sample_analyzer_in_region addr e he)
    (by decide) (by decide) (by decide) (by decide) (by decide)

/-! ## Read failures in the rendering loop -/

/-- C15, as stated, fails: when nothing can be read at the start address `0x1000`
(the readable block lies at `0x3000`), `updateDisassembly` asked for two lines
produces no entry at all, neither a placeholder for `0x1000` nor an entry one byte
later. -/
theorem updateDisassembly_read_failure_empties_window :
    (toy_env 0x3000 sample_code).get_instruction_bytes
        (addr_add sample_view.address_offset_ sample_view.scroll_value)
        sample_view.instruction_buffer_size = none ∧
      (updateDisassembly (toy_env 0x3000 sample_code) sample_view sample_region
        2).show_addresses_ = [] ∧
      (updateDisassembly (toy_env 0x3000 sample_code) sample_view sample_region
        2).instructions_ = [] ∧
      (updateDisassembly (toy_env 0x3000 sample_code) sample_view sample_region 2).line = 0 := by
  decide

/-- C15, amended: `updateDisassembly` reads once, at the start address.  When that
read fails the window is empty (no instruction, no address, zero lines).  When it
succeeds, a line whose bytes do not decode to a valid instruction is kept as an entry
of the window and the following line, if any, starts one byte later (in `address_t`
arithmetic, and as plain numbers when the start address is not beyond the region
end). -/
theorem updateDisassembly_read_failure_and_placeholder
    (env : Env) (v : QDisassemblyView) (region : Region) (lines_to_render : Int) :
    (env.get_instruction_bytes (addr_add v.address_offset_ v.scroll_value)
          v.instruction_buffer_size = none →
        (updateDisassembly env v region lines_to_render).show_addresses_ = [] ∧
          (updateDisassembly env v region lines_to_render).instructions_ = [] ∧
          (updateDisassembly env v region lines_to_render).line = 0) ∧
      (∀ (k : Nat) a b i,
        (updateDisassembly env v region lines_to_render).show_addresses_[k]? = some a →
        (updateDisassembly env v region lines_to_render).show_addresses_[k + 1]? = some b →
        (updateDisassembly env v region lines_to_render).instructions_[k]? = some i →
        i.valid = false → b = addr_add a 1) ∧
      (region.end_ < 18446744073709551616 →
        addr_add v.address_offset_ v.scroll_value ≤ region.end_ →
        ∀ (k : Nat) a b i,
        (updateDisassembly env v region lines_to_render).show_addresses_[k]? = some a →
        (updateDisassembly env v region lines_to_render).show_addresses_[k + 1]? = some b →
        (updateDisassembly env v region lines_to_render).instructions_[k]? = some i →
        i.valid = false → b = a + 1) := by
  cases hrd : env.get_instruction_bytes (addr_add v.address_offset_ v.scroll_value)
      v.instruction_buffer_size with
  | none =>
    rw [updateDisassembly_read_failed env v region lines_to_render hrd]
    simp
  | some inst_buf =>
    rw [updateDisassembly_read_ok env v region lines_to_render inst_buf hrd]
    refine ⟨fun h => Option.noConfusion h, ?_, ?_⟩
    · intro k a b i ha hb hi hv
      have hp := entry_of_columns ha hi
      rw [List.getElem?_map] at hb
      cases hq : (disassemble_lines env inst_buf (addr_add v.address_offset_ v.scroll_value)
        (min (to_int (addr_sub region.end_ (addr_add v.address_offset_ v.scroll_value)))
          inst_buf.length) lines_to_render.toNat 0).1[k + 1]? with
      | none => rw [hq] at hb; simp at hb
      | some q =>
        rw [hq] at hb
        simp only [Option.map_some', Option.some.injEq] at hb
        have := chain_getElem? _
          (disassemble_lines_chain env inst_buf _ _ lines_to_render.toNat 0).1 k _ _ hp hq
        simp only [hv] at this
        rw [← hb]; exact this
    · intro hend hstart k a b i ha hb hi hv
      have hp := entry_of_columns ha hi
      rw [List.getElem?_map] at hb
      cases hq : (disassemble_lines env inst_buf (addr_add v.address_offset_ v.scroll_value)
        (min (to_int (addr_sub region.end_ (addr_add v.address_offset_ v.scroll_value)))
          inst_buf.length) lines_to_render.toNat 0).1[k + 1]? with
      | none => rw [hq] at hb; simp at hb
      | some q =>
        rw [hq] at hb
        simp only [Option.map_some', Option.some.injEq] at hb
        have := chain_getElem? _
          (disassemble_lines_chain_exact env inst_buf _ _
            (fun o ho => lt_trans (max_offset_no_wrap _ _ _ hend hstart o ho) hend)
            lines_to_render.toNat 0).1 k _ _ hp hq
        simp only [hv] at this
        rw [← hb]; exact this

/-- Witness of the amended C15 on the test bench: the bytes `0, 2, 0` give an
undecodable line at `0x1000` followed by a line at `0x1001`. -/
theorem updateDisassembly_read_failure_and_placeholder_witness :
    (0x1001 : Nat) = addr_add 0x1000 1 :=
  (updateDisassembly_read_failure_and_placeholder (toy_env 0x1000 [0, 2, 0]) sample_view
    sample_region 2).2.1 0 0x1000 0x1001 (Instruction.mk false 1)
    (by decide) (by decide) (by decide) rfl

/-! ## The forward step -/

theorem following_instructions_loop_iterate (env : Env) (v : QDisassemblyView) :
    ∀ (n : Nat) (a : Int),
      following_instructions_loop env v n a = Nat.iterate (following_instruction env v) n a := by
  intro n
  induction n with
  | zero => intro a; rfl
  | succ n ih =>
    intro a
    unfold following_instructions_loop
    rw [ih, Function.iterate_succ_apply]

/-- C16: a forward step is `a + 1` when the read of the instruction bytes at
`address_offset_ + a` fails and `a + L` otherwise, `L` being the byte size of the
instruction decoded from the bytes read; `following_instructions(a, count)` is that
step iterated `count` times, and is `a` itself for `count ≤ 0`. -/
theorem following_instructions_iterated_step (env : Env) (v : QDisassemblyView) :
    (∀ a : Int,
        env.get_instruction_bytes (addr_add v.address_offset_ a)
          (following_instruction_buf_size env v a) = none →
        following_instruction env v a = a + 1) ∧
      (∀ (a : Int) (buf : List Nat),
        env.get_instruction_bytes (addr_add v.address_offset_ a)
          (following_instruction_buf_size env v a) = some buf →
        following_instruction env v a
          = a + ((env.decode buf (addr_add 0 a)).byte_size : Int)) ∧
      (∀ a count : Int,
        following_instructions env v a count
          = Nat.iterate (following_instruction env v) count.toNat a) ∧
      (∀ a count : Int, count ≤ 0 → following_instructions env v a count = a) := by
  refine ⟨?_, ?_, ?_, ?_⟩
  · intro a h
    exact following_instruction_read_failed env v a h
  · intro a buf h
    exact following_instruction_read_ok env v a buf h
  · intro a count
    exact following_instructions_loop_iterate env v count.toNat a
  · intro a count hc
    have : count.toNat = 0 := by omega
    unfold following_instructions
    rw [this]
    rfl

/-- Witness of C16 on the test bench: the read at offset `0x10`, past the readable
block, fails and the step returns `0x11`; the read at offset `0` succeeds and the
step adds the two bytes of the instruction there. -/
theorem following_instructions_iterated_step_witness :
    following_instruction (toy_env 0x1000 sample_code) sample_view 0x10 = 0x10 + 1 ∧
      following_instruction (toy_env 0x1000 sample_code) sample_view 0
        = 0 + (((toy_env 0x1000 sample_code).decode sample_code (addr_add 0 0)).byte_size
            : Int) ∧
      following_instructions (toy_env 0x1000 sample_code) sample_view 0 (-3) = 0 :=
  ⟨(following_instructions_iterated_step (toy_env 0x1000 sample_code) sample_view).1 0x10
      (by decide),
    (following_instructions_iterated_step (toy_env 0x1000 sample_code) sample_view).2.1 0
      sample_code (by decide),
    (following_instructions_iterated_step (toy_env 0x1000 sample_code) sample_view).2.2.2 0
      (-3) (by decide)⟩

/-! ## Changing the region -/

/-- C17, as stated, fails: with the instruction at `0x1005` selected in a view on
`[0x1000, 0x1010)`, `setRegion` to the region `[0x2000, 0x2010)` moves
`address_offset_` to `0x2000` and leaves the selection at `0x1005`, size `5`, in the
old region; `clear()` sets `address_offset_` to `0` and leaves it there as well. -/
theorem setRegion_keeps_selection :
    region_equals other_region selected_view.region_ = false ∧
      (setRegion region_equals 10 0 selected_view (some other_region)).address_offset_
        = 0x2000 ∧
      (setRegion region_equals 10 0 selected_view
        (some other_region)).selected_instruction_address_ = 0x1005 ∧
      (setRegion region_equals 10 0 selected_view
        (some other_region)).selected_instruction_size_ = 5 ∧
      (clear region_equals 10 0 selected_view).address_offset_ = 0 ∧
      (clear region_equals 10 0 selected_view).selected_instruction_address_ = 0x1005 := by
  decide

/-- C17, amended: `setRegion` with a region that `equals` reports different from the
current one stores it and sets `address_offset_` to its start; `clear()` stores the
null region and sets `address_offset_` to `0`; in both cases the selected address
and the selected size keep their values.  With a region equal to the current one
the view is left as it is. -/
theorem setRegion_resets_address_offset (equals : Region → Option Region → Bool)
    (viewable_lines auto_line2 : Int) (v : QDisassemblyView) :
    (∀ r : Region, equals r v.region_ = false →
        (setRegion equals viewable_lines auto_line2 v (some r)).region_ = some r ∧
          (setRegion equals viewable_lines auto_line2 v (some r)).address_offset_ = r.start ∧
          (setRegion equals viewable_lines auto_line2 v (some r)).selected_instruction_address_
            = v.selected_instruction_address_ ∧
          (setRegion equals viewable_lines auto_line2 v (some r)).selected_instruction_size_
            = v.selected_instruction_size_) ∧
      ((clear equals viewable_lines auto_line2 v).region_ = none ∧
        (clear equals viewable_lines auto_line2 v).address_offset_ = 0 ∧
        (clear equals viewable_lines auto_line2 v).selected_instruction_address_
          = v.selected_instruction_address_ ∧
        (clear equals viewable_lines auto_line2 v).selected_instruction_size_
          = v.selected_instruction_size_) ∧
      (∀ r : Region, equals r v.region_ = true →
        setRegion equals viewable_lines auto_line2 v (some r) = v) := by
  refine ⟨?_, ?_, ?_⟩
  · intro r hr
    unfold setRegion
    simp only [hr, Bool.not_false, if_true]
    split
    · exact ⟨rfl, rfl, rfl, rfl⟩
    · exact ⟨rfl, rfl, rfl, rfl⟩
  · unfold clear setRegion
    simp only [if_true]
    split
    · exact ⟨rfl, rfl, rfl, rfl⟩
    · exact ⟨rfl, rfl, rfl, rfl⟩
  · intro r hr
    unfold setRegion
    simp only [hr]
    rfl

/-- Witness of the amended C17: the sample view moved to the second region. -/
theorem setRegion_resets_address_offset_witness :
    (setRegion region_equals 10 0 selected_view (some other_region)).region_
        = some other_region ∧
      (setRegion region_equals 10 0 selected_view (some other_region)).address_offset_
        = other_region.start ∧
      (setRegion region_equals 10 0 selected_view
        (some other_region)).selected_instruction_address_
        = selected_view.selected_instruction_address_ ∧
      (setRegion region_equals 10 0 selected_view
        (some other_region)).selected_instruction_size_
        = selected_view.selected_instruction_size_ :=
  (setRegion_resets_address_offset region_equals 10 0 selected_view).1 other_region
    (by decide)

/-! ## Which candidate the heuristic accepts -/

/-- C18, as stated, fails: with the bytes `2, 1` at `0x1000` both candidates
reconcile at `0x1002` (a one-byte instruction at `0x1001`, a two-byte instruction at
`0x1000`), and the step back from offset `2` returns offset `0`, the candidate
`i = 2`, not offset `1` of the smallest candidate `i = 1`. -/
theorem previous_instruction_heuristic_not_smallest :
    reconciles_valid (toy_env 0x1000 [2, 1]) (addr_add sample_view.address_offset_ 2) 1
        = true ∧
      reconciles_valid (toy_env 0x1000 [2, 1]) (addr_add sample_view.address_offset_ 2) 2
        = true ∧
      previous_instruction (toy_env 0x1000 [2, 1]) sample_view none 0 2 = some (2 - 2) ∧
      previous_instruction (toy_env 0x1000 [2, 1]) sample_view none 0 2 ≠ some (2 - 1) := by
  decide

/-- C18, amended: on the heuristic path, for an offset `c ≥ 0` whose address does not
wrap, `previous_instruction` accepts the largest `i` in `1..MAX_SIZE` for which
`get_instruction_size` at `address - i` returns exactly `i`: it is the first one met
when the candidates are tried from `MAX_SIZE` downwards. -/
theorem previous_instruction_heuristic_accepts_largest (env : Env) (v : QDisassemblyView)
    (analyzer : Option (Nat → Option Nat)) (fuel : Nat) (c : Int) (i : Nat)
    (hc : 0 ≤ c)
    (hwrap : (v.address_offset_ : Int) + c < 18446744073709551616)
    (hpath : ∀ find, analyzer = some find →
      find (addr_add v.address_offset_ c) = none ∨
        find (addr_add v.address_offset_ c) = some (addr_add v.address_offset_ c))
    (h1 : 1 ≤ i) (h2 : i ≤ env.MAX_SIZE)
    (hi : reconciles env (addr_add v.address_offset_ c) i = true)
    (hlargest : ∀ j, i < j → j ≤ env.MAX_SIZE →
      reconciles env (addr_add v.address_offset_ c) j = false) :
    previous_instruction env v analyzer fuel c = some (c - (i : Int)) := by
  have hguard : v.address_offset_ ≤ addr_add v.address_offset_ c := by
    unfold addr_add; omega
  rw [previous_instruction_on_heuristic_path env v analyzer fuel c hpath,
    previous_instruction_scan_first_fit env v _ c hguard]
  unfold first_fit
  have hfind := find?_candidates_down (reconciles env (addr_add v.address_offset_ c))
    env.MAX_SIZE
  cases hf : (candidates_down env.MAX_SIZE).find?
      (reconciles env (addr_add v.address_offset_ c)) with
  | none =>
    have := hfind.2 hf i h1 h2
    rw [hi] at this
    exact Bool.noConfusion this
  | some k =>
    obtain ⟨hk, _, hk2, hk3⟩ := hfind.1 k hf
    have hki : k = i := by
      rcases Nat.lt_trichotomy k i with h | h | h
      · have := hk3 i h h2
        rw [hi] at this
        exact Bool.noConfusion this
      · exact h
      · have := hlargest k h hk2
        rw [hk] at this
        exact Bool.noConfusion this
    rw [hki]

/-- Witness of the amended C18: in the stream `2, 1` the largest reconciling
candidate at offset `2` is `i = 2`. -/
theorem previous_instruction_heuristic_accepts_largest_witness :
    previous_instruction (toy_env 0x1000 [2, 1]) sample_view none 0 2
      = some (2 - ((2 : Nat) : Int)) :=
  previous_instruction_heuristic_accepts_largest (toy_env 0x1000 [2, 1]) sample_view none 0
    2 2 (by decide) (by decide) (fun _ h => Option.noConfusion h) (by decide) (by decide)
    (by decide)
    (by
      intro j hj1 hj2
      have hj : j ≤ 15 := hj2
      interval_cases j <;> decide)

/-! ## Visible addresses -/

theorem indexOf_absent (show_addresses_ : List Nat) (address : Nat)
    (h : address ∉ show_addresses_) : indexOf show_addresses_ address = -1 := by
  unfold indexOf
  rw [if_neg (fun hlt => h ((find_position_lt_iff address _).mp hlt))]

/-- The part of C19 about absent addresses: `addressShown` is false for every
address that does not occur in `show_addresses_`. -/
theorem addressShown_absent (show_addresses_ : List Nat) (partial_last_line_ : Bool)
    (address : Nat) (h : address ∉ show_addresses_) :
    addressShown show_addresses_ partial_last_line_ address = false := by
  unfold addressShown
  rw [indexOf_absent show_addresses_ address h]
  simp

/-- C19 fails on the code: in the window `0x1000, 0x1002, 0x1005` with no partial
last line, `addressShown` is false for the first line `0x1000` (index `0` fails
`idx > 0`) and for the last line `0x1005` (index `2` fails `idx < size - 1`), both
fully rendered; with a partial last line it is false for `0x1002`, the last fully
rendered line, too. -/
theorem addressShown_misses_first_and_last_line :
    addressShown [0x1000, 0x1002, 0x1005] false 0x1000 = false ∧
      addressShown [0x1000, 0x1002, 0x1005] false 0x1005 = false ∧
      addressShown [0x1000, 0x1002, 0x1005] false 0x1002 = true ∧
      addressShown [0x1000, 0x1002, 0x1005] true 0x1002 = false := by
  decide

/-! ## Instruction size inside the region -/

/-- C20, as stated, fails: for a region whose `end()` is `0` the test
`region_->end() != 0` switches the clamp off, so at `0xFFFFFFFFFFFFF000`, an address
above `end()`, the requested length is `MAX_SIZE = 15` and not `0`. -/
theorem get_instruction_size_unclamped_at_zero_end :
    top_region.end_ < 0xFFFFFFFFFFFFF000 ∧
      get_instruction_size_buf_size (toy_env 0x1000 sample_code) top_region
        0xFFFFFFFFFFFFF000 = 15 := by
  decide

/-- C20, amended: for `MAX_SIZE` in the `int` range and an address at least
`MAX_SIZE` below `2^64`, the read length of `get_instruction_size(address)` is
`min(MAX_SIZE, region.end() - address)` when `region.end() != 0` and
`address <= region.end()`, `0` when `region.end() != 0` and `address > region.end()`,
and `MAX_SIZE` when `region.end() == 0`; it is never negative, and the result is an
error exactly when the read of that many bytes fails, otherwise the byte size of the
instruction decoded from the bytes read. -/
theorem get_instruction_size_in_region_clamped (env : Env) (region : Region)
    (address : Nat)
    (hmax : env.MAX_SIZE < 2147483648)
    (haddr : address + env.MAX_SIZE < 18446744073709551616) :
    (region.end_ ≠ 0 → address ≤ region.end_ →
        get_instruction_size_buf_size env region address
          = ((min env.MAX_SIZE (region.end_ - address) : Nat) : Int)) ∧
      (region.end_ ≠ 0 → region.end_ < address →
        get_instruction_size_buf_size env region address = 0) ∧
      (region.end_ = 0 →
        get_instruction_size_buf_size env region address = (env.MAX_SIZE : Int)) ∧
      0 ≤ get_instruction_size_buf_size env region address ∧
      (get_instruction_size_in_region env region address = none ↔
        env.get_instruction_bytes address
          (get_instruction_size_buf_size env region address).toNat = none) ∧
      (∀ buf, env.get_instruction_bytes address
          (get_instruction_size_buf_size env region address).toNat = some buf →
        get_instruction_size_in_region env region address
          = some ((env.decode buf 0).byte_size : Int)) := by
  have hadd : addr_add address (env.MAX_SIZE : Int) = address + env.MAX_SIZE :=
    addr_add_exact _ _ haddr
  have hnonneg : 0 ≤ get_instruction_size_buf_size env region address := by
    unfold get_instruction_size_buf_size
    rw [hadd]
    by_cases hcl : region.end_ ≠ 0 ∧ region.end_ < address + env.MAX_SIZE
    · rw [if_pos hcl]
      by_cases hle : address ≤ region.end_
      · rw [if_pos hle]
        unfold to_int addr_sub; omega
      · rw [if_neg hle]
    · rw [if_neg hcl]
      exact Int.ofNat_nonneg _
  refine ⟨?_, ?_, ?_, hnonneg, ?_, ?_⟩
  · intro h0 hle
    unfold get_instruction_size_buf_size
    rw [hadd]
    by_cases hcl : region.end_ ≠ 0 ∧ region.end_ < address + env.MAX_SIZE
    · rw [if_pos hcl, if_pos hle]
      have : min env.MAX_SIZE (region.end_ - address) = region.end_ - address := by omega
      rw [this]
      unfold to_int addr_sub; omega
    · rw [if_neg hcl]
      have : min env.MAX_SIZE (region.end_ - address) = env.MAX_SIZE := by
        have : ¬ region.end_ < address + env.MAX_SIZE := fun h => hcl ⟨h0, h⟩
        omega
      rw [this]
  · intro h0 hlt
    unfold get_instruction_size_buf_size
    rw [hadd, if_pos ⟨h0, by omega⟩, if_neg (by omega)]
  · intro h0
    unfold get_instruction_size_buf_size
    rw [if_neg (fun h => h.1 h0)]
  · unfold get_instruction_size_in_region get_instruction_size
    rw [if_pos hnonneg]
    cases env.get_instruction_bytes address
        (get_instruction_size_buf_size env region address).toNat with
    | none => simp
    | some buf => simp
  · intro buf hb
    unfold get_instruction_size_in_region get_instruction_size
    rw [if_pos hnonneg, hb]
    rfl

/-- Witness of the amended C20 on the test bench: at `0x100A` of the sample region
six bytes remain before the region end. -/
theorem get_instruction_size_in_region_clamped_witness :
    get_instruction_size_buf_size (toy_env 0x1000 sample_code) sample_region 0x100A
      = ((min (toy_env 0x1000 sample_code).MAX_SIZE (sample_region.end_ - 0x100A) : Nat)
          : Int) :=
  (get_instruction_size_in_region_clamped (toy_env 0x1000 sample_code) sample_region 0x100A
    (by decide) (by decide)).1 (by decide) (by decide)

/-! ## The heap walk -/

/-- What holds of every iteration of the walk between `start_address` and
`end_address`. -/
theorem walk_step_top (start_address end_address current : Nat) (c : malloc_chunk)
    (h1 : start_address ≤ current) (h2 : current ≤ end_address)
    (hne : current ≠ end_address)
    (hnext : addr_add current c.chunk_size = end_address) (s : WalkStep)
    (hs : s = { currentChunkAddress := current, currentChunk := c,
                nextChunkAddress := addr_add current c.chunk_size, nextChunk := none,
                result := some { address := current, size := c.chunk_size,
                                 node_type := NodeType.Top } }) :
    start_address ≤ s.currentChunkAddress ∧ s.currentChunkAddress < end_address ∧
      s.nextChunkAddress = addr_add s.currentChunkAddress s.currentChunk.chunk_size ∧
      (∀ r, s.result = some r → r.address = s.currentChunkAddress) ∧
      (s.nextChunkAddress = end_address ↔
        ∃ r, s.result = some r ∧ r.node_type = NodeType.Top) ∧
      ((end_address < s.nextChunkAddress ∨ s.nextChunkAddress < start_address) ↔
        s.result = none) ∧
      (∀ n, s.nextChunk = some n →
        start_address ≤ s.nextChunkAddress ∧ s.nextChunkAddress < end_address) := by
  subst hs
  dsimp only
  refine ⟨h1, by omega, rfl, ?_, ?_, ?_, ?_⟩
  · intro r hr
    simp only [Option.some.injEq] at hr
    rw [← hr]
  · exact ⟨fun _ => ⟨_, rfl, rfl⟩, fun _ => hnext⟩
  · simp only [hnext]
    constructor
    · intro h; omega
    · intro h; exact Option.noConfusion h
  · intro n hn; exact Option.noConfusion hn

theorem walk_step_broken (start_address end_address current : Nat) (c : malloc_chunk)
    (h1 : start_address ≤ current) (h2 : current ≤ end_address)
    (hne : current ≠ end_address)
    (hnext : addr_add current c.chunk_size ≠ end_address)
    (hout : end_address < addr_add current c.chunk_size ∨
      addr_add current c.chunk_size < start_address) (s : WalkStep)
    (hs : s = { currentChunkAddress := current, currentChunk := c,
                nextChunkAddress := addr_add current c.chunk_size, nextChunk := none,
                result := none }) :
    start_address ≤ s.currentChunkAddress ∧ s.currentChunkAddress < end_address ∧
      s.nextChunkAddress = addr_add s.currentChunkAddress s.currentChunk.chunk_size ∧
      (∀ r, s.result = some r → r.address = s.currentChunkAddress) ∧
      (s.nextChunkAddress = end_address ↔
        ∃ r, s.result = some r ∧ r.node_type = NodeType.Top) ∧
      ((end_address < s.nextChunkAddress ∨ s.nextChunkAddress < start_address) ↔
        s.result = none) ∧
      (∀ n, s.nextChunk = some n →
        start_address ≤ s.nextChunkAddress ∧ s.nextChunkAddress < end_address) := by
  subst hs
  dsimp only
  refine ⟨h1, by omega, rfl, ?_, ?_, ?_, ?_⟩
  · intro r hr; exact Option.noConfusion hr
  · constructor
    · intro h; exact absurd h hnext
    · rintro ⟨r, hr, _⟩; exact Option.noConfusion hr
  · exact ⟨fun _ => rfl, fun _ => hout⟩
  · intro n hn; exact Option.noConfusion hn

theorem walk_step_block (start_address end_address current : Nat) (c n : malloc_chunk)
    (h1 : start_address ≤ current) (h2 : current ≤ end_address)
    (hne : current ≠ end_address)
    (hnext : addr_add current c.chunk_size ≠ end_address)
    (hin : ¬ (end_address < addr_add current c.chunk_size ∨
      addr_add current c.chunk_size < start_address)) (s : WalkStep)
    (hs : s = { currentChunkAddress := current, currentChunk := c,
                nextChunkAddress := addr_add current c.chunk_size, nextChunk := some n,
                result := some { address := current, size := addr_add c.chunk_size 4,
                                 node_type := if n.prev_inuse then NodeType.Busy
                                              else NodeType.Free } }) :
    start_address ≤ s.currentChunkAddress ∧ s.currentChunkAddress < end_address ∧
      s.nextChunkAddress = addr_add s.currentChunkAddress s.currentChunk.chunk_size ∧
      (∀ r, s.result = some r → r.address = s.currentChunkAddress) ∧
      (s.nextChunkAddress = end_address ↔
        ∃ r, s.result = some r ∧ r.node_type = NodeType.Top) ∧
      ((end_address < s.nextChunkAddress ∨ s.nextChunkAddress < start_address) ↔
        s.result = none) ∧
      (∀ n, s.nextChunk = some n →
        start_address ≤ s.nextChunkAddress ∧ s.nextChunkAddress < end_address) := by
  subst hs
  dsimp only
  refine ⟨h1, by omega, rfl, ?_, ?_, ?_, ?_⟩
  · intro r hr
    simp only [Option.some.injEq] at hr
    rw [← hr]
  · constructor
    · intro h; exact absurd h hnext
    · rintro ⟨r, hr, ht⟩
      simp only [Option.some.injEq] at hr
      rw [← hr] at ht
      simp only at ht
      split at ht <;> exact NodeType.noConfusion ht
  · constructor
    · intro h; exact absurd h hin
    · intro h; exact Option.noConfusion h
  · intro _ _
    constructor
    · omega
    · have : addr_add current c.chunk_size ≤ end_address := by omega
      omega

theorem collect_loop_at_end (read_bytes : Nat → malloc_chunk → malloc_chunk)
    (start_address end_address fuel : Nat) (cc nc : malloc_chunk) :
    collect_loop read_bytes start_address end_address fuel end_address cc nc
      = { steps := [], freeBlocks := 0, busyBlocks := 0, finished := true } := by
  cases fuel with
  | zero => simp [collect_loop]
  | succ fuel => simp [collect_loop]

theorem collect_loop_steps_ok (read_bytes : Nat → malloc_chunk → malloc_chunk)
    (start_address end_address : Nat) :
    ∀ (fuel current : Nat) (cc nc : malloc_chunk),
      start_address ≤ current → current ≤ end_address →
      ∀ s ∈ (collect_loop read_bytes start_address end_address fuel current cc nc).steps,
        start_address ≤ s.currentChunkAddress ∧ s.currentChunkAddress < end_address ∧
        s.nextChunkAddress = addr_add s.currentChunkAddress s.currentChunk.chunk_size ∧
        (∀ r, s.result = some r → r.address = s.currentChunkAddress) ∧
        (s.nextChunkAddress = end_address ↔
          ∃ r, s.result = some r ∧ r.node_type = NodeType.Top) ∧
        ((end_address < s.nextChunkAddress ∨ s.nextChunkAddress < start_address) ↔
          s.result = none) ∧
        (∀ n, s.nextChunk = some n →
          start_address ≤ s.nextChunkAddress ∧ s.nextChunkAddress < end_address) := by
  intro fuel
  induction fuel with
  | zero => intro current cc nc _ _ s hs; simp [collect_loop] at hs
  | succ fuel ih =>
    intro current cc nc h1 h2 s hs
    unfold collect_loop at hs
    by_cases hce : current = end_address
    · rw [if_pos hce] at hs; simp at hs
    · rw [if_neg hce] at hs
      try dsimp only at hs
      by_cases hne : addr_add current (read_bytes current cc).chunk_size = end_address
      · rw [if_pos hne] at hs
        by_cases hself : current = addr_add current (read_bytes current cc).chunk_size
        · exact absurd (hself.trans hne) hce
        · rw [if_neg hself] at hs
          try dsimp only at hs
          rw [hne, collect_loop_at_end] at hs
          simp only [List.mem_singleton] at hs
          exact walk_step_top start_address end_address current (read_bytes current cc) h1 h2
            hce hne s (by rw [hs, hne])
      · rw [if_neg hne] at hs
        by_cases hout : end_address < addr_add current (read_bytes current cc).chunk_size ∨
            addr_add current (read_bytes current cc).chunk_size < start_address
        · rw [if_pos hout] at hs
          simp only [List.mem_singleton] at hs
          exact walk_step_broken start_address end_address current (read_bytes current cc)
            h1 h2 hce hne hout s hs
        · rw [if_neg hout] at hs
          try dsimp only at hs
          by_cases hself : current = addr_add current (read_bytes current cc).chunk_size
          · rw [if_pos hself] at hs
            simp only [List.mem_singleton] at hs
            exact walk_step_block start_address end_address current (read_bytes current cc)
              _ h1 h2 hce hne hout s hs
          · rw [if_neg hself] at hs
            try dsimp only at hs
            rcases List.mem_cons.mp hs with hs | hs
            · exact walk_step_block start_address end_address current
                (read_bytes current cc) _ h1 h2 hce hne hout s hs
            · exact ih _ _ _ (by omega) (by omega) s hs

theorem collect_loop_top (read_bytes : Nat → malloc_chunk → malloc_chunk)
    (start_address end_address fuel current : Nat) (cc nc : malloc_chunk)
    (hce : current ≠ end_address)
    (hne : addr_add current (read_bytes current cc).chunk_size = end_address) :
    collect_loop read_bytes start_address end_address (fuel + 1) current cc nc
      = { steps := [{ currentChunkAddress := current,
                      currentChunk := read_bytes current cc,
                      nextChunkAddress := end_address, nextChunk := none,
                      result := some { address := current,
                                       size := (read_bytes current cc).chunk_size,
                                       node_type := NodeType.Top } }],
          freeBlocks := 0, busyBlocks := 0, finished := true } := by
  unfold collect_loop
  rw [if_neg hce]
  dsimp only
  rw [if_pos hne, if_neg (fun h => hce (h.trans hne)), hne, collect_loop_at_end]

theorem collect_loop_broken (read_bytes : Nat → malloc_chunk → malloc_chunk)
    (start_address end_address fuel current : Nat) (cc nc : malloc_chunk)
    (hce : current ≠ end_address)
    (hne : addr_add current (read_bytes current cc).chunk_size ≠ end_address)
    (hout : end_address < addr_add current (read_bytes current cc).chunk_size ∨
      addr_add current (read_bytes current cc).chunk_size < start_address) :
    collect_loop read_bytes start_address end_address (fuel + 1) current cc nc
      = { steps := [{ currentChunkAddress := current,
                      currentChunk := read_bytes current cc,
                      nextChunkAddress := addr_add current (read_bytes current cc).chunk_size,
                      nextChunk := none, result := none }],
          freeBlocks := 0, busyBlocks := 0, finished := true } := by
  unfold collect_loop
  rw [if_neg hce]
  dsimp only
  rw [if_neg hne, if_pos hout]

theorem collect_loop_self (read_bytes : Nat → malloc_chunk → malloc_chunk)
    (start_address end_address fuel current : Nat) (cc nc : malloc_chunk)
    (hce : current ≠ end_address)
    (hne : addr_add current (read_bytes current cc).chunk_size ≠ end_address)
    (hout : ¬ (end_address < addr_add current (read_bytes current cc).chunk_size ∨
      addr_add current (read_bytes current cc).chunk_size < start_address))
    (hself : current = addr_add current (read_bytes current cc).chunk_size) :
    collect_loop read_bytes start_address end_address (fuel + 1) current cc nc
      = { steps := [{ currentChunkAddress := current,
                      currentChunk := read_bytes current cc,
                      nextChunkAddress := addr_add current (read_bytes current cc).chunk_size,
                      nextChunk := some (read_bytes
                        (addr_add current (read_bytes current cc).chunk_size) nc),
                      result := some
                        { address := current,
                          size := addr_add (read_bytes current cc).chunk_size 4,
                          node_type :=
                            if (read_bytes (addr_add current
                                (read_bytes current cc).chunk_size) nc).prev_inuse
                            then NodeType.Busy else NodeType.Free } }],
          freeBlocks := if (read_bytes (addr_add current
              (read_bytes current cc).chunk_size) nc).prev_inuse then 0 else 1,
          busyBlocks := if (read_bytes (addr_add current
              (read_bytes current cc).chunk_size) nc).prev_inuse then 1 else 0,
          finished := true } := by
  unfold collect_loop
  rw [if_neg hce]
  dsimp only
  rw [if_neg hne, if_neg hout, if_pos hself]

theorem collect_loop_block (read_bytes : Nat → malloc_chunk → malloc_chunk)
    (start_address end_address fuel current : Nat) (cc nc : malloc_chunk)
    (hce : current ≠ end_address)
    (hne : addr_add current (read_bytes current cc).chunk_size ≠ end_address)
    (hout : ¬ (end_address < addr_add current (read_bytes current cc).chunk_size ∨
      addr_add current (read_bytes current cc).chunk_size < start_address))
    (hself : current ≠ addr_add current (read_bytes current cc).chunk_size) :
    collect_loop read_bytes start_address end_address (fuel + 1) current cc nc
      = { steps := { currentChunkAddress := current,
                     currentChunk := read_bytes current cc,
                     nextChunkAddress := addr_add current (read_bytes current cc).chunk_size,
                     nextChunk := some (read_bytes
                       (addr_add current (read_bytes current cc).chunk_size) nc),
                     result := some
                       { address := current,
                         size := addr_add (read_bytes current cc).chunk_size 4,
                         node_type :=
                           if (read_bytes (addr_add current
                               (read_bytes current cc).chunk_size) nc).prev_inuse
                           then NodeType.Busy else NodeType.Free } } ::
            (collect_loop read_bytes start_address end_address fuel
              (addr_add current (read_bytes current cc).chunk_size) (read_bytes current cc)
              (read_bytes (addr_add current (read_bytes current cc).chunk_size) nc)).steps,
          freeBlocks := (if (read_bytes (addr_add current
              (read_bytes current cc).chunk_size) nc).prev_inuse then 0 else 1) +
            (collect_loop read_bytes start_address end_address fuel
              (addr_add current (read_bytes current cc).chunk_size) (read_bytes current cc)
              (read_bytes (addr_add current (read_bytes current cc).chunk_size)
                nc)).freeBlocks,
          busyBlocks := (if (read_bytes (addr_add current
              (read_bytes current cc).chunk_size) nc).prev_inuse then 1 else 0) +
            (collect_loop read_bytes start_address end_address fuel
              (addr_add current (read_bytes current cc).chunk_size) (read_bytes current cc)
              (read_bytes (addr_add current (read_bytes current cc).chunk_size)
                nc)).busyBlocks,
          finished :=
            (collect_loop read_bytes start_address end_address fuel
              (addr_add current (read_bytes current cc).chunk_size) (read_bytes current cc)
              (read_bytes (addr_add current (read_bytes current cc).chunk_size)
                nc)).finished } := by
  rw [collect_loop, if_neg hce]
  dsimp only
  rw [if_neg hne, if_neg hout, if_neg hself]

theorem collect_loop_last (read_bytes : Nat → malloc_chunk → malloc_chunk)
    (start_address end_address : Nat) :
    ∀ (fuel current : Nat) (cc nc : malloc_chunk) (k : Nat) (s : WalkStep),
      (collect_loop read_bytes start_address end_address fuel current cc nc).steps[k]? = some s →
      (∀ r, s.result = some r → r.node_type = NodeType.Top) →
      k + 1 = (collect_loop read_bytes start_address end_address fuel current cc nc).steps.length ∧
        (collect_loop read_bytes start_address end_address fuel current cc nc).finished
          = true := by
  intro fuel
  induction fuel with
  | zero => intro current cc nc k s hs; simp [collect_loop] at hs
  | succ fuel ih =>
    intro current cc nc k s hs hres
    by_cases hce : current = end_address
    · rw [hce, collect_loop_at_end] at hs; simp at hs
    · by_cases hne : addr_add current (read_bytes current cc).chunk_size = end_address
      · rw [collect_loop_top _ _ _ _ _ _ _ hce hne] at hs ⊢
        cases k with
        | zero => exact ⟨rfl, rfl⟩
        | succ k => simp at hs
      · by_cases hout : end_address < addr_add current (read_bytes current cc).chunk_size ∨
            addr_add current (read_bytes current cc).chunk_size < start_address
        · rw [collect_loop_broken _ _ _ _ _ _ _ hce hne hout] at hs ⊢
          cases k with
          | zero => exact ⟨rfl, rfl⟩
          | succ k => simp at hs
        · by_cases hself : current = addr_add current (read_bytes current cc).chunk_size
          · rw [collect_loop_self _ _ _ _ _ _ _ hce hne hout hself] at hs ⊢
            cases k with
            | zero => exact ⟨rfl, rfl⟩
            | succ k => simp at hs
          · rw [collect_loop_block _ _ _ _ _ _ _ hce hne hout hself] at hs ⊢
            cases k with
            | zero =>
              simp only [List.getElem?_cons_zero, Option.some.injEq] at hs
              have := hres _ (by rw [← hs])
              dsimp only at this
              split at this <;> exact NodeType.noConfusion this
            | succ k =>
              simp only [List.getElem?_cons_succ] at hs
              obtain ⟨h1, h2⟩ := ih _ _ _ k s hs hres
              exact ⟨by simp only [List.length_cons]; omega, h2⟩

theorem collect_loop_chain (read_bytes : Nat → malloc_chunk → malloc_chunk)
    (start_address end_address : Nat) :
    ∀ (fuel current : Nat) (cc nc : malloc_chunk),
      List.Chain' (fun s t : WalkStep => t.currentChunkAddress = s.nextChunkAddress)
          (collect_loop read_bytes start_address end_address fuel current cc nc).steps ∧
        ∀ s, (collect_loop read_bytes start_address end_address fuel current cc nc).steps.head?
          = some s → s.currentChunkAddress = current := by
  intro fuel
  induction fuel with
  | zero => intro current cc nc; simp [collect_loop]
  | succ fuel ih =>
    intro current cc nc
    by_cases hce : current = end_address
    · rw [hce, collect_loop_at_end]; simp
    · by_cases hne : addr_add current (read_bytes current cc).chunk_size = end_address
      · rw [collect_loop_top _ _ _ _ _ _ _ hce hne]
        refine ⟨List.chain'_singleton _, ?_⟩
        intro s hs
        simp only [List.head?_cons, Option.some.injEq] at hs
        rw [← hs]
      · by_cases hout : end_address < addr_add current (read_bytes current cc).chunk_size ∨
            addr_add current (read_bytes current cc).chunk_size < start_address
        · rw [collect_loop_broken _ _ _ _ _ _ _ hce hne hout]
          refine ⟨List.chain'_singleton _, ?_⟩
          intro s hs
          simp only [List.head?_cons, Option.some.injEq] at hs
          rw [← hs]
        · by_cases hself : current = addr_add current (read_bytes current cc).chunk_size
          · rw [collect_loop_self _ _ _ _ _ _ _ hce hne hout hself]
            refine ⟨List.chain'_singleton _, ?_⟩
            intro s hs
            simp only [List.head?_cons, Option.some.injEq] at hs
            rw [← hs]
          · rw [collect_loop_block _ _ _ _ _ _ _ hce hne hout hself]
            obtain ⟨hc, hh⟩ := ih (addr_add current (read_bytes current cc).chunk_size)
              (read_bytes current cc)
              (read_bytes (addr_add current (read_bytes current cc).chunk_size) nc)
            refine ⟨?_, ?_⟩
            · rw [List.chain'_cons']
              exact ⟨fun t ht => hh t ht, hc⟩
            · intro s hs
              simp only [List.head?_cons, Option.some.injEq] at hs
              rw [← hs]

theorem collect_loop_results (read_bytes : Nat → malloc_chunk → malloc_chunk)
    (start_address end_address : Nat) :
    ∀ (fuel current : Nat) (cc nc : malloc_chunk),
      (∀ (k : Nat) (r : Result),
        (collect_loop read_bytes start_address end_address fuel current cc nc).results[k]?
          = some r → r.node_type = NodeType.Top →
        k + 1 = (collect_loop read_bytes start_address end_address fuel current cc
          nc).results.length) ∧
      (collect_loop read_bytes start_address end_address fuel current cc nc).freeBlocks
        = (collect_loop read_bytes start_address end_address fuel current cc
            nc).results.countP (fun r => decide (r.node_type = NodeType.Free)) ∧
      (collect_loop read_bytes start_address end_address fuel current cc nc).busyBlocks
        = (collect_loop read_bytes start_address end_address fuel current cc
            nc).results.countP (fun r => decide (r.node_type = NodeType.Busy)) := by
  intro fuel
  induction fuel with
  | zero => intro current cc nc; simp [collect_loop, HeapWalk.results]
  | succ fuel ih =>
    intro current cc nc
    by_cases hce : current = end_address
    · rw [hce, collect_loop_at_end]; simp [HeapWalk.results]
    · by_cases hne : addr_add current (read_bytes current cc).chunk_size = end_address
      · rw [collect_loop_top _ _ _ _ _ _ _ hce hne]
        refine ⟨?_, ?_, ?_⟩
        · intro k r hk _
          cases k with
          | zero => simp [HeapWalk.results]
          | succ k => simp [HeapWalk.results] at hk
        · simp [HeapWalk.results]
        · simp [HeapWalk.results]
      · by_cases hout : end_address < addr_add current (read_bytes current cc).chunk_size ∨
            addr_add current (read_bytes current cc).chunk_size < start_address
        · rw [collect_loop_broken _ _ _ _ _ _ _ hce hne hout]
          simp [HeapWalk.results]
        · by_cases hself : current = addr_add current (read_bytes current cc).chunk_size
          · rw [collect_loop_self _ _ _ _ _ _ _ hce hne hout hself]
            refine ⟨?_, ?_, ?_⟩
            · intro k r hk _
              cases k with
              | zero => simp [HeapWalk.results]
              | succ k => simp [HeapWalk.results] at hk
            · cases (read_bytes (addr_add current (read_bytes current cc).chunk_size)
                nc).prev_inuse <;> simp [HeapWalk.results]
            · cases (read_bytes (addr_add current (read_bytes current cc).chunk_size)
                nc).prev_inuse <;> simp [HeapWalk.results]
          · rw [collect_loop_block _ _ _ _ _ _ _ hce hne hout hself]
            obtain ⟨h1, h2, h3⟩ := ih (addr_add current (read_bytes current cc).chunk_size)
              (read_bytes current cc)
              (read_bytes (addr_add current (read_bytes current cc).chunk_size) nc)
            simp only [HeapWalk.results] at h1 h2 h3
            refine ⟨?_, ?_, ?_⟩
            · intro k r hk ht
              simp only [HeapWalk.results, List.filterMap_cons] at hk ⊢
              cases k with
              | zero =>
                simp only [List.getElem?_cons_zero, Option.some.injEq] at hk
                rw [← hk] at ht
                dsimp only at ht
                split at ht <;> exact NodeType.noConfusion ht
              | succ k =>
                simp only [List.getElem?_cons_succ] at hk
                have := h1 k r hk ht
                simp only [List.length_cons]
                omega
            · simp only [HeapWalk.results, List.filterMap_cons, h2]
              cases (read_bytes (addr_add current (read_bytes current cc).chunk_size)
                nc).prev_inuse <;> simp [List.countP_cons, Nat.add_comm]
            · simp only [HeapWalk.results, List.filterMap_cons, h3]
              cases (read_bytes (addr_add current (read_bytes current cc).chunk_size)
                nc).prev_inuse <;> simp [List.countP_cons, Nat.add_comm]

theorem collect_loop_block_results (read_bytes : Nat → malloc_chunk → malloc_chunk)
    (start_address end_address : Nat) :
    ∀ (fuel current : Nat) (cc nc : malloc_chunk),
      ∀ s ∈ (collect_loop read_bytes start_address end_address fuel current cc nc).steps,
        ∀ r, s.result = some r → r.node_type ≠ NodeType.Top →
          ∃ n buffer, s.nextChunk = some n ∧ n = read_bytes s.nextChunkAddress buffer ∧
            r.node_type = (if n.size % 2 = 1 then NodeType.Busy else NodeType.Free) := by
  intro fuel
  induction fuel with
  | zero => intro current cc nc s hs; simp [collect_loop] at hs
  | succ fuel ih =>
    intro current cc nc s hs r hr hnt
    have hblock : ∀ t : WalkStep,
        t = { currentChunkAddress := current, currentChunk := read_bytes current cc,
              nextChunkAddress := addr_add current (read_bytes current cc).chunk_size,
              nextChunk := some (read_bytes
                (addr_add current (read_bytes current cc).chunk_size) nc),
              result := some
                { address := current,
                  size := addr_add (read_bytes current cc).chunk_size 4,
                  node_type :=
                    if (read_bytes (addr_add current
                        (read_bytes current cc).chunk_size) nc).prev_inuse
                    then NodeType.Busy else NodeType.Free } } →
        ∀ r, t.result = some r →
          ∃ n buffer, t.nextChunk = some n ∧ n = read_bytes t.nextChunkAddress buffer ∧
            r.node_type = (if n.size % 2 = 1 then NodeType.Busy else NodeType.Free) := by
      intro t ht r hr
      subst ht
      simp only [Option.some.injEq] at hr
      refine ⟨_, nc, rfl, rfl, ?_⟩
      rw [← hr]
      simp only [malloc_chunk.prev_inuse, decide_eq_true_eq]
    by_cases hce : current = end_address
    · rw [hce, collect_loop_at_end] at hs; simp at hs
    · by_cases hne : addr_add current (read_bytes current cc).chunk_size = end_address
      · rw [collect_loop_top _ _ _ _ _ _ _ hce hne] at hs
        simp only [List.mem_singleton] at hs
        rw [hs] at hr
        simp only [Option.some.injEq] at hr
        rw [← hr] at hnt
        exact absurd rfl hnt
      · by_cases hout : end_address < addr_add current (read_bytes current cc).chunk_size ∨
            addr_add current (read_bytes current cc).chunk_size < start_address
        · rw [collect_loop_broken _ _ _ _ _ _ _ hce hne hout] at hs
          simp only [List.mem_singleton] at hs
          rw [hs] at hr
          exact Option.noConfusion hr
        · by_cases hself : current = addr_add current (read_bytes current cc).chunk_size
          · rw [collect_loop_self _ _ _ _ _ _ _ hce hne hout hself] at hs
            simp only [List.mem_singleton] at hs
            exact hblock s hs r hr
          · rw [collect_loop_block _ _ _ _ _ _ _ hce hne hout hself] at hs
            rcases List.mem_cons.mp hs with hs | hs
            · exact hblock s hs r hr
            · exact ih _ _ _ s hs r hr hnt

/-! ## Claims about the heap walk -/

/-- C21: for non-zero `start_address < end_address` and every behaviour of the
memory reads, every chunk address at which `collectBlocks` reads a current chunk or
a next chunk, and the address of every result it records, lies in
`[start_address, end_address)`; the walk starts at `start_address` and moves from a
chunk to its computed next-chunk address; a next-chunk address `> end_address` or
`< start_address` ends the walk at once, without a result; and a result is `Top`
exactly when the next-chunk address equals `end_address`. -/
theorem collectBlocks_stays_in_heap (read_bytes : Nat → malloc_chunk → malloc_chunk)
    (start_address end_address fuel : Nat) (currentChunk nextChunk : malloc_chunk)
    (w : HeapWalk)
    (hw : w = collectBlocks (some read_bytes) start_address end_address fuel currentChunk
      nextChunk)
    (hstart : start_address ≠ 0) (hend : end_address ≠ 0)
    (hlt : start_address < end_address) :
    (∀ s ∈ w.steps,
        start_address ≤ s.currentChunkAddress ∧ s.currentChunkAddress < end_address ∧
        s.nextChunkAddress = addr_add s.currentChunkAddress s.currentChunk.chunk_size ∧
        (∀ n, s.nextChunk = some n →
          start_address ≤ s.nextChunkAddress ∧ s.nextChunkAddress < end_address) ∧
        (s.nextChunkAddress = end_address ↔
          ∃ r, s.result = some r ∧ r.node_type = NodeType.Top)) ∧
      (∀ r ∈ w.results, start_address ≤ r.address ∧ r.address < end_address) ∧
      (∀ s, w.steps.head? = some s → s.currentChunkAddress = start_address) ∧
      (∀ (k : Nat) (s t : WalkStep), w.steps[k]? = some s → w.steps[k + 1]? = some t →
        t.currentChunkAddress = s.nextChunkAddress) ∧
      (∀ (k : Nat) (s : WalkStep), w.steps[k]? = some s →
        (end_address < s.nextChunkAddress ∨ s.nextChunkAddress < start_address) →
        s.result = none ∧ k + 1 = w.steps.length ∧ w.finished = true) := by
  have hw' : w = collect_loop read_bytes start_address end_address fuel start_address
      currentChunk nextChunk := by
    rw [hw]
    unfold collectBlocks
    dsimp only
    rw [if_pos ⟨hstart, hend⟩]
  subst hw'
  have hok := collect_loop_steps_ok read_bytes start_address end_address fuel start_address
    currentChunk nextChunk (Nat.le_refl _) (Nat.le_of_lt hlt)
  have hchain := collect_loop_chain read_bytes start_address end_address fuel start_address
    currentChunk nextChunk
  refine ⟨?_, ?_, hchain.2, ?_, ?_⟩
  · intro s hs
    obtain ⟨h1, h2, h3, _, h5, _, h7⟩ := hok s hs
    exact ⟨h1, h2, h3, h7, h5⟩
  · intro r hr
    unfold HeapWalk.results at hr
    rw [List.mem_filterMap] at hr
    obtain ⟨s, hs, hsr⟩ := hr
    obtain ⟨h1, h2, _, h4, _⟩ := hok s hs
    rw [h4 r hsr]
    exact ⟨h1, h2⟩
  · intro k s t hs ht
    exact chain_getElem? _ hchain.1 k s t hs ht
  · intro k s hs hout
    obtain ⟨_, _, _, _, _, h6, _⟩ := hok s (List.getElem?_mem hs)
    have hnone := h6.mp hout
    have := collect_loop_last read_bytes start_address end_address fuel start_address
      currentChunk nextChunk k s hs (fun r hr => by rw [hnone] at hr; exact Option.noConfusion hr)
    exact ⟨hnone, this.1, this.2⟩

/-- Witness of C21: the walk over the sample heap `[0x1000, 0x1060)`. -/
theorem collectBlocks_stays_in_heap_witness :
    (collectBlocks (some sample_heap) 0x1000 0x1060 10 (chunk_of_size 0)
        (chunk_of_size 0)).results.all
      (fun r => decide (0x1000 ≤ r.address ∧ r.address < 0x1060)) = true :=
  List.all_eq_true.mpr (fun r hr => decide_eq_true
    ((collectBlocks_stays_in_heap sample_heap 0x1000 0x1060 10 (chunk_of_size 0)
      (chunk_of_size 0) _ rfl (by decide) (by decide) (by decide)).2.1 r hr))

theorem collectBlocks_cases (read_bytes : Nat → malloc_chunk → malloc_chunk)
    (start_address end_address fuel : Nat) (currentChunk nextChunk : malloc_chunk) :
    collectBlocks (some read_bytes) start_address end_address fuel currentChunk nextChunk
        = collect_loop read_bytes start_address end_address fuel start_address currentChunk
            nextChunk ∨
      collectBlocks (some read_bytes) start_address end_address fuel currentChunk nextChunk
        = { steps := [], freeBlocks := 0, busyBlocks := 0, finished := true } := by
  unfold collectBlocks
  dsimp only
  by_cases h : start_address ≠ 0 ∧ end_address ≠ 0
  · rw [if_pos h]; exact Or.inl rfl
  · rw [if_neg h]; exact Or.inr rfl

theorem countP_le_one_of_last (p : Result → Bool) :
    ∀ l : List Result,
      (∀ (k : Nat) (r : Result), l[k]? = some r → p r = true → k + 1 = l.length) →
      l.countP p ≤ 1 := by
  intro l
  induction l with
  | nil => intro _; simp
  | cons a l ih =>
    intro h
    cases l with
    | nil =>
      rw [List.countP_cons, List.countP_nil]
      split <;> omega
    | cons b l =>
      have ha : p a = false := by
        cases hpa : p a with
        | false => rfl
        | true =>
          have := h 0 a rfl hpa
          simp at this
      have hrest := ih (fun k r hk hp => by
        have := h (k + 1) r (by simpa using hk) hp
        simp only [List.length_cons] at this ⊢
        omega)
      rw [List.countP_cons, ha]
      simpa using hrest

theorem countP_free_add_busy :
    ∀ l : List Result,
      l.countP (fun r => decide (r.node_type = NodeType.Free))
          + l.countP (fun r => decide (r.node_type = NodeType.Busy))
        = l.countP (fun r => decide (r.node_type ≠ NodeType.Top)) := by
  intro l
  induction l with
  | nil => rfl
  | cons a l ih =>
    rw [List.countP_cons, List.countP_cons, List.countP_cons, ← ih]
    cases h : a.node_type <;> simp <;> omega

/-- C26: in the results recorded by one run of `collectBlocks` a `Top` result is the
last result recorded, so there is at most one; every other result was recorded by an
iteration that read the following chunk at its next-chunk address and is `Busy` when
bit 0 of that chunk's `size` is set and `Free` otherwise; and
`freeBlocks + busyBlocks` is the number of results that are not `Top`. -/
theorem collectBlocks_results_classified
    (read_bytes : Nat → malloc_chunk → malloc_chunk)
    (start_address end_address fuel : Nat) (currentChunk nextChunk : malloc_chunk) :
    (∀ (k : Nat) (r : Result),
        (collectBlocks (some read_bytes) start_address end_address fuel currentChunk
          nextChunk).results[k]? = some r → r.node_type = NodeType.Top →
        k + 1 = (collectBlocks (some read_bytes) start_address end_address fuel currentChunk
          nextChunk).results.length) ∧
      (collectBlocks (some read_bytes) start_address end_address fuel currentChunk
          nextChunk).results.countP (fun r => decide (r.node_type = NodeType.Top)) ≤ 1 ∧
      (∀ s ∈ (collectBlocks (some read_bytes) start_address end_address fuel currentChunk
          nextChunk).steps,
        ∀ r, s.result = some r → r.node_type ≠ NodeType.Top →
          ∃ n buffer, s.nextChunk = some n ∧ n = read_bytes s.nextChunkAddress buffer ∧
            r.node_type = (if n.size % 2 = 1 then NodeType.Busy else NodeType.Free)) ∧
      (collectBlocks (some read_bytes) start_address end_address fuel currentChunk
          nextChunk).freeBlocks
        + (collectBlocks (some read_bytes) start_address end_address fuel currentChunk
            nextChunk).busyBlocks
        = (collectBlocks (some read_bytes) start_address end_address fuel currentChunk
            nextChunk).results.countP (fun r => decide (r.node_type ≠ NodeType.Top)) := by
  rcases collectBlocks_cases read_bytes start_address end_address fuel currentChunk
      nextChunk with h | h
  · rw [h]
    have hres := collect_loop_results read_bytes start_address end_address fuel start_address
      currentChunk nextChunk
    refine ⟨hres.1, ?_, ?_, ?_⟩
    · exact countP_le_one_of_last _ _
        (fun k r hk hp => hres.1 k r hk (of_decide_eq_true hp))
    · exact collect_loop_block_results read_bytes start_address end_address fuel
        start_address currentChunk nextChunk
    · rw [hres.2.1, hres.2.2]
      exact countP_free_add_busy _
  · rw [h]
    refine ⟨?_, ?_, ?_, ?_⟩
    · intro k r hk; simp [HeapWalk.results] at hk
    · simp [HeapWalk.results]
    · intro s hs; simp at hs
    · simp [HeapWalk.results]

theorem cyclic_heap_next_low (buffer : malloc_chunk) :
    addr_add 0x1000 (cyclic_heap 0x1000 buffer).chunk_size = 0x1020 := by
  simp [cyclic_heap, chunk_of_size, malloc_chunk.chunk_size, addr_add]

theorem cyclic_heap_next_high (buffer : malloc_chunk) :
    addr_add 0x1020 (cyclic_heap 0x1020 buffer).chunk_size = 0x1000 := by
  simp [cyclic_heap, chunk_of_size, malloc_chunk.chunk_size, addr_add]

theorem collect_loop_cyclic_heap :
    ∀ (fuel : Nat) (cc nc : malloc_chunk),
      ((collect_loop cyclic_heap 0x1000 0x2000 fuel 0x1000 cc nc).finished = false ∧
        (collect_loop cyclic_heap 0x1000 0x2000 fuel 0x1000 cc nc).steps.length = fuel) ∧
      ((collect_loop cyclic_heap 0x1000 0x2000 fuel 0x1020 cc nc).finished = false ∧
        (collect_loop cyclic_heap 0x1000 0x2000 fuel 0x1020 cc nc).steps.length = fuel) := by
  intro fuel
  induction fuel with
  | zero => intro cc nc; simp [collect_loop]
  | succ fuel ih =>
    intro cc nc
    constructor
    · rw [collect_loop_block cyclic_heap 0x1000 0x2000 fuel 0x1000 cc nc (by decide)
        (by rw [cyclic_heap_next_low]; decide) (by rw [cyclic_heap_next_low]; decide)
        (by rw [cyclic_heap_next_low]; decide)]
      dsimp only
      rw [cyclic_heap_next_low]
      have := (ih (cyclic_heap 0x1000 cc) (cyclic_heap 0x1020 nc)).2
      exact ⟨this.1, by rw [List.length_cons, this.2]⟩
    · rw [collect_loop_block cyclic_heap 0x1000 0x2000 fuel 0x1020 cc nc (by decide)
        (by rw [cyclic_heap_next_high]; decide) (by rw [cyclic_heap_next_high]; decide)
        (by rw [cyclic_heap_next_high]; decide)]
      dsimp only
      rw [cyclic_heap_next_high]
      have := (ih (cyclic_heap 0x1020 cc) (cyclic_heap 0x1000 nc)).1
      exact ⟨this.1, by rw [List.length_cons, this.2]⟩

theorem collect_loop_finishes_without_wrap (read_bytes : Nat → malloc_chunk → malloc_chunk)
    (start_address end_address : Nat)
    (hnowrap : ∀ a buffer, a < end_address →
      a + (read_bytes a buffer).chunk_size < 18446744073709551616) :
    ∀ (fuel current : Nat) (cc nc : malloc_chunk), current ≤ end_address →
      end_address - current ≤ fuel →
      (collect_loop read_bytes start_address end_address fuel current cc nc).finished
        = true := by
  intro fuel
  induction fuel with
  | zero =>
    intro current cc nc h1 h2
    have : current = end_address := by omega
    rw [this, collect_loop_at_end]
  | succ fuel ih =>
    intro current cc nc h1 h2
    by_cases hce : current = end_address
    · rw [hce, collect_loop_at_end]
    · have hadd : addr_add current ((read_bytes current cc).chunk_size : Int)
          = current + (read_bytes current cc).chunk_size :=
        addr_add_exact _ _ (hnowrap current cc (by omega))
      by_cases hne : addr_add current (read_bytes current cc).chunk_size = end_address
      · rw [collect_loop_top _ _ _ _ _ _ _ hce hne]
      · by_cases hout : end_address < addr_add current (read_bytes current cc).chunk_size ∨
            addr_add current (read_bytes current cc).chunk_size < start_address
        · rw [collect_loop_broken _ _ _ _ _ _ _ hce hne hout]
        · by_cases hself : current = addr_add current (read_bytes current cc).chunk_size
          · rw [collect_loop_self _ _ _ _ _ _ _ hce hne hout hself]
          · rw [collect_loop_block _ _ _ _ _ _ _ hce hne hout hself]
            dsimp only
            exact ih _ _ _ (by omega) (by omega)

/-- C25: on the heap `[0x1000, 0x2000)` whose chunk at `0x1000` has size `0x20` and
whose chunk at `0x1020` has a size that wraps the next-chunk address back to
`0x1000`, the walk of `collectBlocks` never leaves its loop: whatever the bound on
the number of iterations, all of them are used and the loop is still running. -/
theorem collectBlocks_cycles_on_wrapping_size (fuel : Nat)
    (currentChunk nextChunk : malloc_chunk) :
    (collectBlocks (some cyclic_heap) 0x1000 0x2000 fuel currentChunk nextChunk).finished
        = false ∧
      (collectBlocks (some cyclic_heap) 0x1000 0x2000 fuel currentChunk
        nextChunk).steps.length = fuel := by
  have h : collectBlocks (some cyclic_heap) 0x1000 0x2000 fuel currentChunk nextChunk
      = collect_loop cyclic_heap 0x1000 0x2000 fuel 0x1000 currentChunk nextChunk := by
    unfold collectBlocks
    dsimp only
    rw [if_pos (by decide)]
  rw [h]
  exact (collect_loop_cyclic_heap fuel currentChunk nextChunk).1


theorem int_of_bytes_int_bytes (x : Int) (rest : List Nat)
    (h : -2147483648 ≤ x ∧ x < 2147483648) : int_of_bytes (int_bytes x ++ rest) = x := by
  simp only [int_of_bytes, int_bytes, List.cons_append, List.getD_cons_zero,
    List.getD_cons_succ]
  unfold to_int
  omega

theorem drop_int_bytes (x : Int) (rest : List Nat) : (int_bytes x ++ rest).drop 4 = rest :=
  rfl

theorem length_int_bytes (x : Int) : (int_bytes x).length = 4 := rfl

theorem of_bytes_to_bytes (state : WidgetState1)
    (h0 : -2147483648 ≤ state.version ∧ state.version < 2147483648)
    (h1 : -2147483648 ≤ state.line1 ∧ state.line1 < 2147483648)
    (h2 : -2147483648 ≤ state.line2 ∧ state.line2 < 2147483648)
    (h3 : -2147483648 ≤ state.line3 ∧ state.line3 < 2147483648)
    (h4 : -2147483648 ≤ state.line4 ∧ state.line4 < 2147483648) :
    WidgetState1.of_bytes state.to_bytes = state := by
  have e4 : state.to_bytes.drop 4 = int_bytes state.line1 ++ (int_bytes state.line2 ++
      (int_bytes state.line3 ++ (int_bytes state.line4 ++ []))) := by
    unfold WidgetState1.to_bytes
    simp only [List.append_assoc, List.append_nil]
    rfl
  have e8 : state.to_bytes.drop 8 = int_bytes state.line2 ++
      (int_bytes state.line3 ++ (int_bytes state.line4 ++ [])) := by
    unfold WidgetState1.to_bytes
    simp only [List.append_assoc, List.append_nil]
    rfl
  have e12 : state.to_bytes.drop 12 = int_bytes state.line3 ++ (int_bytes state.line4 ++ []) := by
    unfold WidgetState1.to_bytes
    simp only [List.append_assoc, List.append_nil]
    rfl
  have e16 : state.to_bytes.drop 16 = int_bytes state.line4 ++ [] := by
    unfold WidgetState1.to_bytes
    simp only [List.append_assoc, List.append_nil]
    rfl
  have e0 : state.to_bytes = int_bytes state.version ++ (int_bytes state.line1 ++
      (int_bytes state.line2 ++ (int_bytes state.line3 ++ int_bytes state.line4))) := by
    unfold WidgetState1.to_bytes
    simp only [List.append_assoc]
  unfold WidgetState1.of_bytes
  rw [e4, e8, e12, e16]
  rw [int_of_bytes_int_bytes _ _ h1, int_of_bytes_int_bytes _ _ h2,
    int_of_bytes_int_bytes _ _ h3, int_of_bytes_int_bytes _ _ h4, e0,
    int_of_bytes_int_bytes _ _ h0]

theorem length_to_bytes (state : WidgetState1) : state.to_bytes.length = 20 := by
  unfold WidgetState1.to_bytes
  simp only [List.length_append, length_int_bytes]

/-! ## Saving and restoring the column positions -/

/-- C27: for all `int` values of the column fields `line1_ .. line4_` of a view `v`,
`restoreState(saveState())` on any view `w` sets the four column fields of `w` to
those of `v` and leaves the other fields of `w` alone; the buffer of `saveState` has
`sizeof(WidgetState1)` bytes and its `version` field holds `sizeof(WidgetState1)`. -/
theorem saveState_restoreState_round_trip (v w : QDisassemblyView)
    (h1 : -2147483648 ≤ v.line1_ ∧ v.line1_ < 2147483648)
    (h2 : -2147483648 ≤ v.line2_ ∧ v.line2_ < 2147483648)
    (h3 : -2147483648 ≤ v.line3_ ∧ v.line3_ < 2147483648)
    (h4 : -2147483648 ≤ v.line4_ ∧ v.line4_ < 2147483648) :
    restoreState w (saveState v)
        = { w with line1_ := v.line1_, line2_ := v.line2_, line3_ := v.line3_,
                   line4_ := v.line4_ } ∧
      (saveState v).length = sizeof_WidgetState1 ∧
      (WidgetState1.of_bytes (saveState v)).version = sizeof_WidgetState1 := by
  have hof : WidgetState1.of_bytes (saveState v)
      = { version := sizeof_WidgetState1, line1 := v.line1_, line2 := v.line2_,
          line3 := v.line3_, line4 := v.line4_ } := by
    unfold saveState
    exact of_bytes_to_bytes _ ⟨by dsimp only; decide, by dsimp only; decide⟩ h1 h2 h3 h4
  have hlen : (saveState v).length = 20 := by
    unfold saveState
    exact length_to_bytes _
  refine ⟨?_, hlen, by rw [hof]⟩
  unfold restoreState
  rw [hof, hlen, if_pos (by decide), if_pos (Int.le_refl _)]

/-- Witness of C27: the column positions `120, 300, -1, 2147483647` come back. -/
theorem saveState_restoreState_round_trip_witness :
    restoreState sample_view (saveState column_view)
        = { sample_view with line1_ := 120, line2_ := 300, line3_ := -1,
                             line4_ := 2147483647 } ∧
      (saveState column_view).length = sizeof_WidgetState1 ∧
      (WidgetState1.of_bytes (saveState column_view)).version = sizeof_WidgetState1 :=
  saveState_restoreState_round_trip column_view sample_view (by decide) (by decide)
    (by decide) (by decide)

/-! ## The heuristic step and the region start -/

/-- C23 fails on the code: the view shows the region `[0x1001, 0x1010)`
(`address_offset_ = 0x1001`) and the byte before the region, at `0x1000`, starts a
two-byte instruction.  The guard of the heuristic loop compares `address`, not
`prev_address`, with `address_offset_`, so from offset `1` (address `0x1002`) the
candidate `i = 2` at `0x1000` is read, decodes to two bytes and is accepted: the step
returns offset `-1`, before the region start. -/
theorem previous_instruction_heuristic_leaves_region :
    get_instruction_size (toy_env 0x1000 sample_code)
        (addr_sub (addr_add offset_view.address_offset_ 1) 2) 15 = some 2 ∧
      addr_sub (addr_add offset_view.address_offset_ 1) 2 < offset_view.address_offset_ ∧
      previous_instruction (toy_env 0x1000 sample_code) offset_view none 0 1 = some (-1) := by
  decide


/-! ## Termination of the function-aware loop -/

theorem function_walk_step (env : Env) (region_ : Option Region) (target fuel fs : Nat) :
    (function_walk env region_ target (fuel + 1) fs = some fs ∧
        (function_walk_decode env region_ fs = none ∨
          ∃ L, function_walk_decode env region_ fs = some L ∧ target ≤ addr_add fs L)) ∨
      ∃ L, function_walk_decode env region_ fs = some L ∧ addr_add fs L < target ∧
        function_walk env region_ target (fuel + 1) fs
          = function_walk env region_ target fuel (addr_add fs L) := by
  cases hr : env.get_instruction_bytes fs (function_walk_buf_size env region_ fs) with
  | none =>
    refine Or.inl ⟨?_, Or.inl ?_⟩
    · rw [function_walk, hr]
    · rw [function_walk_decode, hr]
  | some buf =>
    cases hv : (env.decode buf fs).valid with
    | false =>
      refine Or.inl ⟨?_, Or.inl ?_⟩
      · rw [function_walk, hr]; simp only [hv, if_true]
      · rw [function_walk_decode, hr]; simp only [hv]; rfl
    | true =>
      have hd : function_walk_decode env region_ fs = some (env.decode buf fs).byte_size := by
        rw [function_walk_decode, hr]; simp only [hv, if_true]
      by_cases hge : target ≤ addr_add fs ((env.decode buf fs).byte_size : Int)
      · refine Or.inl ⟨?_, Or.inr ⟨_, hd, hge⟩⟩
        rw [function_walk, hr]
        simp only [hv, hge, if_true, Bool.true_eq_false, if_false]
      · refine Or.inr ⟨_, hd, by omega, ?_⟩
        rw [function_walk, hr]
        simp only [hv, hge, Bool.true_eq_false, if_false]

/-- C24: for a decoder whose valid instructions have `1 .. MAX_SIZE` bytes and a
target address at least `MAX_SIZE` below the top of the address space, the
function-aware loop of `previous_instruction` terminates for every analyzer answer
`e`, every region and every behaviour of the memory reads: `target + 1` iterations
are always enough.  Each iteration either breaks (the read fails, the instruction is
invalid, or the next address is at or above the target) and leaves `function_start`
as it is, or advances `function_start` by the decoded length of a valid instruction
to an address strictly below the target; and from an entry below the target the
final `function_start` is below the target. -/
theorem function_walk_terminates_for_every_answer (env : Env) (region_ : Option Region)
    (target e : Nat)
    (hpos : ∀ bytes rva, (env.decode bytes rva).valid = true →
      1 ≤ (env.decode bytes rva).byte_size)
    (hle : ∀ bytes rva, (env.decode bytes rva).byte_size ≤ env.MAX_SIZE)
    (htarget : target + env.MAX_SIZE ≤ 18446744073709551616) :
    (∀ fuel, target + 1 ≤ fuel → ∃ p, function_walk env region_ target fuel e = some p) ∧
      (∀ fuel fs,
        (function_walk env region_ target (fuel + 1) fs = some fs ∧
          (function_walk_decode env region_ fs = none ∨
            ∃ L, function_walk_decode env region_ fs = some L ∧ target ≤ addr_add fs L)) ∨
        ∃ L, function_walk_decode env region_ fs = some L ∧ 1 ≤ L ∧
          addr_add fs L < target ∧
          function_walk env region_ target (fuel + 1) fs
            = function_walk env region_ target fuel (addr_add fs L)) ∧
      (∀ fuel p, e < target → function_walk env region_ target fuel e = some p →
        p < target) := by
  refine ⟨?_, ?_, ?_⟩
  · intro fuel hfuel
    by_cases he : e < target
    · obtain ⟨p, hp, _⟩ := function_walk_terminates env region_ target hpos hle htarget
        fuel e he (by omega)
      exact ⟨p, hp⟩
    · obtain ⟨f, rfl⟩ : ∃ f, fuel = f + 1 := ⟨fuel - 1, by omega⟩
      rcases function_walk_step env region_ target f e with ⟨h, _⟩ | ⟨L, _, hlt, h⟩
      · exact ⟨e, h⟩
      · obtain ⟨p, hp, _⟩ := function_walk_terminates env region_ target hpos hle htarget
          f (addr_add e L) hlt (by omega)
        exact ⟨p, by rw [h, hp]⟩
  · intro fuel fs
    rcases function_walk_step env region_ target fuel fs with h | ⟨L, hd, hlt, h⟩
    · exact Or.inl h
    · obtain ⟨buf, _, hv, hL⟩ := function_walk_decode_some env region_ fs L hd
      exact Or.inr ⟨L, hd, by rw [← hL]; exact hpos buf fs hv, hlt, h⟩
  · intro fuel p he hp
    exact function_walk_below_target env region_ target fuel e p he hp

/-- Witness of C24 on the test bench: the walk from the entry `0x1000` towards
`0x100A`. -/
theorem function_walk_terminates_for_every_answer_witness :
    ∃ p, function_walk (toy_env 0x1000 sample_code) (some low_base_region) 0x100A 4107
      0x1000 = some p :=
  (function_walk_terminates_for_every_answer (toy_env 0x1000 sample_code)
    (some low_base_region) 0x100A 0x1000 toy_decode_valid_pos toy_decode_size_le
    (by decide)).1 4107 (by decide)


/-! ## From a click to an address -/

theorem bytes_at_getElem? (mem : Nat → Nat) (a n i : Nat) :
    (bytes_at mem a n)[i]? = if i < n then some (mem (a + i)) else none := by
  unfold bytes_at
  rw [List.getElem?_map]
  by_cases h : i < n
  · rw [if_pos h, List.getElem?_range h]; rfl
  · rw [if_neg h, List.getElem?_eq_none (by simpa using h)]; rfl

theorem length_bytes_at (mem : Nat → Nat) (a n : Nat) : (bytes_at mem a n).length = n := by
  unfold bytes_at; simp

theorem drop_bytes_at (mem : Nat → Nat) (a n o : Nat) :
    (bytes_at mem a n).drop o = bytes_at mem (a + o) (n - o) := by
  apply List.ext_getElem?
  intro i
  rw [List.getElem?_drop, bytes_at_getElem?, bytes_at_getElem?]
  by_cases h : o + i < n
  · rw [if_pos h, if_pos (by omega), Nat.add_assoc]
  · rw [if_neg h, if_neg (by omega)]

theorem take_bytes_at (mem : Nat → Nat) (a n m : Nat) (h : m ≤ n) :
    (bytes_at mem a n).take m = bytes_at mem a m := by
  apply List.ext_getElem?
  intro i
  rw [List.getElem?_take, bytes_at_getElem?, bytes_at_getElem?]
  by_cases h1 : i < m
  · rw [if_pos h1, if_pos h1, if_pos (by omega)]
  · rw [if_neg h1, if_neg h1]

theorem get_instruction_size_buf_size_inside (env : Env) (region : Region) (A : Nat)
    (hmax' : env.MAX_SIZE < 2147483648)
    (hend : region.end_ + env.MAX_SIZE ≤ 18446744073709551616) (hA : A < region.end_) :
    get_instruction_size_buf_size env region A
      = ((min env.MAX_SIZE (region.end_ - A) : Nat) : Int) := by
  unfold get_instruction_size_buf_size
  have hadd : addr_add A (env.MAX_SIZE : Int) = A + env.MAX_SIZE :=
    addr_add_exact _ _ (by omega)
  rw [hadd]
  by_cases hc : region.end_ < A + env.MAX_SIZE
  · rw [if_pos ⟨by omega, hc⟩, if_pos (by omega)]
    have hsub : addr_sub region.end_ (A : Int) = region.end_ - A := by
      unfold addr_sub; omega
    rw [hsub, Nat.min_eq_right (by omega)]
    unfold to_int
    omega
  · rw [if_neg (by intro h; exact hc h.2), Nat.min_eq_left (by omega)]

/-- One line down: where the rendering loop decodes, from a buffer of `B` bytes at
`A`, an instruction whose successor line still starts inside the region, the loop of
`address_from_coord` advances by the same amount. -/
theorem address_from_coord_advance (env : Env) (region : Region) (mem : Nat → Nat)
    (A B rva : Nat)
    (hmax : 1 ≤ env.MAX_SIZE) (hmax' : env.MAX_SIZE < 2147483648)
    (hend : region.end_ + env.MAX_SIZE ≤ 18446744073709551616)
    (hreads : ∀ n, 1 ≤ n → A + n ≤ region.end_ →
      env.get_instruction_bytes A n = some (bytes_at mem A n))
    (hpos : ∀ bytes rva, (env.decode bytes rva).valid = true →
      1 ≤ (env.decode bytes rva).byte_size)
    (hfit : ∀ bytes rva, (env.decode bytes rva).valid = true →
      (env.decode bytes rva).byte_size ≤ bytes.length)
    (hle : ∀ bytes rva, (env.decode bytes rva).valid = true →
      (env.decode bytes rva).byte_size ≤ env.MAX_SIZE)
    (hinvalid : ∀ bytes rva, (env.decode bytes rva).valid = false →
      (env.decode bytes rva).byte_size ≤ 1)
    (hlocal : ∀ b1 r1 b2 r2, (env.decode b1 r1).valid = true →
      b2.take (env.decode b1 r1).byte_size = b1.take (env.decode b1 r1).byte_size →
      (env.decode b2 r2).valid = true ∧
        (env.decode b2 r2).byte_size = (env.decode b1 r1).byte_size)
    (hB : env.MAX_SIZE ≤ B)
    (hnext : A + (if (env.decode (bytes_at mem A B) rva).valid
        then (env.decode (bytes_at mem A B) rva).byte_size else 1) < region.end_) :
    ∃ size : Int, get_instruction_size_in_region env region A = some size ∧
      (if size ≠ 0 then size else 1)
        = (((if (env.decode (bytes_at mem A B) rva).valid
            then (env.decode (bytes_at mem A B) rva).byte_size else 1 : Nat)) : Int) := by
  have hA : A < region.end_ := by omega
  have hm1 : 1 ≤ min env.MAX_SIZE (region.end_ - A) := by
    rw [Nat.le_min]; omega
  have hm2 : A + min env.MAX_SIZE (region.end_ - A) ≤ region.end_ := by
    have := Nat.min_le_right env.MAX_SIZE (region.end_ - A)
    omega
  have hmB : min env.MAX_SIZE (region.end_ - A) ≤ B :=
    Nat.le_trans (Nat.min_le_left _ _) hB
  have hsize : get_instruction_size_in_region env region A
      = some (((env.decode (bytes_at mem A (min env.MAX_SIZE (region.end_ - A))) 0).byte_size
          : Nat) : Int) := by
    unfold get_instruction_size_in_region
    rw [get_instruction_size_buf_size_inside env region A hmax' hend hA]
    unfold get_instruction_size
    rw [if_pos (Int.ofNat_nonneg _), Int.toNat_ofNat, hreads _ hm1 hm2]
    rfl
  refine ⟨_, hsize, ?_⟩
  cases hv : (env.decode (bytes_at mem A B) rva).valid with
  | true =>
    rw [hv] at hnext
    simp only [if_true] at hnext ⊢
    have h1 := hpos _ _ hv
    have h2 := hle _ _ hv
    have hn : (env.decode (bytes_at mem A B) rva).byte_size
        ≤ min env.MAX_SIZE (region.end_ - A) := by
      rw [Nat.le_min]; omega
    have htake : (bytes_at mem A (min env.MAX_SIZE (region.end_ - A))).take
          (env.decode (bytes_at mem A B) rva).byte_size
        = (bytes_at mem A B).take (env.decode (bytes_at mem A B) rva).byte_size := by
      rw [take_bytes_at _ _ _ _ hn, take_bytes_at _ _ _ _ (by omega)]
    have := hlocal _ rva (bytes_at mem A (min env.MAX_SIZE (region.end_ - A))) 0 hv htake
    rw [this.2]
    rw [if_pos (by omega)]
  | false =>
    simp only [Bool.false_eq_true, if_false]
    cases hd : (env.decode (bytes_at mem A (min env.MAX_SIZE (region.end_ - A))) 0).valid with
    | true =>
      exfalso
      have hf := hfit _ _ hd
      rw [length_bytes_at] at hf
      have htake : (bytes_at mem A B).take
            (env.decode (bytes_at mem A (min env.MAX_SIZE (region.end_ - A))) 0).byte_size
          = (bytes_at mem A (min env.MAX_SIZE (region.end_ - A))).take
            (env.decode (bytes_at mem A (min env.MAX_SIZE (region.end_ - A))) 0).byte_size := by
        rw [take_bytes_at _ _ _ _ hf, take_bytes_at _ _ _ _ (by omega)]
      have := (hlocal _ 0 (bytes_at mem A B) rva hd htake).1
      rw [hv] at this
      exact Bool.noConfusion this
    | false =>
      have := hinvalid _ _ hd
      by_cases h0 : (env.decode (bytes_at mem A (min env.MAX_SIZE (region.end_ - A))) 0).byte_size
          = 0
      · rw [h0]; rfl
      · rw [if_pos (by omega)]
        have : (env.decode (bytes_at mem A (min env.MAX_SIZE (region.end_ - A))) 0).byte_size
            = 1 := by omega
        rw [this]

theorem address_from_coord_loop_lines (env : Env) (v : QDisassemblyView) (region : Region)
    (mem : Nat → Nat) (s B : Nat) (M : Int)
    (hmax : 1 ≤ env.MAX_SIZE) (hmax' : env.MAX_SIZE < 2147483648)
    (hend : region.end_ + env.MAX_SIZE ≤ 18446744073709551616)
    (hreads : ∀ a n, v.address_offset_ + s ≤ a → 1 ≤ n → a + n ≤ region.end_ →
      env.get_instruction_bytes a n = some (bytes_at mem a n))
    (hpos : ∀ bytes rva, (env.decode bytes rva).valid = true →
      1 ≤ (env.decode bytes rva).byte_size)
    (hfit : ∀ bytes rva, (env.decode bytes rva).valid = true →
      (env.decode bytes rva).byte_size ≤ bytes.length)
    (hle : ∀ bytes rva, (env.decode bytes rva).valid = true →
      (env.decode bytes rva).byte_size ≤ env.MAX_SIZE)
    (hinvalid : ∀ bytes rva, (env.decode bytes rva).valid = false →
      (env.decode bytes rva).byte_size ≤ 1)
    (hlocal : ∀ b1 r1 b2 r2, (env.decode b1 r1).valid = true →
      b2.take (env.decode b1 r1).byte_size = b1.take (env.decode b1 r1).byte_size →
      (env.decode b2 r2).valid = true ∧
        (env.decode b2 r2).byte_size = (env.decode b1 r1).byte_size)
    (hM : ∀ o : Nat, (o : Int) < M → v.address_offset_ + s + o < region.end_) :
    ∀ (n o j : Nat) (p : Nat × Instruction), o + env.MAX_SIZE * n ≤ B →
      (disassemble_lines env (bytes_at mem (v.address_offset_ + s) B) (v.address_offset_ + s)
        M n o).1[j]? = some p →
      address_from_coord_loop env v region j (s + o) + v.address_offset_ = p.1 := by
  intro n
  induction n with
  | zero => intro o j p _ h; simp [disassemble_lines] at h
  | succ n ih =>
    intro o j p hB h
    rw [Nat.mul_succ] at hB
    unfold disassemble_lines at h
    by_cases hlt : (o : Int) < M
    · rw [if_pos hlt] at h
      have ho := hM o hlt
      have hS : addr_add (v.address_offset_ + s) (o : Int) = v.address_offset_ + s + o :=
        addr_add_exact _ _ (by omega)
      cases j with
      | zero =>
        simp only [List.getElem?_cons_zero, Option.some.injEq] at h
        rw [← h]
        simp only [address_from_coord_loop]
        rw [hS]
        omega
      | succ j =>
        simp only [List.getElem?_cons_succ] at h
        rw [drop_bytes_at, hS] at h
        obtain ⟨o1, ho1, ho1M, _⟩ := disassemble_lines_entries _ _ _ _ _ _ p
          (List.getElem?_mem h)
        have ho1e := hM o1 ho1M
        have hnext : v.address_offset_ + s + o
            + (if (env.decode (bytes_at mem (v.address_offset_ + s + o) (B - o))
                  (v.address_offset_ + s + o)).valid
                then (env.decode (bytes_at mem (v.address_offset_ + s + o) (B - o))
                  (v.address_offset_ + s + o)).byte_size else 1) < region.end_ := by
          split
          · rename_i hv
            rw [if_pos hv] at ho1
            omega
          · rename_i hv
            rw [if_neg hv] at ho1
            omega
        obtain ⟨size, hsz, hadv⟩ := address_from_coord_advance env region mem
          (v.address_offset_ + s + o) (B - o) (v.address_offset_ + s + o) hmax hmax' hend
          (fun m hm1 hm2 => hreads _ m (by omega) hm1 hm2) hpos hfit hle hinvalid hlocal
          (by omega) hnext
        have hA : addr_add v.address_offset_ ((s + o : Nat) : Int)
            = v.address_offset_ + s + o := by
          rw [addr_add_exact _ _ (by omega)]; omega
        rw [address_from_coord_loop, hA, hsz]
        simp only
        rw [hadv, addr_add_exact _ _ (by omega)]
        by_cases hv : (env.decode (bytes_at mem (v.address_offset_ + s + o) (B - o))
            (v.address_offset_ + s + o)).valid = true
        · rw [if_pos hv] at h hnext ⊢
          have h2 := hle _ _ hv
          have := ih (o + (env.decode (bytes_at mem (v.address_offset_ + s + o) (B - o))
            (v.address_offset_ + s + o)).byte_size) j p (by omega) h
          rw [← this, Nat.add_assoc]
        · rw [if_neg hv] at h hnext ⊢
          have := ih (o + 1) j p (by omega) h
          rw [← this, Nat.add_assoc]
    · rw [if_neg hlt] at h
      simp at h

theorem toy_decode_fit (bytes : List Nat) (rva : Nat)
    (h : (toy_decode bytes rva).valid = true) :
    (toy_decode bytes rva).byte_size ≤ bytes.length := by
  unfold toy_decode at h ⊢
  cases bytes with
  | nil => simp at h
  | cons n t =>
    simp only at h ⊢
    split
    · rename_i hc; exact hc.2.2
    · rename_i hc; rw [if_neg hc] at h; simp at h

theorem toy_decode_local (b1 : List Nat) (r1 : Nat) (b2 : List Nat) (r2 : Nat)
    (h : (toy_decode b1 r1).valid = true)
    (ht : b2.take (toy_decode b1 r1).byte_size = b1.take (toy_decode b1 r1).byte_size) :
    (toy_decode b2 r2).valid = true ∧
      (toy_decode b2 r2).byte_size = (toy_decode b1 r1).byte_size := by
  cases b1 with
  | nil => simp [toy_decode] at h
  | cons n t =>
    by_cases hc : 1 ≤ n ∧ n ≤ 15 ∧ n ≤ (n :: t).length
    · have hsize : (toy_decode (n :: t) r1).byte_size = n := by
        simp only [toy_decode, if_pos hc]
      rw [hsize] at ht ⊢
      obtain ⟨m, hm⟩ : ∃ m, n = m + 1 := ⟨n - 1, by omega⟩
      have hlen := congrArg List.length ht
      rw [List.length_take, List.length_take] at hlen
      cases b2 with
      | nil =>
        simp only [List.length_nil, List.length_cons] at hlen hc
        omega
      | cons a t2 =>
        have ha : a = n := by
          rw [hm] at ht
          simp only [List.take_succ_cons, List.cons.injEq] at ht
          rw [ht.1, hm]
        subst ha
        have hc2 : 1 ≤ a ∧ a ≤ 15 ∧ a ≤ (a :: t2).length := by
          refine ⟨hc.1, hc.2.1, ?_⟩
          simp only [List.length_cons] at hlen hc ⊢
          omega
        simp only [toy_decode, if_pos hc2, and_self]
    · simp only [toy_decode, if_neg hc] at h
      exact Bool.noConfusion h

/-- C22: when the reads succeed in full (the buffer of `updateDisassembly` and every
read inside the region return the bytes of one memory `mem`), decoding depends only
on the bytes of the instruction (a valid instruction of `1 .. MAX_SIZE` bytes is
decoded the same from every buffer that starts with its bytes, at every rva; an
invalid one reports at most one byte), `instruction_buffer_` holds `MAX_SIZE` bytes
per line, and the scroll position lies in a region that ends at least `MAX_SIZE`
below the top of the address space: for every line `k` that `updateDisassembly`
materialized, with address `a`, and every `y` with `y / line_height = k`,
`address_from_coord(x, y)` is `a - address_offset_`, whatever `x` is. -/
theorem address_from_coord_matches_updateDisassembly (env : Env) (v : QDisassemblyView)
    (region : Region) (mem : Nat → Nat) (lines_to_render line_height y : Int) (k a : Nat)
    (hscroll : 0 ≤ v.scroll_value)
    (hstart : v.address_offset_ + v.scroll_value.toNat ≤ region.end_)
    (hend : region.end_ + env.MAX_SIZE ≤ 18446744073709551616)
    (hmax : 1 ≤ env.MAX_SIZE) (hmax' : env.MAX_SIZE < 2147483648)
    (hbuf : env.MAX_SIZE * lines_to_render.toNat ≤ v.instruction_buffer_size)
    (hread_buf : env.get_instruction_bytes (v.address_offset_ + v.scroll_value.toNat)
        v.instruction_buffer_size
      = some (bytes_at mem (v.address_offset_ + v.scroll_value.toNat)
          v.instruction_buffer_size))
    (hreads : ∀ a n, v.address_offset_ + v.scroll_value.toNat ≤ a → 1 ≤ n →
      a + n ≤ region.end_ → env.get_instruction_bytes a n = some (bytes_at mem a n))
    (hpos : ∀ bytes rva, (env.decode bytes rva).valid = true →
      1 ≤ (env.decode bytes rva).byte_size)
    (hfit : ∀ bytes rva, (env.decode bytes rva).valid = true →
      (env.decode bytes rva).byte_size ≤ bytes.length)
    (hle : ∀ bytes rva, (env.decode bytes rva).valid = true →
      (env.decode bytes rva).byte_size ≤ env.MAX_SIZE)
    (hinvalid : ∀ bytes rva, (env.decode bytes rva).valid = false →
      (env.decode bytes rva).byte_size ≤ 1)
    (hlocal : ∀ b1 r1 b2 r2, (env.decode b1 r1).valid = true →
      b2.take (env.decode b1 r1).byte_size = b1.take (env.decode b1 r1).byte_size →
      (env.decode b2 r2).valid = true ∧
        (env.decode b2 r2).byte_size = (env.decode b1 r1).byte_size)
    (hk : Int.tdiv y line_height = (k : Int))
    (hshow : (updateDisassembly env v region lines_to_render).show_addresses_[k]? = some a) :
    ∀ x : Int, address_from_coord env v region line_height x y
      = addr_sub a v.address_offset_ := by
  intro x
  have hS : addr_add v.address_offset_ v.scroll_value
      = v.address_offset_ + v.scroll_value.toNat := by
    unfold addr_add; omega
  have hs0 : addr_add 0 v.scroll_value = v.scroll_value.toNat := by
    unfold addr_add; omega
  rw [updateDisassembly_read_ok env v region lines_to_render _ (by rw [hS]; exact hread_buf)]
    at hshow
  dsimp only at hshow
  rw [hS, List.getElem?_map] at hshow
  cases hp : (disassemble_lines env
      (bytes_at mem (v.address_offset_ + v.scroll_value.toNat) v.instruction_buffer_size)
      (v.address_offset_ + v.scroll_value.toNat)
      (min (to_int (addr_sub region.end_ (v.address_offset_ + v.scroll_value.toNat : Nat)))
        ((bytes_at mem (v.address_offset_ + v.scroll_value.toNat)
          v.instruction_buffer_size).length : Int))
      lines_to_render.toNat 0).1[k]? with
  | none => rw [hp] at hshow; simp at hshow
  | some p =>
    rw [hp] at hshow
    simp only [Option.map_some', Option.some.injEq] at hshow
    have hM : ∀ o : Nat, (o : Int)
        < min (to_int (addr_sub region.end_ (v.address_offset_ + v.scroll_value.toNat : Nat)))
          ((bytes_at mem (v.address_offset_ + v.scroll_value.toNat)
            v.instruction_buffer_size).length : Int) →
        v.address_offset_ + v.scroll_value.toNat + o < region.end_ :=
      fun o ho => max_offset_no_wrap _ _ _ (by omega) hstart o ho
    have hloop := address_from_coord_loop_lines env v region mem v.scroll_value.toNat
      v.instruction_buffer_size _ hmax hmax' hend hreads hpos hfit hle hinvalid hlocal hM
      lines_to_render.toNat 0 k p (by omega) hp
    obtain ⟨o1, _, ho1M, hp1, _⟩ := disassemble_lines_entries _ _ _ _ _ _ p
      (List.getElem?_mem hp)
    have ho1 := hM o1 ho1M
    rw [addr_add_exact _ _ (by omega)] at hp1
    unfold address_from_coord
    dsimp only
    rw [hk, Int.toNat_ofNat, hs0]
    rw [Nat.add_zero] at hloop
    unfold addr_sub
    omega

/-- Witness of C22 on the test bench: a click at `y = 20` with lines of height `16`
lands on line `1`, which shows `0x1002`, and `address_from_coord` is `2`. -/
theorem address_from_coord_matches_updateDisassembly_witness :
    (updateDisassembly flat_env sample_view sample_region 2).show_addresses_[1]?
        = some 0x1002 ∧
      address_from_coord flat_env sample_view sample_region 16 7 20
        = addr_sub 0x1002 sample_view.address_offset_ :=
  ⟨by decide,
    address_from_coord_matches_updateDisassembly flat_env sample_view sample_region
      sample_memory 2 16 20 1 0x1002 (by decide) (by decide) (by decide) (by decide)
      (by decide) (by decide) rfl (fun _ _ _ _ _ => rfl) toy_decode_valid_pos toy_decode_fit
      (fun b r _ => toy_decode_size_le b r) toy_decode_invalid_size toy_decode_local
      (by decide) (by decide) 7⟩

end Edb
